import Mathlib

/-!
# kdev-kernel: file validity, Makefile fact extraction and `.config` parsing

A shallow embedding of `src/kdevkernelplugin.cpp`.

Conventions of the embedding.

* `QString` is a list of characters.  A `KUrl` is the text of its local path
  (`toLocalFile()`); schemes, queries, fragments and percent-encoding are not
  part of the embedding, and two `KUrl`s are equal when their paths are.
* Time stamps (`QDateTime`) are natural numbers; the null `QDateTime` of a
  default-constructed `ValidFilesList` is `0`.
* The file system and the clock are inputs of every operation (`World`); the clock does
  not advance during one call.
* The three member maps of the plugin are explicit state (`Plugin`).
* Files are texts of ASCII characters without NUL.  On other bytes the source differs
  from the embedding: `QString(QByteArray)` ends a line that was read at its first NUL,
  and the classes `\w` and `digitValue()` of Qt also hold letters and digits outside
  ASCII.
* The only loop of the source that need not end is the `while (nDir2 != dir)` of
  `parseMakefile`; it is embedded with fuel (`climb`), one unit for each iteration, and a
  call that does not return within the fuel is `none`.
-/

namespace KDevKernel

/-! ## QString -/

abbrev QString := List Char

/-- Embedding of `QString::startsWith`. -/
def startsWith (s t : QString) : Bool := t.isPrefixOf s

/-- Embedding of `QString::endsWith`. -/
def endsWith (s t : QString) : Bool := t.isSuffixOf s

/-- Embedding of `QString::mid(position, n)`: null when `position` is not inside the string, the
whole remainder when `n` is negative or exceeds what is left. -/
def mid (s : QString) (position : Nat) (n : Int) : QString :=
  if s.length ≤ position then []
  else if n < 0 then s.drop position
  else (s.drop position).take n.toNat

/-- Embedding of `QString::left(n)`: the whole string when `n` is negative or not smaller than the
size. -/
def left (s : QString) (n : Int) : QString :=
  if n < 0 then s else s.take n.toNat

/-- Embedding of `QString::size()` as a C++ `int`. -/
def size (s : QString) : Int := (s.length : Int)

/-- Worker of `replace`: the counter is the number of characters of the current
occurrence of `before` that are still to be skipped. -/
def replaceGo (before after : QString) : Nat → QString → QString
  | _, [] => []
  | k + 1, _ :: cs => replaceGo before after k cs
  | 0, c :: cs =>
    if before.isPrefixOf (c :: cs) then after ++ replaceGo before after (before.length - 1) cs
    else c :: replaceGo before after 0 cs

/-- Embedding of `QString::replace(before, after)` for a non-empty `before`: every occurrence, scanning
from the left, occurrences do not overlap and the inserted text is not scanned again. -/
def replace (s before after : QString) : QString := replaceGo before after 0 s

/-- Embedding of `QString::remove(str)`: every occurrence of `str` is deleted. -/
def remove (s str : QString) : QString := replace s str []

/-- The regular expression `spTab`, `"\t| "`, as a predicate on one character. -/
def spTab (c : Char) : Bool := c == '\t' || c == ' '

/-- Embedding of `QString::split(spTab, QString::SkipEmptyParts)`. -/
def splitSkipEmpty (s : QString) : List QString :=
  (s.splitOnP spTab).filter (fun t => !t.isEmpty)

/-- The class `\w` of `QRegExp` on ASCII characters: letters, digits and the underscore. -/
def isWord (c : Char) : Bool := c.isAlphanum || c == '_'

/-! ## KUrl -/

abbrev KUrl := List Char

/-- Worker of `removeTrailingSlash` on the reversed path:
`while (len > 1 && result[len - 1] == '/') len--`. -/
def dropSlashesRev : List Char → List Char
  | '/' :: c :: cs => dropSlashesRev (c :: cs)
  | r => r

/-- Embedding of `trailingSlash(KUrl::RemoveTrailingSlash, path)`: trailing slashes are removed, but
the path never becomes empty by it. -/
def removeTrailingSlash (path : QString) : QString := (dropSlashesRev path.reverse).reverse

/-- Embedding of `KUrl::adjustPath(KUrl::AddTrailingSlash)`: a slash is appended to a non-empty path
that does not end in one. -/
def KUrl.adjustPath (u : KUrl) : KUrl :=
  if u ≠ [] ∧ u.getLast? ≠ some '/' then u ++ ['/'] else u

/-- Embedding of `KUrl::directory()` with its default options: trailing slashes are ignored, then the
text before the last slash is returned; `/` when that slash is the first character, the
empty string when there is no slash. -/
def KUrl.directory (u : KUrl) : QString :=
  let result := removeTrailingSlash u
  if result = [] ∨ result = ['/'] then result
  else
    match result.reverse.dropWhile (fun c => c != '/') with
    | [] => []
    | _ :: pre => if pre = [] then ['/'] else pre.reverse

/-- Embedding of `KUrl::fileName()` with its default options: the last component of the path,
trailing slashes ignored. -/
def KUrl.fileName (u : KUrl) : QString :=
  ((u.reverse.dropWhile (fun c => c == '/')).takeWhile (fun c => c != '/')).reverse

/-- Dot-segment removal (RFC 3986, 5.2.4) on the list of segments of a path: `.` is
dropped, `..` removes the segment before it, and either of them as the last segment
leaves a trailing slash. -/
def removeDotsAux : List QString → List QString → List QString
  | acc, [] => acc
  | acc, [s] =>
    if s = ['.'] then acc ++ [[]]
    else if s = ['.', '.'] then acc.dropLast ++ [[]]
    else acc ++ [s]
  | acc, s :: t :: rest =>
    if s = ['.'] then removeDotsAux acc (t :: rest)
    else if s = ['.', '.'] then removeDotsAux acc.dropLast (t :: rest)
    else removeDotsAux (acc ++ [s]) (t :: rest)

/-- Dot-segment removal on a path, as `QUrl::resolved` applies it. -/
def removeDotSegments (path : QString) : QString :=
  match path.splitOn '/' with
  | [] :: seg :: rest => '/' :: ['/'].intercalate (removeDotsAux [] (seg :: rest))
  | segs => ['/'].intercalate (removeDotsAux [] segs)

/-- The part of a path up to and including its last slash (the base of a relative
reference); empty when the path has no slash. -/
def mergeBase (base : KUrl) : QString := (base.reverse.dropWhile (fun c => c != '/')).reverse

/-- The constructor `KUrl(base, rel)`: `rel` resolved against `base`.  An empty `rel`
gives `base`, a `rel` that starts with a slash replaces the path, any other `rel` replaces
the last component of `base`; dot segments are removed. -/
def KUrl.relative (base : KUrl) (rel : QString) : KUrl :=
  if rel = [] then base
  else if rel.head? = some '/' then removeDotSegments rel
  else removeDotSegments (mergeBase base ++ rel)

/-! ## The host: projects, files, clock -/

/-- A `KDevelop::IProject *` together with what the plugin reads through it: the project
folder and the entries of the configuration group `KERN_KGROUP`.  An absent key is
`none`. -/
structure IProject where
  /-- The pointer itself: the key of the plugin's per-project maps. -/
  ptr : Nat
  /-- Embedding of `project->folder()`. -/
  folder : KUrl
  /-- Entry `KERN_BDIR`: the build directory. -/
  KERN_BDIR : Option KUrl
  /-- Entry `KERN_ARCH`: the architecture. -/
  KERN_ARCH : Option QString
  /-- Entry `KERN_DEFCONFIG`: the name of the default configuration. -/
  KERN_DEFCONFIG : Option QString
  /-- Entry `KERN_VALIDFILES`: the user's list of files to accept. -/
  KERN_VALIDFILES : Option (List QString)

/-- What `QFile` and `QFileInfo` report about an existing file. -/
structure FileEntry where
  /-- Embedding of `QFileInfo::lastModified()`. -/
  lastModified : Nat
  /-- The bytes read after a successful `open(QIODevice::ReadOnly)`; `none` when the file
  cannot be opened. -/
  content : Option QString

/-- The environment of one call: the files by local path, and the clock. -/
structure World where
  /-- The file at a path, `none` when `exists()` is false. -/
  files : QString → Option FileEntry
  /-- Embedding of `QDateTime::currentDateTime()`. -/
  now : Nat

/-- Successive `readLine()` calls on a file of text: each line keeps its newline, the last
line may lack one, and the empty list is immediate end of file.  No line of a text is
empty, so the test `line.isEmpty()` of lines 150, 189 and 221 is end of file. -/
def readLines : QString → List QString
  | [] => []
  | c :: cs =>
    if c = '\n' then [c] :: readLines cs
    else
      match readLines cs with
      | [] => [[c]]
      | l :: ls => (c :: l) :: ls

/-! ## parseDotConfig -/

/-- The regular expression `def`, `(\w+)=("?[^\n]+"?)\n?`, under `exactMatch`: the
captures `(cap(1), cap(2))`.  The key is the run of word characters before the first `=`;
the value is all the rest of the line but for one final newline, and has to be non-empty
and free of newlines. -/
def defExactMatch (line : QString) : Option (QString × QString) :=
  let key := line.takeWhile isWord
  match line.dropWhile isWord with
  | '=' :: r =>
    let val := if r.getLast? = some '\n' then r.dropLast else r
    if key ≠ [] ∧ val ≠ [] ∧ '\n' ∉ val then some (key, val) else none
  | _ => none

/-- The normalisation of a value in `parseDotConfig` (lines 157 to 159). -/
def normalizeVal (val : QString) : QString :=
  if val = ['y'] then ['1']
  else if val = ['n'] then ['0']
  else if startsWith val ['"'] && endsWith val ['"'] then mid val 1 (size val - 2)
  else val

/-- A `QHash<QString, QString>`. -/
abbrev Defines := QString → Option QString

/-- The assignment `_defs[key] = val`. -/
def Defines.set (defs : Defines) (key val : QString) : Defines :=
  fun k => if k = key then some val else defs k

/-- One iteration of the `while (1)` loop of `parseDotConfig` on a line that was read. -/
def parseDotConfigLine (defs : Defines) (line : QString) : Defines :=
  match defExactMatch line with
  | none => defs
  | some (key, val) => defs.set key (normalizeVal val)

/-- The `while (1)` loop of `parseDotConfig` over the lines of the file. -/
def parseDotConfigLines (defs : Defines) (lines : List QString) : Defines :=
  lines.foldl parseDotConfigLine defs

/-- Embedding of `parseDotConfig(project, dotconfig, _defs)`: the table `_defs` after the call.  When
the file does not exist and a default configuration is named, `make` is run first;
`afterMake` is the file system as that run leaves it.  A file that cannot be opened
leaves the table as it is. -/
def parseDotConfig (w : World) (afterMake : QString → Option FileEntry) (project : IProject)
    (dotconfig : KUrl) (defs : Defines) : Defines :=
  let files :=
    if (w.files dotconfig).isNone ∧ (project.KERN_DEFCONFIG.getD []) ≠ [] then afterMake
    else w.files
  match files dotconfig with
  | none => defs
  | some entry =>
    match entry.content with
    | none => defs
    | some text => parseDotConfigLines defs (readLines text)

/-! ## The plugin's state -/

/-- Modelled from the spec: the header that declares the container types is not part of
the sources at hand; the spec calls `validFiles` and the machine directories sets of
strings.  A set is a list without duplicates, `<<` inserts at the end. -/
def setInsert (x : QString) (s : List QString) : List QString :=
  if x ∈ s then s else s ++ [x]

/-- The `ValidFilesList` of one directory. -/
structure ValidFilesList where
  /-- The time of the last `parseMakefile` of the directory; `0` is the null time. -/
  lastUpdate : Nat
  /-- The names known to be valid in the directory. -/
  validFiles : List QString

/-- A default-constructed `ValidFilesList`. -/
def ValidFilesList.null : ValidFilesList := ⟨0, []⟩

/-- A `QMap<KUrl, ValidFilesList>`.  Keys are never enumerated, so a key that was never
written is the same as one holding the default value. -/
abbrev DirMap := KUrl → ValidFilesList

/-- The empty `QMap<KUrl, ValidFilesList>`. -/
def DirMap.empty : DirMap := fun _ => ValidFilesList.null

/-- The member maps of `KDevKernelPlugin`, keyed by project pointer; `none` is a project
that has no entry in the map.  `parseLog` is a ghost field: the calls of `parseMakefile`
so far, oldest first. -/
structure Plugin where
  /-- The member `_validFiles`. -/
  _validFiles : Nat → Option DirMap
  /-- The member `_machDirs`. -/
  _machDirs : Nat → Option (List QString)
  /-- The member `_defines`. -/
  _defines : Nat → Option Defines
  /-- Ghost: the `(project, dir)` arguments of the calls of `parseMakefile`. -/
  parseLog : List (Nat × KUrl)

/-- The value of `_validFiles[project][dir]`. -/
def Plugin.entry (st : Plugin) (ptr : Nat) (dir : KUrl) : ValidFilesList :=
  ((st._validFiles ptr).getD DirMap.empty) dir

/-- The value of `_machDirs[project]`. -/
def Plugin.machDirs (st : Plugin) (ptr : Nat) : List QString :=
  (st._machDirs ptr).getD []

/-- The value of `_defines[project][key]`, the empty string for a missing key. -/
def Plugin.define (st : Plugin) (ptr : Nat) (key : QString) : QString :=
  (((st._defines ptr).getD (fun _ => none)) key).getD []

/-- Writing `_validFiles[project][dir] = e`; the project and the directory get an entry
when they had none. -/
def Plugin.setEntry (st : Plugin) (ptr : Nat) (dir : KUrl) (e : ValidFilesList) : Plugin :=
  { st with
      _validFiles :=
        Function.update st._validFiles ptr
          (some (Function.update ((st._validFiles ptr).getD DirMap.empty) dir e)) }

/-- The expression `_validFiles[project][dir]` on the non-constant map: the project and
the directory get an entry when they had none, and no value changes. -/
def Plugin.touchEntry (st : Plugin) (ptr : Nat) (dir : KUrl) : Plugin :=
  st.setEntry ptr dir (st.entry ptr dir)

/-- The statement `_validFiles[project][dir].validFiles << f`. -/
def Plugin.addValid (st : Plugin) (ptr : Nat) (dir : KUrl) (f : QString) : Plugin :=
  st.setEntry ptr dir
    { lastUpdate := (st.entry ptr dir).lastUpdate
      validFiles := setInsert f (st.entry ptr dir).validFiles }

/-- The statement `_validFiles[project][dir].lastUpdate = t`. -/
def Plugin.setLastUpdate (st : Plugin) (ptr : Nat) (dir : KUrl) (t : Nat) : Plugin :=
  st.setEntry ptr dir { lastUpdate := t, validFiles := (st.entry ptr dir).validFiles }

/-- The statement `_machDirs[project] << pDir`. -/
def Plugin.addMachDir (st : Plugin) (ptr : Nat) (pDir : QString) : Plugin :=
  { st with _machDirs := Function.update st._machDirs ptr (some (setInsert pDir (st.machDirs ptr))) }

/-! ## parseMakefile -/

/-- The class `[\w-]`. -/
def isWordDash (c : Char) : Bool := isWord c || c == '-'

/-- The class `[^+:= \t]`. -/
def isSuffixChar (c : Char) : Bool :=
  !(c == '+' || c == ':' || c == '=' || c == ' ' || c == '\t')

/-- A string cut at its last `-`: what is before it and what is after it. -/
def splitLastDash (w : QString) : Option (QString × QString) :=
  match w.reverse.dropWhile (fun c => c != '-') with
  | [] => none
  | _ :: pre => some (pre.reverse, (w.reverse.takeWhile (fun c => c != '-')).reverse)

/-- An optional character `c?` at the head of a string. -/
def dropOpt (c : Char) : QString → QString
  | [] => []
  | d :: r => if d = c then r else d :: r

/-- End of the pattern `objy`, `([^\\]+)\\?\n`, on what follows the `=`: the capture
`cap(3)`. -/
def objyValue (rem : QString) : Option QString :=
  match rem.reverse with
  | '\n' :: '\\' :: b => if b ≠ [] ∧ '\\' ∉ b then some b.reverse else none
  | '\n' :: b => if b ≠ [] ∧ '\\' ∉ b then some b.reverse else none
  | _ => none

/-- The regular expression `objy`, `([\w-]+)-([^+:= \t]*)[\t ]*\+?:?=([^\\]+)\\?\n`, under
`exactMatch`: the captures `(cap(1), cap(2), cap(3))`.  The `=` of the pattern is the
first one of the line.  Quantifiers are greedy, so `cap(1)` ends at the last `-` of the
leading run of `[\w-]` characters; `cap(2)` is what follows, up to the first of
`+ : space tab`. -/
def objyExactMatch (line : QString) : Option (QString × QString × QString) :=
  match line.dropWhile (fun c => c != '=') with
  | [] => none
  | _ :: rem =>
    let pre := line.takeWhile (fun c => c != '=')
    match splitLastDash (pre.takeWhile isWordDash) with
    | none => none
    | some (cap1, w2) =>
      let rest := w2 ++ pre.dropWhile isWordDash
      let cap2 := rest.takeWhile isSuffixChar
      let tail := dropOpt ':' (dropOpt '+' ((rest.dropWhile isSuffixChar).dropWhile spTab))
      match objyValue rem with
      | none => none
      | some cap3 => if cap1 ≠ [] ∧ tail = [] then some (cap1, cap2, cap3) else none

/-- Lines 193 to 201: the suffix `cap(2)` with `${` and `}` rewritten to `$(` and `)`, and
a reference `$(SYM)` whose symbol is defined to `1` replaced by `y`. -/
def resolveSuffix (st : Plugin) (ptr : Nat) (cap2 : QString) : QString :=
  let y := replace (replace cap2 ['$', '{'] ['$', '(']) ['}'] [')']
  if startsWith y ['$', '('] && endsWith y [')'] then
    if st.define ptr (mid y 2 (size y - 3)) = ['1'] then ['y'] else y
  else y

/-- Line 203: `y == "y" || y == "objs" || y == ""`. -/
def isActive (y : QString) : Bool :=
  y = ['y'] || y = ['o', 'b', 'j', 's'] || y = []

/-- The state of the scan of a Makefile: `cont` is `some addFiles` while the lines read
belong to the `while (line.endsWith("\\\n"))` loop of a rule; `files` is the list of
collected tokens; `st` is the plugin. -/
structure Scan where
  /-- Inside the continuation loop of a rule, with that rule's `addFiles`. -/
  cont : Option Bool
  /-- The local variable `files`. -/
  files : List QString
  /-- The plugin, of which the scan changes `_machDirs`. -/
  st : Plugin

/-- The body of the `foreach` of lines 209 to 213 for one token of a `machine` or `plat`
rule. -/
def scanMach (ptr : Nat) (cap1 : QString) (s : Scan) (pFile : QString) : Scan :=
  let pDir := (if cap1 = "machine".toList then "mach-".toList else "plat-".toList) ++ pFile
  { s with files := s.files ++ [pDir ++ ['/']], st := s.st.addMachDir ptr pDir }

/-- One line read from the Makefile, by the outer loop (`cont = none`) or by the
continuation loop of a rule. -/
def scanLine (ptr : Nat) (s : Scan) (line : QString) : Scan :=
  match s.cont with
  | some addFiles =>
    { s with
        files :=
          if addFiles then
            s.files ++ splitSkipEmpty (remove (remove line ['\\', '\n']) ['\n'])
          else s.files
        cont := if endsWith line ['\\', '\n'] then some addFiles else none }
  | none =>
    match objyExactMatch line with
    | none => s
    | some (cap1, cap2, cap3) =>
      let addFiles := isActive (resolveSuffix s.st ptr cap2)
      if addFiles && (cap1 = "machine".toList || cap1 = "plat".toList) then
        (splitSkipEmpty cap3).foldl (scanMach ptr cap1) s
      else
        { s with
            files := if addFiles then s.files ++ splitSkipEmpty cap3 else s.files
            cont := if endsWith line ['\\', '\n'] then some addFiles else none }

/-- Lines 237 to 239: the rewriting of the end of a token. -/
def normalizeFile (file : QString) : QString :=
  if endsWith file ['.', 'o'] then mid file 0 (size file - 2) ++ ['.', 'c']
  else if endsWith file ['.', 'd', 't', 'b'] then mid file 0 (size file - 4) ++ ['.', 'd', 't', 's']
  else if endsWith file ['/'] then left file (size file - 1)
  else file

/-- Lines 241 and 242: a token given from the source root inside the architecture
directory loses the leading `arch/<ARCH>/`. -/
def stripArch (dir : KUrl) (archDir file : QString) : QString :=
  if endsWith dir archDir && startsWith file archDir then mid file archDir.length (-1) else file

/-- The loop `while (nDir2 != dir)` of lines 250 to 255.  Each unit of fuel pays for one
iteration; `none` is a loop that has not reached `dir` when the fuel is spent. -/
def climb (ptr : Nat) (dir : KUrl) : Nat → KUrl → Plugin → Option Plugin
  | 0, nDir2, st => if nDir2 = dir then some st else none
  | fuel + 1, nDir2, st =>
    if nDir2 = dir then some st
    else
      let f := KUrl.fileName nDir2
      let d := KUrl.directory nDir2 ++ ['/']
      climb ptr dir fuel d (st.addValid ptr d f)

/-- The body of the `foreach (QString file, files)` of lines 236 to 263. -/
def addFile (fuel : Nat) (ptr : Nat) (dir : KUrl) (archDir : QString) (st : Plugin)
    (file0 : QString) : Option Plugin :=
  let file := stripArch dir archDir (normalizeFile file0)
  if '/' ∈ file then
    let nFile := KUrl.relative dir file
    let nDir := KUrl.directory nFile
    match climb ptr dir fuel nDir st with
    | none => none
    | some st1 =>
      some ((st1.addValid ptr (KUrl.adjustPath nDir) (KUrl.fileName nFile)).addValid ptr dir file)
  else some (st.addValid ptr dir file)

/-- The `foreach` of lines 236 to 263 over the collected tokens. -/
def addFiles (fuel : Nat) (ptr : Nat) (dir : KUrl) (archDir : QString) :
    Plugin → List QString → Option Plugin
  | st, [] => some st
  | st, file :: files =>
    match addFile fuel ptr dir archDir st file with
    | none => none
    | some st1 => addFiles fuel ptr dir archDir st1 files

/-- The string `archDir` of line 235; a missing `KERN_ARCH` reads as the empty string. -/
def archDirOf (project : IProject) : QString :=
  "arch/".toList ++ project.KERN_ARCH.getD [] ++ ['/']

/-- The plugin on entry of `parseMakefile`, after lines 177 and 179: the call is logged,
the entry of `dir` exists and carries the current time. -/
def parseEnter (w : World) (st : Plugin) (dir : KUrl) (project : IProject) : Plugin :=
  { st.setLastUpdate project.ptr dir w.now with
      parseLog := st.parseLog ++ [(project.ptr, dir)] }

/-- Embedding of `parseMakefile(dir, project)`: the plugin after the call, `none` when a `while`
loop of line 250 does not end within `fuel` iterations. -/
def parseMakefile (fuel : Nat) (w : World) (st : Plugin) (dir : KUrl) (project : IProject) :
    Option Plugin :=
  let st0 := parseEnter w st dir project
  match w.files (KUrl.relative dir "Makefile".toList) with
  | none => some st0
  | some entry =>
    match entry.content with
    | none => some st0
    | some text =>
      let s := (readLines text).foldl (scanLine project.ptr) ⟨none, [], st0⟩
      addFiles fuel project.ptr dir (archDirOf project) s.st s.files

/-! ## includeDirectories, import, projectClosing, isValid -/

/-- Function `QChar::digitValue()` on ASCII: the digit a character stands for. -/
def digitValue (c : Char) : Option Nat :=
  if c.isDigit then some (c.toNat - 48) else none

/-- A place marker of `QString::arg` at the head of a string: `%`, an optional `L`, then
one or two digits.  The result is the number of the marker and how many characters the
marker takes. -/
def markerAt (s : QString) : Option (Nat × Nat) :=
  match s with
  | [] => none
  | c :: r =>
    if c = '%' then
      let loc := if r.head? = some 'L' then 1 else 0
      match r.drop loc with
      | [] => none
      | d1 :: r1 =>
        match digitValue d1 with
        | none => none
        | some v1 =>
          match r1.head?.bind digitValue with
          | some v2 => some (10 * v1 + v2, loc + 3)
          | none => some (v1, loc + 2)
    else none

/-- The lowest number among the place markers of a string, if it has one. -/
def lowestMarker : QString → Option Nat
  | [] => none
  | c :: cs =>
    match markerAt (c :: cs), lowestMarker cs with
    | some (n, _), some m => some (min n m)
    | some (n, _), none => some n
    | none, r => r

/-- Worker of `arg`: every marker with the number `n` is replaced by `a`, the rest of the
string is copied; the counter is the number of characters of the current marker that are
still to be skipped. -/
def argGo (n : Nat) (a : QString) : Nat → QString → QString
  | _, [] => []
  | k + 1, _ :: cs => argGo n a k cs
  | 0, c :: cs =>
    match markerAt (c :: cs) with
    | some (m, len) => if m = n then a ++ argGo n a (len - 1) cs else c :: argGo n a 0 cs
    | none => c :: argGo n a 0 cs

/-- Embedding of `QString::arg(a)`: every occurrence of the place marker with the lowest number is
replaced by `a`; the inserted text is not scanned by this call, but a later call of `arg`
on the result scans it.  A string without a marker is returned as it is. -/
def arg (s a : QString) : QString :=
  match lowestMarker s with
  | none => s
  | some n => argGo n a 0 s

/-- Embedding of `includeDirectories(project)`. -/
def includeDirectories (st : Plugin) (project : IProject) : List KUrl :=
  let projectRoot := project.folder
  let bDir := KUrl.adjustPath (project.KERN_BDIR.getD projectRoot)
  [KUrl.relative projectRoot "include".toList]
    ++ (if bDir ≠ projectRoot then [KUrl.relative bDir "include".toList] else [])
    ++ (match project.KERN_ARCH with
        | none => []
        | some arch =>
          [KUrl.relative projectRoot (arg "arch/%1/include".toList arch)]
            ++ (st.machDirs project.ptr).map
                (fun machDir =>
                  KUrl.relative projectRoot (arg (arg "arch/%1/%2/include".toList arch) machDir))
            ++ [KUrl.relative bDir (arg "arch/%1/include/generated".toList arch)])

/-- Embedding of `projectClosing(project)`. -/
def projectClosing (st : Plugin) (project : IProject) : Plugin :=
  { st with
      _validFiles := Function.update st._validFiles project.ptr none
      _machDirs := Function.update st._machDirs project.ptr none
      _defines := Function.update st._defines project.ptr none }

/-- The names of lines 321 to 333. -/
def rootDirs : List QString :=
  ["init", "sound", "net", "lib", "usr", "kernel", "mm", "fs", "ipc", "security", "crypto",
    "block", "drivers"].map String.toList

/-- Lines 307 to 316 of `import`, for a project whose architecture is `arch`. -/
def seedArch (w : World) (st : Plugin) (ptr : Nat) (projectRoot : KUrl) (arch : QString) :
    Plugin :=
  let archUrl := KUrl.relative projectRoot "arch/".toList
  let archArchUrl := KUrl.adjustPath (KUrl.relative archUrl arch)
  let st1 := st.addValid ptr projectRoot "arch".toList
  let st2 := st1.setLastUpdate ptr archUrl w.now
  let st3 := st2.addValid ptr archUrl arch
  st3.addValid ptr archArchUrl "boot".toList

/-- Embedding of `import(project)`, up to the call of the base class.  The project is the
configuration as the dialog of line 288 leaves it. -/
def importProject (w : World) (afterMake : QString → Option FileEntry) (st : Plugin)
    (project : IProject) : Plugin :=
  let projectRoot := KUrl.adjustPath project.folder
  let st1 := projectClosing st project
  let defs0 : Defines := Defines.set (fun _ => none) "__KERNEL__".toList []
  let buildRoot := KUrl.adjustPath (project.KERN_BDIR.getD projectRoot)
  let defs := parseDotConfig w afterMake project (KUrl.relative buildRoot ".config".toList) defs0
  let st2 : Plugin := { st1 with _defines := Function.update st1._defines project.ptr (some defs) }
  let st3 : Plugin :=
    { st2 with _validFiles := Function.update st2._validFiles project.ptr (some DirMap.empty) }
  let st4 := st3.setLastUpdate project.ptr projectRoot w.now
  let st5 :=
    match project.KERN_ARCH with
    | none => st4
    | some arch => seedArch w st4 project.ptr projectRoot arch
  rootDirs.foldl (fun s name => s.addValid project.ptr projectRoot name) st5

/-- The regular expression `Kconf`, `/Kconfig($|\.?)`, matched at the head of a string:
after `/Kconfig` either the string ends, or an optional dot follows. -/
def kconfHere (t : QString) : Bool :=
  startsWith t "/Kconfig".toList &&
    ((t.drop 8).isEmpty || (dropOpt '.' (t.drop 8)).length ≤ (t.drop 8).length)

/-- Embedding of `lFile.contains(Kconf)`: the pattern matches somewhere in the string. -/
def containsKconf (lFile : QString) : Bool := lFile.tails.any kconfHere

/-- Lines 389 to 391 of `isValid`: line 383 gives the directory an entry, then the
Makefile is parsed when it exists and the entry is not younger than it. -/
def refresh (fuel : Nat) (w : World) (st : Plugin) (containingDir : KUrl) (project : IProject) :
    Option Plugin :=
  let st0 := st.touchEntry project.ptr containingDir
  match w.files (KUrl.relative containingDir "Makefile".toList) with
  | none => some st0
  | some mFile =>
    if (st0.entry project.ptr containingDir).lastUpdate ≤ mFile.lastModified then
      parseMakefile fuel w st0 containingDir project
    else some st0

/-- Lines 393 to 425 of `isValid`: the answer, from the plugin as the refresh leaves
it. -/
def answer (st : Plugin) (url : KUrl) (project : IProject) : Bool :=
  let containingDir := KUrl.adjustPath (KUrl.directory url)
  let file := KUrl.fileName url
  let lFile := url
  if (includeDirectories st project).any (fun iUrl => startsWith lFile iUrl) then true
  else if startsWith lFile (KUrl.relative project.folder "Documentation/".toList) then true
  else if endsWith lFile ".h".toList || endsWith lFile "/Makefile".toList then true
  else if containsKconf lFile then true
  else if file ∈ (st.entry project.ptr containingDir).validFiles then true
  else
    let vFiles := project.KERN_VALIDFILES.getD []
    let pRoot := KUrl.adjustPath project.folder
    let fPath := mid url pRoot.length (-1)
    decide (fPath ∈ vFiles)

/-- Embedding of `isValid(url, isFolder, project)`: the answer and the plugin after the call; `none`
when the refresh does not end within the fuel. -/
def isValid (fuel : Nat) (w : World) (st : Plugin) (url : KUrl) (isFolder : Bool)
    (project : IProject) : Option (Bool × Plugin) :=
  let _ := isFolder
  let containingDir := KUrl.adjustPath (KUrl.directory url)
  match refresh fuel w st containingDir project with
  | none => none
  | some st1 => some (answer st1 url project, st1)

/-! ## Notions used in the statements -/

/-- A path none of whose segments is `.` or `..`. -/
def CleanPath (p : QString) : Prop := ∀ seg ∈ p.splitOn '/', seg ≠ ['.'] ∧ seg ≠ ['.', '.']

instance (p : QString) : Decidable (CleanPath p) := by unfold CleanPath; infer_instance

/-- A directory path in the form the host hands out: a clean path that ends in exactly
one slash. -/
def CanonicalDir (d : KUrl) : Prop :=
  endsWith d ['/'] = true ∧ endsWith d ['/', '/'] = false ∧ CleanPath d

instance (d : KUrl) : Decidable (CanonicalDir d) := by unfold CanonicalDir; infer_instance

/-- The contract of `IProject::folder()`: the root directory of the project, with its
trailing slash. -/
def WellFormed (project : IProject) : Prop := CanonicalDir project.folder

instance (project : IProject) : Decidable (WellFormed project) := by
  unfold WellFormed; infer_instance

/-- The plugin `st'` keeps what `st` holds, but for growth of the project `ptr`: the
symbol tables are the same, the other projects are untouched, and the sets of `ptr` have
lost no element. -/
structure Extends (ptr : Nat) (st st' : Plugin) : Prop where
  /-- No symbol table changes. -/
  defines : st'._defines = st._defines
  /-- The valid files of the other projects do not change. -/
  othersValid : ∀ q, q ≠ ptr → st'._validFiles q = st._validFiles q
  /-- The machine directories of the other projects do not change. -/
  othersMach : ∀ q, q ≠ ptr → st'._machDirs q = st._machDirs q
  /-- A valid file of a directory stays one. -/
  monoValid : ∀ d f, f ∈ (st.entry ptr d).validFiles → f ∈ (st'.entry ptr d).validFiles
  /-- A machine directory stays one. -/
  monoMach : ∀ m, m ∈ st.machDirs ptr → m ∈ st'.machDirs ptr

/-- The plugin `st'` holds for every project other than `ptr` exactly what `st` holds:
the same symbol table, the same valid files and the same machine directories. -/
def SameOthers (ptr : Nat) (st st' : Plugin) : Prop :=
  ∀ q, q ≠ ptr →
    st'._defines q = st._defines q ∧ st'._validFiles q = st._validFiles q
      ∧ st'._machDirs q = st._machDirs q

/-- The plugin `st'` has the same log of parses and the same `lastUpdate` in every entry
as `st`. -/
def Quiet (st st' : Plugin) : Prop :=
  st'.parseLog = st.parseLog ∧ ∀ p d, (st'.entry p d).lastUpdate = (st.entry p d).lastUpdate

/-! ## Concrete inputs -/

/-- A plugin that has seen no project. -/
def Plugin.init : Plugin := ⟨fun _ => none, fun _ => none, fun _ => none, []⟩

/-- A file system given by the list of its files: path, modification time, content. -/
def filesOf (l : List (String × Nat × String)) : QString → Option FileEntry :=
  fun path => (l.find? (fun e => e.1.toList = path)).map (fun e => ⟨e.2.1, some e.2.2.toList⟩)

/-- A project in `/k/`, without build directory and without architecture. -/
def plainProject : IProject := ⟨1, "/k/".toList, none, none, none, none⟩

/-- A project in `/k/` for the architecture `arm`, built in `/b`. -/
def armProject : IProject := ⟨2, "/k/".toList, some "/b".toList, some "arm".toList, none, none⟩

/-- The Makefile of the end-to-end example of the specification. -/
def exampleMakefile : String := "obj-y += init.o\nobj-$(CONFIG_NET) += net/\n"

/-- A tree in `/k/` at time `now`: the example Makefile with modification time `mtime`,
and a `.config` with the given text. -/
def exampleWorld (now mtime : Nat) (dotconfig : String) : World :=
  ⟨filesOf [("/k/Makefile", mtime, exampleMakefile), ("/k/.config", 1, dotconfig)], now⟩

/-- The plugin after `import` of `plainProject` at time `10`, the Makefile being of time
`mtime`. -/
def importedPlugin (mtime : Nat) (dotconfig : String) : Plugin :=
  importProject (exampleWorld 10 mtime dotconfig) (fun _ => none) Plugin.init plainProject

/-- A project whose folder is the root of the file system. -/
def rootProject : IProject := ⟨3, "/".toList, none, none, none, none⟩

/-- A tree whose root directory holds a Makefile with the one rule `obj-y += a/b/c.o`. -/
def rootWorld : World := ⟨filesOf [("/Makefile", 5, "obj-y += a/b/c.o\n")], 7⟩

/-- The plugin `b` holds, as valid files and machine directories, what `a` holds
together with what `M` and `V` describe, and both have the same symbol values. -/
def Covers (M : Nat → KUrl → QString → Prop) (V : Nat → QString → Prop) (b a : Plugin) : Prop :=
  (∀ p d f, f ∈ (b.entry p d).validFiles ↔ M p d f ∨ f ∈ (a.entry p d).validFiles)
    ∧ (∀ p m, m ∈ b.machDirs p ↔ V p m ∨ m ∈ a.machDirs p)
    ∧ (∀ p k, b.define p k = a.define p k)

/-- The directory `D/x1/.../xk/` below a directory `D` that is given with its trailing
slash. -/
def dirsPath (D : KUrl) (xs : List QString) : KUrl := D ++ (xs.map (fun x => x ++ ['/'])).flatten

/-- The relative path `x1/.../xk/f`. -/
def relPath (xs : List QString) (f : QString) : QString := (xs.map (fun x => x ++ ['/'])).flatten ++ f

/-- A path component: not empty, without slash, and neither `.` nor `..`. -/
def PlainName (x : QString) : Prop := x ≠ [] ∧ '/' ∉ x ∧ x ≠ ['.'] ∧ x ≠ ['.', '.']

instance (x : QString) : Decidable (PlainName x) := by unfold PlainName; infer_instance

/-- A tree in `/k/` at time `10` that has the example Makefile and no `.config`. -/
def bareWorld : World := ⟨filesOf [("/k/Makefile", 5, exampleMakefile)], 10⟩

/-- A tree whose directory `/k/` holds a Makefile with the one rule `machine-y += omap2`. -/
def machWorld : World := ⟨filesOf [("/k/Makefile", 5, "machine-y += omap2\n")], 7⟩

/-- A tree whose directory `/k/` holds a Makefile with two rules that are continued on a
second line: a `machine` rule and an `obj` rule. -/
def contWorld : World :=
  ⟨filesOf [("/k/Makefile", 5, "machine-y += omap1 \\\nomap2\nobj-y += a.o \\\nb.o\n")], 7⟩

/-- The tokens that `parseMakefile` has collected in `files` when the loop of line 186 ends;
none when there is no Makefile to read. -/
def collected (w : World) (st : Plugin) (dir : KUrl) (project : IProject) : List QString :=
  match w.files (KUrl.relative dir "Makefile".toList) with
  | none => []
  | some entry =>
    match entry.content with
    | none => []
    | some text =>
      ((readLines text).foldl (scanLine project.ptr) ⟨none, [], parseEnter w st dir project⟩).files

/-- A collected token on which the loop of lines 250 to 255 ends within `fuel` iterations
below a directory other than `/`: after the rewriting of lines 237 to 242 it holds no `/`,
or it is a relative path `x1/.../xk/f` of plain names with `k` at most `fuel`. -/
def TameToken (fuel : Nat) (dir : KUrl) (archDir file0 : QString) : Prop :=
  '/' ∉ stripArch dir archDir (normalizeFile file0)
    ∨ ((∀ x ∈ (stripArch dir archDir (normalizeFile file0)).splitOn '/', PlainName x)
        ∧ ((stripArch dir archDir (normalizeFile file0)).splitOn '/').length ≤ fuel + 1)

instance (fuel : Nat) (dir : KUrl) (archDir file0 : QString) :
    Decidable (TameToken fuel dir archDir file0) := by
  unfold TameToken; infer_instance

/-- A call `parseMakefile(dir, project)` all of whose fan-out loops end within `fuel`
iterations: the directory is a canonical one other than `/`, and every token collected
from its Makefile is tame. -/
def TameParse (fuel : Nat) (w : World) (st : Plugin) (dir : KUrl) (project : IProject) : Prop :=
  CanonicalDir dir ∧ dir ≠ ['/']
    ∧ ∀ f ∈ collected w st dir project, TameToken fuel dir (archDirOf project) f

instance (fuel : Nat) (w : World) (st : Plugin) (dir : KUrl) (project : IProject) :
    Decidable (TameParse fuel w st dir project) := by
  unfold TameParse; infer_instance

/-- A tree in which the Makefiles of `/k/a/` and `/k/include_old/` hold the one rule
`obj-y += ../x.o`. -/
def dotdotWorld : World :=
  ⟨filesOf [("/k/a/Makefile", 5, "obj-y += ../x.o\n"),
    ("/k/include_old/Makefile", 5, "obj-y += ../x.o\n")], 7⟩

/-- A project in `/k/` whose architecture entry is the text `%1`. -/
def markerProject : IProject := ⟨4, "/k/".toList, none, some "%1".toList, none, none⟩

/-- A tree whose Makefile of `/k/` holds an inactive rule that ends in backslash-newline,
followed by the line `obj-$(S) += foo.o`; its `.config` sets `S`. -/
def swallowWorld : World :=
  ⟨filesOf [("/k/Makefile", 5, "obj-m += x.o \\\nobj-$(S) += foo.o\n"), ("/k/.config", 5, "S=y\n")],
    7⟩

/-- A tree whose Makefile of `/k/` holds an active rule that ends in backslash-newline,
followed by the line `obj-$(S) += foo.o`; there is no `.config`. -/
def absorbWorld : World :=
  ⟨filesOf [("/k/Makefile", 5, "obj-y += x.o \\\nobj-$(S) += foo.o\n")], 7⟩

/-- A tree whose Makefile of `/k/` holds the rule `machine-y += omap2.o`. -/
def machObjWorld : World := ⟨filesOf [("/k/Makefile", 5, "machine-y += omap2.o\n")], 7⟩

/-- A tree whose `.config` sets `S` and whose Makefile of `/k/a/` holds the lines
`obj-$(S) += foo.o` and `obj-y += ../x.o`. -/
def untameWorld : World :=
  ⟨filesOf [("/k/.config", 5, "S=y\n"),
    ("/k/a/Makefile", 5, "obj-$(S) += foo.o\nobj-y += ../x.o\n")], 7⟩

/-! # Theorems -/

/-! ## Paths -/

theorem splitOn_append_cons (a b : List Char) (c : Char) :
    (a ++ c :: b).splitOn c = a.splitOn c ++ b.splitOn c := by
  induction a with
  | nil => simp [List.splitOn, List.splitOnP_cons, List.splitOnP_nil]
  | cons x a ih =>
    simp only [List.splitOn] at ih ⊢
    rw [List.cons_append, List.splitOnP_cons, List.splitOnP_cons, ih]
    by_cases hx : (x == c) = true
    · simp [hx]
    · simp only [hx]
      cases h : List.splitOnP (fun y => y == c) a with
      | nil => exact absurd h (List.splitOnP_ne_nil _ _)
      | cons s ss => simp [List.modifyHead]

theorem removeDotsAux_clean (segs : List QString) :
    ∀ acc, (∀ s ∈ segs, s ≠ ['.'] ∧ s ≠ ['.', '.']) → removeDotsAux acc segs = acc ++ segs := by
  induction segs with
  | nil => intro acc _; simp [removeDotsAux]
  | cons s rest ih =>
    intro acc h
    have hs := h s (List.mem_cons_self _ _)
    cases rest with
    | nil => simp [removeDotsAux, hs.1, hs.2]
    | cons t rest =>
      rw [removeDotsAux]
      simp only [hs.1, hs.2, if_false]
      rw [ih (acc ++ [s]) (fun x hx => h x (List.mem_cons_of_mem _ hx))]
      simp

theorem removeDotSegments_clean (p : QString) (h : CleanPath p) : removeDotSegments p = p := by
  have hj := List.intercalate_splitOn p '/'
  unfold removeDotSegments
  unfold CleanPath at h
  cases hs : p.splitOn '/' with
  | nil => rw [hs] at hj; simpa using hj
  | cons s rest =>
    rw [hs] at h hj
    cases rest with
    | nil =>
      have : removeDotsAux [] [s] = [s] := by simpa using removeDotsAux_clean [s] [] h
      cases s <;> simp_all
    | cons t rest =>
      cases s with
      | nil =>
        simp only
        rw [removeDotsAux_clean _ [] (fun x hx => h x (List.mem_cons_of_mem _ hx))]
        rw [← hj]
        simp [List.intercalate, List.intersperse]
      | cons c cs =>
        simp only
        rw [removeDotsAux_clean _ [] h]
        simpa using hj

theorem endsWith_slash_iff (d : QString) : endsWith d ['/'] = true ↔ ∃ d0, d = d0 ++ ['/'] := by
  unfold endsWith
  rw [List.isSuffixOf_iff_suffix]
  constructor
  · rintro ⟨t, rfl⟩; exact ⟨t, rfl⟩
  · rintro ⟨t, rfl⟩; exact ⟨t, rfl⟩

theorem cleanPath_append (a b : QString) (ha : CleanPath (a ++ ['/'])) (hb : CleanPath b) :
    CleanPath (a ++ '/' :: b) := by
  unfold CleanPath at *
  rw [splitOn_append_cons] at ha ⊢
  intro seg hseg
  rcases List.mem_append.1 hseg with h | h
  · exact ha seg (List.mem_append_left _ h)
  · exact hb seg h

theorem mergeBase_dir (d0 : QString) : mergeBase (d0 ++ ['/']) = d0 ++ ['/'] := by
  simp [mergeBase]

/-- Resolving a clean relative reference against a clean directory is concatenation. -/
theorem relative_eq_append (d rel : QString) (hd : endsWith d ['/'] = true) (hc : CleanPath d)
    (hrel : CleanPath rel) (hhead : rel.head? ≠ some '/') : KUrl.relative d rel = d ++ rel := by
  obtain ⟨d0, rfl⟩ := (endsWith_slash_iff d).1 hd
  unfold KUrl.relative
  by_cases h0 : rel = []
  · simp [h0]
  · rw [if_neg h0, if_neg hhead, mergeBase_dir, removeDotSegments_clean]
    simpa using cleanPath_append d0 rel hc hrel

theorem cleanPath_slash (a : QString) (ha : CleanPath a) : CleanPath (a ++ ['/']) := by
  unfold CleanPath at *
  rw [splitOn_append_cons]
  intro seg hseg
  rcases List.mem_append.1 hseg with h | h
  · exact ha seg h
  · have : seg = [] := by simpa [List.splitOn, List.splitOnP_nil] using h
    subst this; simp

theorem adjustPath_endsWith (u : KUrl) (hu : u ≠ []) :
    endsWith (KUrl.adjustPath u) ['/'] = true := by
  unfold KUrl.adjustPath
  by_cases h : u.getLast? = some '/'
  · simp only [h, ne_eq, not_true_eq_false, and_false, if_false]
    obtain ⟨t, rfl⟩ := List.getLast?_eq_some_iff.1 h
    exact (endsWith_slash_iff _).2 ⟨t, rfl⟩
  · simp only [hu, h, ne_eq, not_false_eq_true, and_self, if_true]
    exact (endsWith_slash_iff _).2 ⟨u, rfl⟩

theorem adjustPath_clean (u : KUrl) (hu : CleanPath u) : CleanPath (KUrl.adjustPath u) := by
  unfold KUrl.adjustPath
  split
  · exact cleanPath_slash u hu
  · exact hu

theorem adjustPath_of_endsWith (u : KUrl) (hu : endsWith u ['/'] = true) :
    KUrl.adjustPath u = u := by
  obtain ⟨t, rfl⟩ := (endsWith_slash_iff u).1 hu
  simp [KUrl.adjustPath]

theorem cleanPath_arch (a rel : QString) (ha : CleanPath a) (hrel : CleanPath rel) :
    CleanPath ("arch/".toList ++ a ++ '/' :: rel) := by
  have h1 : CleanPath (a ++ '/' :: rel) := cleanPath_append a rel (cleanPath_slash a ha) hrel
  have h2 : CleanPath ("arch".toList ++ '/' :: (a ++ '/' :: rel)) :=
    cleanPath_append _ _ (by decide) h1
  simpa using h2

/-! ## Place markers -/

theorem markerAt_ne (c : Char) (r : QString) (h : c ≠ '%') : markerAt (c :: r) = none := by
  simp [markerAt, h]

theorem lowestMarker_append (p s : QString) (hp : '%' ∉ p) :
    lowestMarker (p ++ s) = lowestMarker s := by
  induction p with
  | nil => rfl
  | cons c p ih =>
    have hc : c ≠ '%' := fun h => hp (by simp [h])
    have hp' : '%' ∉ p := fun h => hp (by simp [h])
    show lowestMarker (c :: (p ++ s)) = _
    rw [lowestMarker, markerAt_ne _ _ hc]
    exact ih hp'

theorem argGo_append (n : Nat) (a p s : QString) (hp : '%' ∉ p) :
    argGo n a 0 (p ++ s) = p ++ argGo n a 0 s := by
  induction p with
  | nil => rfl
  | cons c p ih =>
    have hc : c ≠ '%' := fun h => hp (by simp [h])
    have hp' : '%' ∉ p := fun h => hp (by simp [h])
    show argGo n a 0 (c :: (p ++ s)) = _
    rw [argGo, markerAt_ne _ _ hc]
    simp [ih hp']

/-- The template of line 96 has one marker: whatever the architecture is, its text takes
the place of the marker. -/
theorem arg_include (A : QString) :
    arg "arch/%1/include".toList A = "arch/".toList ++ A ++ "/include".toList := by
  rfl

/-- The template of line 102, likewise. -/
theorem arg_generated (A : QString) :
    arg "arch/%1/include/generated".toList A
      = "arch/".toList ++ A ++ "/include/generated".toList := by
  rfl

/-- The first `arg` of line 98 puts the architecture in the place of `%1`. -/
theorem arg_mach_first (A : QString) :
    arg "arch/%1/%2/include".toList A = "arch/".toList ++ A ++ "/%2/include".toList := by
  rfl

/-- The two chained `arg` of line 98 for an architecture without `%`: the second call
finds `%2` as the only marker. -/
theorem arg_mach (A m : QString) (hA : '%' ∉ A) :
    arg (arg "arch/%1/%2/include".toList A) m
      = "arch/".toList ++ A ++ ['/'] ++ m ++ "/include".toList := by
  rw [arg_mach_first]
  have hp : '%' ∉ "arch/".toList ++ A ++ ['/'] := by
    simp [hA]
  have hsplit : "arch/".toList ++ A ++ "/%2/include".toList
      = ("arch/".toList ++ A ++ ['/']) ++ "%2/include".toList := by simp
  have hlast : argGo 2 m 0 "%2/include".toList = m ++ "/include".toList := rfl
  rw [hsplit]
  unfold arg
  rw [lowestMarker_append _ _ hp]
  show argGo 2 m 0 _ = _
  rw [argGo_append _ _ _ _ hp, hlast]
  simp

/-- The sequence that `includeDirectories` returns for an architecture name without `%`:
in this order and without removing duplicates, `<root>/include`; then
`<buildRoot>/include` exactly when the build root differs from the project root; then,
exactly when an architecture `A` is configured, `<root>/arch/A/include`,
`<root>/arch/A/<m>/include` for every machine directory `m` of the project, and
`<buildRoot>/arch/A/include/generated`.  Without an architecture the result does not depend
on the plugin's state at all, and two states with the same machine directories give the
same sequence. -/
theorem includeDirectories_plain (st st' : Plugin) (P : IProject) (hP : WellFormed P)
    (hb : ∀ b, P.KERN_BDIR = some b → b ≠ [] ∧ CleanPath b)
    (ha : ∀ a, P.KERN_ARCH = some a → CleanPath a ∧ '%' ∉ a)
    (hm : ∀ m ∈ st.machDirs P.ptr, CleanPath m) :
    includeDirectories st P =
        [P.folder ++ "include".toList]
          ++ (if KUrl.adjustPath (P.KERN_BDIR.getD P.folder) ≠ P.folder then
                [KUrl.adjustPath (P.KERN_BDIR.getD P.folder) ++ "include".toList]
              else [])
          ++ (match P.KERN_ARCH with
              | none => []
              | some A =>
                [P.folder ++ "arch/".toList ++ A ++ "/include".toList]
                  ++ (st.machDirs P.ptr).map
                      (fun m => P.folder ++ "arch/".toList ++ A ++ "/".toList ++ m
                        ++ "/include".toList)
                  ++ [KUrl.adjustPath (P.KERN_BDIR.getD P.folder) ++ "arch/".toList ++ A
                        ++ "/include/generated".toList])
      ∧ (P.KERN_ARCH = none → includeDirectories st' P = includeDirectories st P)
      ∧ (st'.machDirs P.ptr = st.machDirs P.ptr →
          includeDirectories st' P = includeDirectories st P) := by
  obtain ⟨hr1, -, hr3⟩ := hP
  have hbd : endsWith (KUrl.adjustPath (P.KERN_BDIR.getD P.folder)) ['/'] = true
      ∧ CleanPath (KUrl.adjustPath (P.KERN_BDIR.getD P.folder)) := by
    cases hB : P.KERN_BDIR with
    | none =>
      simp only [Option.getD_none]
      rw [adjustPath_of_endsWith _ hr1]
      exact ⟨hr1, hr3⟩
    | some b =>
      simp only [Option.getD_some]
      exact ⟨adjustPath_endsWith b (hb b hB).1, adjustPath_clean b (hb b hB).2⟩
  refine ⟨?_, ?_, ?_⟩
  · unfold includeDirectories
    simp only
    rw [relative_eq_append _ _ hr1 hr3 (by decide) (by decide),
      relative_eq_append _ _ hbd.1 hbd.2 (by decide) (by decide)]
    cases hA : P.KERN_ARCH with
    | none => rfl
    | some A =>
      have hA' := (ha A hA).1
      have hmap0 : (st.machDirs P.ptr).map (fun machDir =>
            KUrl.relative P.folder (arg (arg "arch/%1/%2/include".toList A) machDir))
          = (st.machDirs P.ptr).map (fun machDir =>
            KUrl.relative P.folder ("arch/".toList ++ A ++ ['/'] ++ machDir ++ "/include".toList)) := by
        apply List.map_congr_left
        intro m _
        rw [arg_mach A m (ha A hA).2]
      simp only
      rw [arg_include, arg_generated, hmap0]
      rw [relative_eq_append _ ("arch/".toList ++ A ++ "/include".toList) hr1 hr3
          (cleanPath_arch A _ hA' (by decide)) (by simp),
        relative_eq_append _ ("arch/".toList ++ A ++ "/include/generated".toList) hbd.1 hbd.2
          (cleanPath_arch A _ hA' (by decide)) (by simp)]
      have hmap : (st.machDirs P.ptr).map (fun machDir =>
            KUrl.relative P.folder ("arch/".toList ++ A ++ ['/'] ++ machDir ++ "/include".toList))
          = (st.machDirs P.ptr).map (fun m =>
            P.folder ++ "arch/".toList ++ A ++ "/".toList ++ m ++ "/include".toList) := by
        apply List.map_congr_left
        intro m hmem
        rw [relative_eq_append _ _ hr1 hr3 _ (by simp)]
        · simp [List.append_assoc]
        · have := cleanPath_arch A (m ++ '/' :: "include".toList) hA'
            (cleanPath_append m _ (cleanPath_slash m (hm m hmem)) (by decide))
          simpa [List.append_assoc] using this
      rw [hmap]
      simp [List.append_assoc]
  · intro hA
    unfold includeDirectories
    simp only [hA]
  · intro hmd
    unfold includeDirectories
    simp only [hmd]

/-! ## The plugin's state -/

theorem mem_setInsert (x y : QString) (s : List QString) : y ∈ setInsert x s ↔ y ∈ s ∨ y = x := by
  unfold setInsert
  by_cases h : x ∈ s
  · simp only [h, if_true]
    constructor
    · exact Or.inl
    · rintro (h1 | rfl)
      · exact h1
      · exact h
  · simp [h]

theorem entry_setEntry (st : Plugin) (p q : Nat) (d d' : KUrl) (e : ValidFilesList) :
    (st.setEntry p d e).entry q d' = if q = p ∧ d' = d then e else st.entry q d' := by
  unfold Plugin.setEntry Plugin.entry
  by_cases hq : q = p
  · subst hq
    by_cases hd : d' = d
    · subst hd; simp
    · simp [hd, Function.update_noteq hd]
  · simp [hq, Function.update_noteq hq]

theorem machDirs_setEntry (st : Plugin) (p q : Nat) (d : KUrl) (e : ValidFilesList) :
    (st.setEntry p d e).machDirs q = st.machDirs q := rfl

theorem define_setEntry (st : Plugin) (p q : Nat) (d : KUrl) (e : ValidFilesList) (k : QString) :
    (st.setEntry p d e).define q k = st.define q k := rfl

theorem mem_entry_addValid (st : Plugin) (p q : Nat) (d d' : KUrl) (f g : QString) :
    g ∈ ((st.addValid p d f).entry q d').validFiles ↔
      g ∈ (st.entry q d').validFiles ∨ (q = p ∧ d' = d ∧ g = f) := by
  unfold Plugin.addValid
  rw [entry_setEntry]
  by_cases h : q = p ∧ d' = d
  · obtain ⟨rfl, rfl⟩ := h
    simp [mem_setInsert]
  · rw [if_neg h]
    constructor
    · exact Or.inl
    · rintro (h1 | ⟨h2, h3, -⟩)
      · exact h1
      · exact absurd ⟨h2, h3⟩ h

theorem lastUpdate_addValid (st : Plugin) (p q : Nat) (d d' : KUrl) (f : QString) :
    ((st.addValid p d f).entry q d').lastUpdate = (st.entry q d').lastUpdate := by
  unfold Plugin.addValid
  rw [entry_setEntry]
  by_cases h : q = p ∧ d' = d
  · obtain ⟨rfl, rfl⟩ := h; simp
  · rw [if_neg h]

theorem validFiles_setLastUpdate (st : Plugin) (p q : Nat) (d d' : KUrl) (t : Nat) :
    ((st.setLastUpdate p d t).entry q d').validFiles = (st.entry q d').validFiles := by
  unfold Plugin.setLastUpdate
  rw [entry_setEntry]
  by_cases h : q = p ∧ d' = d
  · obtain ⟨rfl, rfl⟩ := h; simp
  · rw [if_neg h]

theorem mem_machDirs_addMachDir (st : Plugin) (p q : Nat) (m x : QString) :
    x ∈ (st.addMachDir p m).machDirs q ↔ x ∈ st.machDirs q ∨ (q = p ∧ x = m) := by
  unfold Plugin.addMachDir Plugin.machDirs
  by_cases hq : q = p
  · subst hq; simp [mem_setInsert, Plugin.machDirs]
  · simp [hq, Function.update_noteq hq]

theorem entry_addMachDir (st : Plugin) (p q : Nat) (m : QString) (d : KUrl) :
    (st.addMachDir p m).entry q d = st.entry q d := rfl

theorem extends_refl (ptr : Nat) (st : Plugin) : Extends ptr st st :=
  ⟨rfl, fun _ _ => rfl, fun _ _ => rfl, fun _ _ h => h, fun _ h => h⟩

theorem extends_trans {ptr : Nat} {a b c : Plugin} (h1 : Extends ptr a b) (h2 : Extends ptr b c) :
    Extends ptr a c :=
  ⟨h2.defines.trans h1.defines,
   fun q hq => (h2.othersValid q hq).trans (h1.othersValid q hq),
   fun q hq => (h2.othersMach q hq).trans (h1.othersMach q hq),
   fun d f h => h2.monoValid d f (h1.monoValid d f h),
   fun m h => h2.monoMach m (h1.monoMach m h)⟩

theorem extends_setEntry (st : Plugin) (ptr : Nat) (d : KUrl) (e : ValidFilesList)
    (h : ∀ f, f ∈ (st.entry ptr d).validFiles → f ∈ e.validFiles) :
    Extends ptr st (st.setEntry ptr d e) := by
  refine ⟨rfl, ?_, fun _ _ => rfl, ?_, fun _ hm => hm⟩
  · intro q hq
    simp [Plugin.setEntry, Function.update_noteq hq]
  · intro d' f hf
    rw [entry_setEntry]
    by_cases hd : d' = d
    · subst hd; simpa using h f hf
    · simpa [hd] using hf

theorem extends_addValid (st : Plugin) (ptr : Nat) (d : KUrl) (f : QString) :
    Extends ptr st (st.addValid ptr d f) :=
  extends_setEntry st ptr d _ (fun g hg => (mem_setInsert f g _).2 (Or.inl hg))

theorem extends_setLastUpdate (st : Plugin) (ptr : Nat) (d : KUrl) (t : Nat) :
    Extends ptr st (st.setLastUpdate ptr d t) :=
  extends_setEntry st ptr d _ (fun _ hg => hg)

theorem extends_addMachDir (st : Plugin) (ptr : Nat) (m : QString) :
    Extends ptr st (st.addMachDir ptr m) := by
  refine ⟨rfl, fun _ _ => rfl, ?_, fun _ _ h => h, ?_⟩
  · intro q hq
    simp [Plugin.addMachDir, Function.update_noteq hq]
  · intro x hx
    exact (mem_machDirs_addMachDir st ptr ptr m x).2 (Or.inl hx)

theorem extends_climb (ptr : Nat) (dir : KUrl) :
    ∀ (fuel : Nat) (nDir2 : KUrl) (st st' : Plugin),
      climb ptr dir fuel nDir2 st = some st' → Extends ptr st st' := by
  intro fuel
  induction fuel with
  | zero =>
    intro nDir2 st st' h
    unfold climb at h
    split at h
    · cases h; exact extends_refl _ _
    · cases h
  | succ n ih =>
    intro nDir2 st st' h
    unfold climb at h
    split at h
    · cases h; exact extends_refl _ _
    · exact extends_trans (extends_addValid _ _ _ _) (ih _ _ _ h)

theorem extends_addFile (fuel ptr : Nat) (dir : KUrl) (archDir : QString) (st st' : Plugin)
    (file0 : QString) (h : addFile fuel ptr dir archDir st file0 = some st') :
    Extends ptr st st' := by
  unfold addFile at h
  simp only at h
  split at h
  · split at h
    · cases h
    · rename_i st1 hc
      cases h
      exact extends_trans (extends_climb ptr dir fuel _ _ _ hc)
        (extends_trans (extends_addValid _ _ _ _) (extends_addValid _ _ _ _))
  · cases h
    exact extends_addValid _ _ _ _

theorem extends_addFiles (fuel ptr : Nat) (dir : KUrl) (archDir : QString) :
    ∀ (files : List QString) (st st' : Plugin),
      addFiles fuel ptr dir archDir st files = some st' → Extends ptr st st' := by
  intro files
  induction files with
  | nil => intro st st' h; cases h; exact extends_refl _ _
  | cons f fs ih =>
    intro st st' h
    unfold addFiles at h
    split at h
    · cases h
    · rename_i st1 h1
      exact extends_trans (extends_addFile _ _ _ _ _ _ _ h1) (ih _ _ h)

theorem extends_scanMach (ptr : Nat) (cap1 : QString) :
    ∀ (toks : List QString) (s : Scan),
      Extends ptr s.st ((toks.foldl (scanMach ptr cap1) s).st) := by
  intro toks
  induction toks with
  | nil => intro s; exact extends_refl _ _
  | cons t ts ih =>
    intro s
    simp only [List.foldl_cons]
    exact extends_trans (extends_addMachDir _ _ _) (ih (scanMach ptr cap1 s t))

theorem extends_scanLine (ptr : Nat) (s : Scan) (line : QString) :
    Extends ptr s.st (scanLine ptr s line).st := by
  unfold scanLine
  split
  · exact extends_refl _ _
  · split
    · exact extends_refl _ _
    · simp only
      split
      · exact extends_scanMach _ _ _ _
      · exact extends_refl _ _

theorem extends_scan (ptr : Nat) :
    ∀ (lines : List QString) (s : Scan),
      Extends ptr s.st ((lines.foldl (scanLine ptr) s).st) := by
  intro lines
  induction lines with
  | nil => intro s; exact extends_refl _ _
  | cons l ls ih =>
    intro s
    simp only [List.foldl_cons]
    exact extends_trans (extends_scanLine ptr s l) (ih _)

theorem extends_parseEnter (w : World) (st : Plugin) (dir : KUrl) (P : IProject) :
    Extends P.ptr st (parseEnter w st dir P) := by
  have h := extends_setLastUpdate st P.ptr dir w.now
  exact ⟨h.defines, h.othersValid, h.othersMach, h.monoValid, h.monoMach⟩

theorem extends_parseMakefile (fuel : Nat) (w : World) (st st' : Plugin) (dir : KUrl)
    (P : IProject) (h : parseMakefile fuel w st dir P = some st') : Extends P.ptr st st' := by
  unfold parseMakefile at h
  simp only at h
  split at h
  · cases h; exact extends_parseEnter _ _ _ _
  · split at h
    · cases h; exact extends_parseEnter _ _ _ _
    · exact extends_trans (extends_parseEnter w st dir P)
        (extends_trans (extends_scan P.ptr _ ⟨none, [], parseEnter w st dir P⟩)
          (extends_addFiles _ _ _ _ _ _ _ h))

theorem extends_refresh (fuel : Nat) (w : World) (st st' : Plugin) (dir : KUrl)
    (P : IProject) (h : refresh fuel w st dir P = some st') : Extends P.ptr st st' := by
  unfold refresh at h
  simp only at h
  have h0 : Extends P.ptr st (st.touchEntry P.ptr dir) :=
    extends_setEntry _ _ _ _ (fun _ hf => hf)
  split at h
  · cases h; exact h0
  · split at h
    · exact extends_trans h0 (extends_parseMakefile _ _ _ _ _ _ h)
    · cases h; exact h0

theorem sameOthers_refl (ptr : Nat) (st : Plugin) : SameOthers ptr st st :=
  fun _ _ => ⟨rfl, rfl, rfl⟩

theorem sameOthers_trans {ptr : Nat} {a b c : Plugin} (h1 : SameOthers ptr a b)
    (h2 : SameOthers ptr b c) : SameOthers ptr a c :=
  fun q hq =>
    ⟨((h2 q hq).1).trans (h1 q hq).1, ((h2 q hq).2.1).trans (h1 q hq).2.1,
      ((h2 q hq).2.2).trans (h1 q hq).2.2⟩

theorem extends_sameOthers {ptr : Nat} {st st' : Plugin} (h : Extends ptr st st') :
    SameOthers ptr st st' :=
  fun q hq => ⟨by rw [h.defines], h.othersValid q hq, h.othersMach q hq⟩

theorem sameOthers_projectClosing (st : Plugin) (P : IProject) :
    SameOthers P.ptr st (projectClosing st P) := by
  intro q hq
  simp [projectClosing, Function.update_noteq hq]

theorem extends_foldl_addValid (ptr : Nat) (dir : KUrl) :
    ∀ (names : List QString) (st : Plugin),
      Extends ptr st (names.foldl (fun s name => s.addValid ptr dir name) st) := by
  intro names
  induction names with
  | nil => intro st; exact extends_refl _ _
  | cons n ns ih =>
    intro st
    simp only [List.foldl_cons]
    exact extends_trans (extends_addValid _ _ _ _) (ih _)

theorem extends_seedArch (w : World) (st : Plugin) (ptr : Nat) (root : KUrl) (arch : QString) :
    Extends ptr st (seedArch w st ptr root arch) := by
  unfold seedArch
  exact extends_trans (extends_addValid _ _ _ _) (extends_trans (extends_setLastUpdate _ _ _ _)
    (extends_trans (extends_addValid _ _ _ _) (extends_addValid _ _ _ _)))

theorem sameOthers_importProject (w : World) (afterMake : QString → Option FileEntry)
    (st : Plugin) (P : IProject) : SameOthers P.ptr st (importProject w afterMake st P) := by
  unfold importProject
  simp only
  refine sameOthers_trans (sameOthers_projectClosing st P) (sameOthers_trans ?_
    (extends_sameOthers (extends_foldl_addValid _ _ _ _)))
  have base : ∀ (v : Option DirMap) (d : Option Defines) (r : KUrl),
      SameOthers P.ptr (projectClosing st P)
        (Plugin.setLastUpdate
          { _validFiles := Function.update (projectClosing st P)._validFiles P.ptr v
            _machDirs := (projectClosing st P)._machDirs
            _defines := Function.update (projectClosing st P)._defines P.ptr d
            parseLog := (projectClosing st P).parseLog } P.ptr r w.now) := by
    intro v d r
    refine sameOthers_trans ?_ (extends_sameOthers (extends_setLastUpdate _ _ _ _))
    intro q hq
    simp [Function.update_noteq hq]
  split
  · exact base _ _ _
  · exact sameOthers_trans (base _ _ _) (extends_sameOthers (extends_seedArch _ _ _ _ _))

/-- C9: for two distinct projects `P` and `Q`, none of `parseMakefile(dir, P)`,
`isValid(url, P)`, `import(P)` and `projectClosing(P)` changes the symbol table, the valid
files or the machine directories that the plugin holds for `Q`; and `projectClosing(P)`
removes the three structures of `P`. -/
theorem project_isolation (fuel : Nat) (w : World) (afterMake : QString → Option FileEntry)
    (st : Plugin) (P Q : IProject) (dir url : KUrl) (isFolder : Bool) (hPQ : P.ptr ≠ Q.ptr) :
    (∀ st', parseMakefile fuel w st dir P = some st' →
        st'._defines Q.ptr = st._defines Q.ptr ∧ st'._validFiles Q.ptr = st._validFiles Q.ptr
          ∧ st'._machDirs Q.ptr = st._machDirs Q.ptr)
      ∧ (∀ b st', isValid fuel w st url isFolder P = some (b, st') →
        st'._defines Q.ptr = st._defines Q.ptr ∧ st'._validFiles Q.ptr = st._validFiles Q.ptr
          ∧ st'._machDirs Q.ptr = st._machDirs Q.ptr)
      ∧ ((importProject w afterMake st P)._defines Q.ptr = st._defines Q.ptr
          ∧ (importProject w afterMake st P)._validFiles Q.ptr = st._validFiles Q.ptr
          ∧ (importProject w afterMake st P)._machDirs Q.ptr = st._machDirs Q.ptr)
      ∧ ((projectClosing st P)._defines Q.ptr = st._defines Q.ptr
          ∧ (projectClosing st P)._validFiles Q.ptr = st._validFiles Q.ptr
          ∧ (projectClosing st P)._machDirs Q.ptr = st._machDirs Q.ptr)
      ∧ ((projectClosing st P)._defines P.ptr = none
          ∧ (projectClosing st P)._validFiles P.ptr = none
          ∧ (projectClosing st P)._machDirs P.ptr = none) := by
  have hQP : Q.ptr ≠ P.ptr := fun h => hPQ h.symm
  refine ⟨?_, ?_, ?_, ?_, ?_⟩
  · intro st' h
    exact extends_sameOthers (extends_parseMakefile _ _ _ _ _ _ h) Q.ptr hQP
  · intro b st' h
    unfold isValid at h
    simp only at h
    split at h
    · cases h
    · rename_i st1 hr
      cases h
      exact extends_sameOthers (extends_refresh _ _ _ _ _ _ hr) Q.ptr hQP
  · exact sameOthers_importProject w afterMake st P Q.ptr hQP
  · exact sameOthers_projectClosing st P Q.ptr hQP
  · simp [projectClosing]

/-! ## The answer of `isValid` -/

theorem entry_touchEntry (st : Plugin) (p q : Nat) (d d' : KUrl) :
    (st.touchEntry p d).entry q d' = st.entry q d' := by
  unfold Plugin.touchEntry
  rw [entry_setEntry]
  by_cases h : q = p ∧ d' = d
  · obtain ⟨rfl, rfl⟩ := h; simp
  · rw [if_neg h]

theorem startsWith_iff (s t : QString) : startsWith s t = true ↔ ∃ r, s = t ++ r := by
  unfold startsWith
  rw [List.isPrefixOf_iff_prefix]
  constructor
  · rintro ⟨r, rfl⟩; exact ⟨r, rfl⟩
  · rintro ⟨r, rfl⟩; exact ⟨r, rfl⟩

theorem endsWith_iff (s t : QString) : endsWith s t = true ↔ ∃ r, s = r ++ t := by
  unfold endsWith
  rw [List.isSuffixOf_iff_suffix]
  constructor
  · rintro ⟨r, rfl⟩; exact ⟨r, rfl⟩
  · rintro ⟨r, rfl⟩; exact ⟨r, rfl⟩

theorem dropOpt_length_le (c : Char) (r : QString) : (dropOpt c r).length ≤ r.length := by
  cases r with
  | nil => simp [dropOpt]
  | cons d r =>
    simp only [dropOpt]
    split <;> simp

theorem kconfHere_iff (t : QString) : kconfHere t = true ↔ ∃ r, t = "/Kconfig".toList ++ r := by
  unfold kconfHere
  rw [Bool.and_eq_true, startsWith_iff]
  constructor
  · exact fun h => h.1
  · intro h
    refine ⟨h, ?_⟩
    rw [Bool.or_eq_true]
    exact Or.inr (decide_eq_true (dropOpt_length_le _ _))

/-- The pattern `Kconf` is found in a string exactly when `/Kconfig` occurs in it. -/
theorem containsKconf_iff (s : QString) :
    containsKconf s = true ↔ ∃ a b, s = a ++ "/Kconfig".toList ++ b := by
  unfold containsKconf
  rw [List.any_eq_true]
  constructor
  · rintro ⟨t, ht, hk⟩
    obtain ⟨a, rfl⟩ := (List.mem_tails _ _).1 ht
    obtain ⟨r, rfl⟩ := (kconfHere_iff _).1 hk
    exact ⟨a, r, by simp⟩
  · rintro ⟨a, b, rfl⟩
    refine ⟨"/Kconfig".toList ++ b, (List.mem_tails _ _).2 ⟨a, by simp⟩, (kconfHere_iff _).2 ⟨b, rfl⟩⟩

theorem isValid_eq (fuel : Nat) (w : World) (st : Plugin) (url : KUrl) (isFolder : Bool)
    (P : IProject) :
    isValid fuel w st url isFolder P =
      (refresh fuel w st (KUrl.adjustPath (KUrl.directory url)) P).map
        (fun st1 => (answer st1 url P, st1)) := by
  unfold isValid
  simp only
  cases refresh fuel w st (KUrl.adjustPath (KUrl.directory url)) P <;> rfl

/-- The refresh step of `isValid` when the Makefile is missing or older than the cached
entry: nothing is parsed. -/
theorem refresh_noParse (fuel : Nat) (w : World) (st : Plugin) (dir : KUrl) (P : IProject)
    (h : w.files (KUrl.relative dir "Makefile".toList) = none
      ∨ ∃ m, w.files (KUrl.relative dir "Makefile".toList) = some m
          ∧ m.lastModified < (st.entry P.ptr dir).lastUpdate) :
    refresh fuel w st dir P = some (st.touchEntry P.ptr dir) := by
  unfold refresh
  rcases h with h | ⟨m, hm, hlt⟩
  · simp only [h]
  · have hnle : ¬ ((st.touchEntry P.ptr dir).entry P.ptr dir).lastUpdate ≤ m.lastModified := by
      rw [entry_touchEntry]; exact Nat.not_le_of_lt hlt
    simp only [hm, if_neg hnle]

/-- The answer of `isValid` for a path under `<root>/Documentation/`, for a path whose last
component is `Kconfig` or starts with `Kconfig.`, for a path that ends in `.h`, and for a
path whose last component is `Makefile`: it is `true` whatever the plugin holds. -/
theorem answer_structural (st1 : Plugin) (url : KUrl) (P : IProject) (hP : WellFormed P)
    (h : startsWith url (P.folder ++ "Documentation/".toList) = true
      ∨ (∃ d name, url = d ++ ['/'] ++ name
          ∧ (name = "Kconfig".toList ∨ startsWith name "Kconfig.".toList = true))
      ∨ endsWith url ".h".toList = true
      ∨ (∃ d, url = d ++ ['/'] ++ "Makefile".toList)) :
    answer st1 url P = true := by
  unfold answer
  simp only
  rw [relative_eq_append _ _ hP.1 hP.2.2 (by decide) (by decide)]
  rcases h with h | ⟨d, name, rfl, hn⟩ | h | ⟨d, rfl⟩
  · split_ifs <;> simp_all
  · have hk : containsKconf (d ++ ['/'] ++ name) = true := by
      rw [containsKconf_iff]
      rcases hn with rfl | hn
      · exact ⟨d, [], by simp⟩
      · obtain ⟨r, rfl⟩ := (startsWith_iff _ _).1 hn
        exact ⟨d, '.' :: r, by simp⟩
    clear hn
    split_ifs <;> simp_all
  · split_ifs <;> simp_all
  · have hm : endsWith (d ++ ['/'] ++ "Makefile".toList) "/Makefile".toList = true :=
      (endsWith_iff _ _).2 ⟨d, by simp⟩
    split_ifs <;> simp_all

/-! ## Relations that the loops of `parseMakefile` preserve -/

theorem climb_rel (R : Plugin → Plugin → Prop) (hrefl : ∀ st, R st st)
    (htrans : ∀ a b c, R a b → R b c → R a c) (ptr : Nat)
    (hadd : ∀ st d f, R st (st.addValid ptr d f)) (dir : KUrl) :
    ∀ (fuel : Nat) (nDir2 : KUrl) (st st' : Plugin),
      climb ptr dir fuel nDir2 st = some st' → R st st' := by
  intro fuel
  induction fuel with
  | zero =>
    intro nDir2 st st' h
    unfold climb at h
    split at h
    · cases h; exact hrefl _
    · cases h
  | succ n ih =>
    intro nDir2 st st' h
    unfold climb at h
    split at h
    · cases h; exact hrefl _
    · exact htrans _ _ _ (hadd _ _ _) (ih _ _ _ h)

theorem addFiles_rel (R : Plugin → Plugin → Prop) (hrefl : ∀ st, R st st)
    (htrans : ∀ a b c, R a b → R b c → R a c) (ptr : Nat)
    (hadd : ∀ st d f, R st (st.addValid ptr d f)) (fuel : Nat) (dir : KUrl) (archDir : QString) :
    ∀ (files : List QString) (st st' : Plugin),
      addFiles fuel ptr dir archDir st files = some st' → R st st' := by
  intro files
  induction files with
  | nil => intro st st' h; cases h; exact hrefl _
  | cons f fs ih =>
    intro st st' h
    unfold addFiles at h
    split at h
    · cases h
    · rename_i st1 h1
      refine htrans _ _ _ ?_ (ih _ _ h)
      unfold addFile at h1
      simp only at h1
      split at h1
      · split at h1
        · cases h1
        · rename_i st2 hc
          cases h1
          exact htrans _ _ _ (climb_rel R hrefl htrans ptr hadd dir fuel _ _ _ hc)
            (htrans _ _ _ (hadd _ _ _) (hadd _ _ _))
      · cases h1
        exact hadd _ _ _

theorem scan_rel (R : Plugin → Plugin → Prop) (hrefl : ∀ st, R st st)
    (htrans : ∀ a b c, R a b → R b c → R a c) (ptr : Nat)
    (hmach : ∀ st m, R st (st.addMachDir ptr m)) :
    ∀ (lines : List QString) (s : Scan), R s.st ((lines.foldl (scanLine ptr) s).st) := by
  have hm : ∀ (cap1 : QString) (toks : List QString) (s : Scan),
      R s.st ((toks.foldl (scanMach ptr cap1) s).st) := by
    intro cap1 toks
    induction toks with
    | nil => intro s; exact hrefl _
    | cons t ts ih =>
      intro s
      simp only [List.foldl_cons]
      exact htrans _ _ _ (hmach _ _) (ih (scanMach ptr cap1 s t))
  have hl : ∀ (s : Scan) (line : QString), R s.st (scanLine ptr s line).st := by
    intro s line
    unfold scanLine
    split
    · exact hrefl _
    · split
      · exact hrefl _
      · simp only
        split
        · exact hm _ _ _
        · exact hrefl _
  intro lines
  induction lines with
  | nil => intro s; exact hrefl _
  | cons l ls ih =>
    intro s
    simp only [List.foldl_cons]
    exact htrans _ _ _ (hl s l) (ih _)

theorem quiet_refl (st : Plugin) : Quiet st st := ⟨rfl, fun _ _ => rfl⟩

theorem quiet_trans (a b c : Plugin) (h1 : Quiet a b) (h2 : Quiet b c) : Quiet a c :=
  ⟨h2.1.trans h1.1, fun p d => (h2.2 p d).trans (h1.2 p d)⟩

theorem quiet_addValid (ptr : Nat) (st : Plugin) (d : KUrl) (f : QString) :
    Quiet st (st.addValid ptr d f) :=
  ⟨rfl, fun p d' => lastUpdate_addValid st ptr p d d' f⟩

theorem quiet_addMachDir (ptr : Nat) (st : Plugin) (m : QString) :
    Quiet st (st.addMachDir ptr m) := ⟨rfl, fun _ _ => rfl⟩

/-- What `parseMakefile` does to the log and to the time stamps: the call is logged once,
the entry of `dir` gets the current time, and no other time stamp changes. -/
theorem parseMakefile_meta (fuel : Nat) (w : World) (st st' : Plugin) (dir : KUrl)
    (P : IProject) (h : parseMakefile fuel w st dir P = some st') :
    st'.parseLog = st.parseLog ++ [(P.ptr, dir)]
      ∧ (st'.entry P.ptr dir).lastUpdate = w.now
      ∧ ∀ p d, ¬ (p = P.ptr ∧ d = dir) → (st'.entry p d).lastUpdate = (st.entry p d).lastUpdate := by
  have h0 : (parseEnter w st dir P).parseLog = st.parseLog ++ [(P.ptr, dir)]
      ∧ ((parseEnter w st dir P).entry P.ptr dir).lastUpdate = w.now
      ∧ ∀ p d, ¬ (p = P.ptr ∧ d = dir) →
          ((parseEnter w st dir P).entry p d).lastUpdate = (st.entry p d).lastUpdate := by
    refine ⟨rfl, ?_, ?_⟩
    · show ((st.setLastUpdate P.ptr dir w.now).entry P.ptr dir).lastUpdate = w.now
      unfold Plugin.setLastUpdate
      rw [entry_setEntry]; simp
    · intro p d hpd
      show ((st.setLastUpdate P.ptr dir w.now).entry p d).lastUpdate = _
      unfold Plugin.setLastUpdate
      rw [entry_setEntry, if_neg hpd]
  have hq : Quiet (parseEnter w st dir P) st' := by
    unfold parseMakefile at h
    simp only at h
    split at h
    · cases h; exact quiet_refl _
    · split at h
      · cases h; exact quiet_refl _
      · exact quiet_trans _ _ _
          (scan_rel Quiet quiet_refl quiet_trans P.ptr (quiet_addMachDir P.ptr) _ _)
          (addFiles_rel Quiet quiet_refl quiet_trans P.ptr (quiet_addValid P.ptr) _ _ _ _ _ _ h)
  refine ⟨hq.1.trans h0.1, (hq.2 _ _).trans h0.2.1, fun p d hpd => (hq.2 p d).trans (h0.2.2 p d hpd)⟩

theorem mid_neg_one (s : QString) (n : Nat) : mid s n (-1) = s.drop n := by
  unfold mid
  split
  · rename_i h; exact (List.drop_eq_nil_of_le h).symm
  · simp

/-- C7: `isValid` runs `parseMakefile` on the containing directory once, and answers from
the plugin as that parse leaves it, whenever the directory's Makefile exists and is
younger than the `lastUpdate` of the cached entry; it does not call `parseMakefile` when
the Makefile does not exist or is older than the entry's `lastUpdate`. -/
theorem isValid_refresh_policy (fuel : Nat) (w : World) (st : Plugin) (url : KUrl)
    (isFolder : Bool) (P : IProject) :
    (∀ m, w.files (KUrl.relative (KUrl.adjustPath (KUrl.directory url)) "Makefile".toList) = some m →
        (st.entry P.ptr (KUrl.adjustPath (KUrl.directory url))).lastUpdate < m.lastModified →
        isValid fuel w st url isFolder P =
            (parseMakefile fuel w (st.touchEntry P.ptr (KUrl.adjustPath (KUrl.directory url)))
              (KUrl.adjustPath (KUrl.directory url)) P).map (fun st1 => (answer st1 url P, st1))
          ∧ ∀ b st', isValid fuel w st url isFolder P = some (b, st') →
              st'.parseLog = st.parseLog ++ [(P.ptr, KUrl.adjustPath (KUrl.directory url))])
      ∧ ((w.files (KUrl.relative (KUrl.adjustPath (KUrl.directory url)) "Makefile".toList) = none
            ∨ ∃ m, w.files (KUrl.relative (KUrl.adjustPath (KUrl.directory url)) "Makefile".toList)
                  = some m
                ∧ m.lastModified < (st.entry P.ptr (KUrl.adjustPath (KUrl.directory url))).lastUpdate) →
          ∃ b st', isValid fuel w st url isFolder P = some (b, st')
            ∧ st'.parseLog = st.parseLog) := by
  constructor
  · intro m hm hlt
    have hle : ((st.touchEntry P.ptr (KUrl.adjustPath (KUrl.directory url))).entry P.ptr
        (KUrl.adjustPath (KUrl.directory url))).lastUpdate ≤ m.lastModified := by
      rw [entry_touchEntry]; exact Nat.le_of_lt hlt
    have hr : refresh fuel w st (KUrl.adjustPath (KUrl.directory url)) P =
        parseMakefile fuel w (st.touchEntry P.ptr (KUrl.adjustPath (KUrl.directory url)))
          (KUrl.adjustPath (KUrl.directory url)) P := by
      unfold refresh
      simp only [hm, if_pos hle]
    refine ⟨by rw [isValid_eq, hr], ?_⟩
    intro b st' h
    rw [isValid_eq, hr] at h
    cases hp : parseMakefile fuel w (st.touchEntry P.ptr (KUrl.adjustPath (KUrl.directory url)))
        (KUrl.adjustPath (KUrl.directory url)) P with
    | none => rw [hp] at h; cases h
    | some st1 =>
      rw [hp] at h
      cases h
      exact (parseMakefile_meta _ _ _ _ _ _ hp).1
  · intro h
    refine ⟨answer (st.touchEntry P.ptr (KUrl.adjustPath (KUrl.directory url))) url P,
      st.touchEntry P.ptr (KUrl.adjustPath (KUrl.directory url)), ?_, rfl⟩
    rw [isValid_eq]
    rcases h with h | ⟨m, hm, hlt⟩
    · unfold refresh
      simp only [h, Option.map_some']
    · have hnle : ¬ ((st.touchEntry P.ptr (KUrl.adjustPath (KUrl.directory url))).entry P.ptr
          (KUrl.adjustPath (KUrl.directory url))).lastUpdate ≤ m.lastModified := by
        rw [entry_touchEntry]; exact Nat.not_le_of_lt hlt
      unfold refresh
      simp only [hm, if_neg hnle, Option.map_some']

/-! ## Instances on the example tree -/

theorem project_isolation_witness :
    (importProject (exampleWorld 10 5 "A=y\n") (fun _ => none) (importedPlugin 5 "") armProject)._defines
        plainProject.ptr = (importedPlugin 5 "")._defines plainProject.ptr
      ∧ (projectClosing (importedPlugin 5 "") plainProject)._validFiles plainProject.ptr = none :=
  ⟨(project_isolation 0 (exampleWorld 10 5 "A=y\n") (fun _ => none) (importedPlugin 5 "") armProject
      plainProject [] [] false (by decide)).2.2.1.1,
   (project_isolation 0 (exampleWorld 10 5 "A=y\n") (fun _ => none) (importedPlugin 5 "") plainProject
      armProject [] [] false (by decide)).2.2.2.2.2.1⟩

theorem includeDirectories_plain_example :
    includeDirectories (Plugin.init.addMachDir 2 "mach-omap2".toList) armProject
      = ["/k/include", "/b/include", "/k/arch/arm/include", "/k/arch/arm/mach-omap2/include",
          "/b/arch/arm/include/generated"].map String.toList := by
  rw [(includeDirectories_plain (Plugin.init.addMachDir 2 "mach-omap2".toList) Plugin.init
    armProject (by decide) (by intro b hb; cases hb; decide) (by intro a ha; cases ha; decide)
    (by decide)).1]
  decide

theorem isValid_refresh_policy_witness :
    (isValid 0 (exampleWorld 11 20 "") (importedPlugin 20 "") "/k/init.c".toList false
        plainProject).map (fun r => r.2.parseLog) = some [(1, "/k/".toList)]
      ∧ ∃ b st', isValid 0 (exampleWorld 11 5 "") (importedPlugin 5 "") "/k/init.c".toList false
          plainProject = some (b, st') ∧ st'.parseLog = (importedPlugin 5 "").parseLog := by
  constructor
  · rw [((isValid_refresh_policy 0 (exampleWorld 11 20 "") (importedPlugin 20 "") "/k/init.c".toList
      false plainProject).1 ⟨20, some exampleMakefile.toList⟩ (by rfl) (by decide)).1]
    decide
  · exact (isValid_refresh_policy 0 (exampleWorld 11 5 "") (importedPlugin 5 "") "/k/init.c".toList
      false plainProject).2 (Or.inr ⟨⟨5, some exampleMakefile.toList⟩, by rfl, by decide⟩)

/-! ## parseDotConfig -/

theorem isWord_ne (c d : Char) (hc : isWord c = true) (hd : isWord d = false) : c ≠ d := by
  rintro rfl; rw [hc] at hd; cases hd

theorem takeWhile_stop (p : Char → Bool) (l1 l2 : List Char) (x : Char)
    (h1 : ∀ a ∈ l1, p a = true) (hx : p x = false) :
    (l1 ++ x :: l2).takeWhile p = l1 ∧ (l1 ++ x :: l2).dropWhile p = x :: l2 := by
  rw [List.takeWhile_append_of_pos h1, List.dropWhile_append_of_pos h1]
  simp [List.takeWhile_cons, List.dropWhile_cons, hx]

/-- The pattern `def` on a line `SYM=val` with its newline: the captures are `SYM` and
`val`. -/
theorem defExactMatch_line (sym val : QString) (hsym : sym ≠ []) (hw : ∀ c ∈ sym, isWord c = true)
    (hval : val ≠ []) (hnl : '\n' ∉ val) :
    defExactMatch (sym ++ '=' :: (val ++ ['\n'])) = some (sym, val) := by
  obtain ⟨ht, hd⟩ := takeWhile_stop isWord sym (val ++ ['\n']) '=' hw (by decide)
  unfold defExactMatch
  simp only [ht, hd]
  simp [hsym, hval, hnl]

/-- What one line `SYM=val` of a `.config` does to the table, for the values the
normalisation tells apart. -/
theorem parseDotConfigLine_value (defs : Defines) (sym val : QString) (hsym : sym ≠ [])
    (hw : ∀ c ∈ sym, isWord c = true) (hval : val ≠ []) (hnl : '\n' ∉ val) :
    parseDotConfigLine defs (sym ++ '=' :: (val ++ ['\n'])) sym = some (normalizeVal val) := by
  unfold parseDotConfigLine
  rw [defExactMatch_line sym val hsym hw hval hnl]
  simp [Defines.set]

theorem mid_strip (a b : Char) (str : QString) :
    mid (a :: (str ++ [b])) 1 (size (a :: (str ++ [b])) - 2) = str := by
  have hsz : size (a :: (str ++ [b])) - 2 = (str.length : Int) := by
    simp only [size, List.length_cons, List.length_append, List.length_nil]
    omega
  rw [hsz]
  unfold mid
  simp

theorem normalizeVal_quoted (str : QString) :
    normalizeVal ('"' :: (str ++ ['"'])) = str := by
  unfold normalizeVal
  have h1 : ('"' :: (str ++ ['"'])) ≠ ['y'] := by simp
  have h2 : ('"' :: (str ++ ['"'])) ≠ ['n'] := by simp
  have h3 : startsWith ('"' :: (str ++ ['"'])) ['"'] = true := (startsWith_iff _ _).2 ⟨_, rfl⟩
  have h4 : endsWith ('"' :: (str ++ ['"'])) ['"'] = true := (endsWith_iff _ _).2 ⟨'"' :: str, rfl⟩
  rw [if_neg h1, if_neg h2, h3, h4, mid_strip]
  rfl

theorem normalizeVal_other (val : QString) (hy : val ≠ ['y']) (hn : val ≠ ['n'])
    (hq : ¬ (startsWith val ['"'] = true ∧ endsWith val ['"'] = true)) : normalizeVal val = val := by
  unfold normalizeVal
  rw [if_neg hy, if_neg hn, if_neg (by simpa using hq)]

/-- C4, at the failing input: a `.config` whose only line is `A="`, a value that is
neither `y`, nor `n`, nor a string between two quotes.  The claim has it stored as it is;
the table maps `A` to the empty string. -/
theorem parseDotConfig_lone_quote :
    parseDotConfig (exampleWorld 10 5 "A=\"\n") (fun _ => none) plainProject "/k/.config".toList
        (fun _ => none) "A".toList = some []
      ∧ normalizeVal "\"".toList ≠ "\"".toList := by
  constructor
  · decide
  · decide

/-! ## Rule lines -/

theorem scanLine_rule (ptr : Nat) (s : Scan) (line cap1 cap2 cap3 : QString)
    (hc : s.cont = none) (hm : objyExactMatch line = some (cap1, cap2, cap3))
    (h1 : cap1 ≠ "machine".toList) (h2 : cap1 ≠ "plat".toList) :
    scanLine ptr s line =
      { cont := if endsWith line ['\\', '\n'] then some (isActive (resolveSuffix s.st ptr cap2))
                else none
        files := if isActive (resolveSuffix s.st ptr cap2) then s.files ++ splitSkipEmpty cap3
                 else s.files
        st := s.st } := by
  unfold scanLine
  simp only [hc, hm]
  rw [decide_eq_false h1, decide_eq_false h2]
  simp

theorem resolveSuffix_y (st : Plugin) (ptr : Nat) : resolveSuffix st ptr ['y'] = ['y'] := rfl

/-! ## The fan-out loop at the root of the file system -/

theorem climb_root_stuck (ptr : Nat) :
    ∀ (fuel : Nat) (st : Plugin), climb ptr ['/'] fuel ['/', '/'] st = none := by
  intro fuel
  induction fuel with
  | zero => intro st; rfl
  | succ n ih =>
    intro st
    unfold climb
    rw [if_neg (by decide)]
    exact ih _

theorem climb_root_ab (ptr : Nat) (fuel : Nat) (st : Plugin) :
    climb ptr ['/'] fuel "/a/b".toList st = none := by
  cases fuel with
  | zero => rfl
  | succ n =>
    unfold climb
    rw [if_neg (by decide)]
    cases n with
    | zero => rfl
    | succ k =>
      simp only
      unfold climb
      rw [if_neg (by decide)]
      exact climb_root_stuck ptr k _

/-- C3, at the failing input: the directory is `/` and its Makefile holds the rule
`obj-y += a/b/c.o`.  The loop of lines 250 to 255 goes from `/a/b` to `/a/` to `//` and
stays there, so `parseMakefile` does not return, whatever the fuel, and never adds `c.c`
to the entry of `/a/b/` nor `a` to the entry of `/`. -/
theorem parseMakefile_root_diverges (fuel : Nat) (st : Plugin) :
    parseMakefile fuel rootWorld st "/".toList rootProject = none := by
  have hline : objyExactMatch "obj-y += a/b/c.o\n".toList
      = some ("obj".toList, ['y'], " a/b/c.o".toList) := by decide
  unfold parseMakefile
  have hf : rootWorld.files (KUrl.relative "/".toList "Makefile".toList)
      = some ⟨5, some "obj-y += a/b/c.o\n".toList⟩ := by rfl
  simp only [hf]
  have hr : readLines "obj-y += a/b/c.o\n".toList = ["obj-y += a/b/c.o\n".toList] := by decide
  rw [hr]
  simp only [List.foldl_cons, List.foldl_nil]
  rw [scanLine_rule _ _ _ _ _ _ rfl hline (by decide) (by decide), resolveSuffix_y]
  have hact : isActive ['y'] = true := by decide
  have hsp : splitSkipEmpty " a/b/c.o".toList = ["a/b/c.o".toList] := by decide
  simp only [hact, hsp, if_true, List.nil_append]
  unfold addFiles addFile
  have hn : stripArch "/".toList (archDirOf rootProject) (normalizeFile "a/b/c.o".toList)
      = "a/b/c.c".toList := by decide
  simp only [hn]
  rw [if_pos (by decide)]
  have hd : KUrl.directory (KUrl.relative "/".toList "a/b/c.c".toList) = "/a/b".toList := by decide
  have hc := climb_root_ab rootProject.ptr fuel (parseEnter rootWorld st "/".toList rootProject)
  change climb rootProject.ptr "/".toList fuel "/a/b".toList _ = none at hc
  rw [hd, hc]

/-! ## Conditional rules -/

theorem replaceGo_skip (b : Char) (bs after S T : QString) (h : ∀ c ∈ S, c ≠ b) :
    replaceGo (b :: bs) after 0 (S ++ T) = S ++ replaceGo (b :: bs) after 0 T := by
  induction S with
  | nil => rfl
  | cons c S ih =>
    have hc : c ≠ b := h c (List.mem_cons_self _ _)
    have hb : (b == c) = false := by simpa using fun h' => hc h'.symm
    simp only [List.cons_append, replaceGo, List.isPrefixOf, hb, Bool.false_and, List.append_eq,
      Bool.false_eq_true, if_false]
    rw [ih (fun x hx => h x (List.mem_cons_of_mem _ hx))]

theorem replace_paren (S : QString) (hS : ∀ c ∈ S, isWord c = true) :
    replace (replace ("$(".toList ++ S ++ ")".toList) ['$', '{'] ['$', '(']) ['}'] [')']
      = "$(".toList ++ S ++ ")".toList := by
  have h1 : ∀ c ∈ S, c ≠ '$' := fun c hc => isWord_ne c '$' (hS c hc) (by decide)
  have h2 : ∀ c ∈ S, c ≠ '}' := fun c hc => isWord_ne c '}' (hS c hc) (by decide)
  have e1 : replace ("$(".toList ++ S ++ ")".toList) ['$', '{'] ['$', '(']
      = "$(".toList ++ S ++ ")".toList := by
    show replaceGo ['$', '{'] ['$', '('] 0 ('$' :: '(' :: (S ++ [')'])) = '$' :: '(' :: (S ++ [')'])
    simp only [replaceGo, List.isPrefixOf]
    rw [replaceGo_skip '$' ['{'] _ S [')'] h1]
    simp [replaceGo, List.isPrefixOf]
  rw [e1]
  show replaceGo ['}'] [')'] 0 ('$' :: '(' :: (S ++ [')'])) = '$' :: '(' :: (S ++ [')'])
  simp only [replaceGo, List.isPrefixOf]
  rw [replaceGo_skip '}' [] _ S [')'] h2]
  simp [replaceGo, List.isPrefixOf]

theorem replace_brace (S : QString) (hS : ∀ c ∈ S, isWord c = true) :
    replace (replace ("$\x7b".toList ++ S ++ "\x7d".toList) ['$', '{'] ['$', '(']) ['}'] [')']
      = "$(".toList ++ S ++ ")".toList := by
  have h1 : ∀ c ∈ S, c ≠ '$' := fun c hc => isWord_ne c '$' (hS c hc) (by decide)
  have h2 : ∀ c ∈ S, c ≠ '}' := fun c hc => isWord_ne c '}' (hS c hc) (by decide)
  have e1 : replace ("$\x7b".toList ++ S ++ "\x7d".toList) ['$', '{'] ['$', '(']
      = "$(".toList ++ S ++ "\x7d".toList := by
    show replaceGo ['$', '{'] ['$', '('] 0 ('$' :: '{' :: (S ++ ['}'])) = '$' :: '(' :: (S ++ ['}'])
    have e0 := replaceGo_skip '$' ['{'] ['$', '('] S ['}'] h1
    simp [replaceGo, List.isPrefixOf, e0]
  rw [e1]
  show replaceGo ['}'] [')'] 0 ('$' :: '(' :: (S ++ ['}'])) = '$' :: '(' :: (S ++ [')'])
  simp only [replaceGo, List.isPrefixOf]
  rw [replaceGo_skip '}' [] _ S ['}'] h2]
  simp [replaceGo, List.isPrefixOf]

theorem mid_ref (S : QString) :
    mid ("$(".toList ++ S ++ ")".toList) 2 (size ("$(".toList ++ S ++ ")".toList) - 3) = S := by
  have hsz : size ("$(".toList ++ S ++ ")".toList) - 3 = (S.length : Int) := by
    have h1 : "$(".toList.length = 2 := by decide
    have h2 : ")".toList.length = 1 := by decide
    simp only [size, List.length_append, h1, h2]
    omega
  rw [hsz]
  unfold mid
  simp

theorem resolveSuffix_ref (st : Plugin) (ptr : Nat) (S cap2 : QString)
    (hS : ∀ c ∈ S, isWord c = true)
    (hcap : cap2 = "$(".toList ++ S ++ ")".toList ∨ cap2 = "$\x7b".toList ++ S ++ "\x7d".toList) :
    resolveSuffix st ptr cap2 =
      if st.define ptr S = ['1'] then ['y'] else "$(".toList ++ S ++ ")".toList := by
  have hrep : replace (replace cap2 ['$', '{'] ['$', '(']) ['}'] [')']
      = "$(".toList ++ S ++ ")".toList := by
    rcases hcap with rfl | rfl
    · exact replace_paren S hS
    · exact replace_brace S hS
  unfold resolveSuffix
  simp only [hrep]
  have h1 : startsWith ("$(".toList ++ S ++ ")".toList) ['$', '('] = true :=
    (startsWith_iff _ _).2 ⟨S ++ ")".toList, by simp⟩
  have h2 : endsWith ("$(".toList ++ S ++ ")".toList) [')'] = true :=
    (endsWith_iff _ _).2 ⟨"$(".toList ++ S, by simp⟩
  rw [h1, h2, mid_ref]
  simp

theorem isActive_ref (S : QString) : isActive ("$(".toList ++ S ++ ")".toList) = false := by
  simp [isActive]

theorem isSuffixChar_of_isWord (c : Char) (h : isWord c = true) : isSuffixChar c = true := by
  have h1 := isWord_ne c '+' h (by decide)
  have h2 := isWord_ne c ':' h (by decide)
  have h3 := isWord_ne c '=' h (by decide)
  have h4 := isWord_ne c ' ' h (by decide)
  have h5 := isWord_ne c '\t' h (by decide)
  simp [isSuffixChar, h1, h2, h3, h4, h5]

theorem isSuffixChar_ne_eq (c : Char) (h : isSuffixChar c = true) : (c != '=') = true := by
  simp only [isSuffixChar, Bool.not_eq_true', Bool.or_eq_false_iff] at h
  simpa using h.1.1.2

/-- The pattern `objy` on a rule `obj-<suffix> += foo.o`, for a suffix that starts with
`$`: the captures are `obj`, the suffix, and what follows the `=`. -/
theorem objyExactMatch_obj (t : QString) (ht : ∀ c ∈ t, isSuffixChar c = true) :
    objyExactMatch ("obj-".toList ++ '$' :: t ++ " += foo.o\n".toList)
      = some ("obj".toList, '$' :: t, " foo.o".toList) := by
  have hsplit : "obj-".toList ++ '$' :: t ++ " += foo.o\n".toList
      = ("obj-".toList ++ '$' :: t ++ " +".toList) ++ '=' :: " foo.o\n".toList := by simp
  have hpre : ∀ a ∈ "obj-".toList ++ '$' :: t ++ " +".toList, (a != '=') = true := by
    intro a ha
    simp only [List.mem_append, List.mem_cons] at ha
    rcases ha with (ha | ha | ha) | ha
    · revert a; decide
    · subst ha; decide
    · exact isSuffixChar_ne_eq a (ht a ha)
    · revert a; decide
  obtain ⟨e1, e2⟩ := takeWhile_stop (fun c => c != '=') _ " foo.o\n".toList '=' hpre (by decide)
  have hw : "obj-".toList ++ '$' :: t ++ " +".toList = "obj-".toList ++ '$' :: (t ++ " +".toList) := by
    simp
  obtain ⟨e3, e4⟩ := takeWhile_stop isWordDash "obj-".toList (t ++ " +".toList) '$' (by decide)
    (by decide)
  have hs : ∀ a ∈ '$' :: t, isSuffixChar a = true := by
    intro a ha
    rcases List.mem_cons.1 ha with rfl | ha
    · decide
    · exact ht a ha
  obtain ⟨e5, e6⟩ := takeWhile_stop isSuffixChar ('$' :: t) "+".toList ' ' hs (by decide)
  unfold objyExactMatch
  rw [hsplit]
  simp only [e1, e2]
  rw [hw]
  simp only [e3, e4]
  have hsd : splitLastDash "obj-".toList = some ("obj".toList, []) := by decide
  simp only [hsd, List.nil_append]
  have hr : '$' :: (t ++ " +".toList) = ('$' :: t) ++ ' ' :: "+".toList := by simp
  rw [hr]
  simp only [e5, e6]
  have hv : objyValue " foo.o\n".toList = some " foo.o".toList := by decide
  have htl : dropOpt ':' (dropOpt '+' ((' ' :: "+".toList).dropWhile spTab)) = [] := by decide
  simp only [hv, htl]
  simp

theorem scanMach_files_mono (ptr : Nat) (cap1 : QString) :
    ∀ (toks : List QString) (s : Scan) (f : QString),
      f ∈ s.files → f ∈ (toks.foldl (scanMach ptr cap1) s).files := by
  intro toks
  induction toks with
  | nil => intro s f h; exact h
  | cons t ts ih =>
    intro s f h
    simp only [List.foldl_cons]
    exact ih _ f (List.mem_append_left _ h)

theorem scanLine_files_mono (ptr : Nat) (s : Scan) (line f : QString) (h : f ∈ s.files) :
    f ∈ (scanLine ptr s line).files := by
  unfold scanLine
  split
  · simp only
    split
    · exact List.mem_append_left _ h
    · exact h
  · split
    · exact h
    · simp only
      split
      · exact scanMach_files_mono _ _ _ _ _ h
      · simp only
        split
        · exact List.mem_append_left _ h
        · exact h

theorem scan_files_mono (ptr : Nat) :
    ∀ (lines : List QString) (s : Scan) (f : QString),
      f ∈ s.files → f ∈ (lines.foldl (scanLine ptr) s).files := by
  intro lines
  induction lines with
  | nil => intro s f h; exact h
  | cons l ls ih =>
    intro s f h
    simp only [List.foldl_cons]
    exact ih _ f (scanLine_files_mono ptr s l f h)

theorem define_of_extends {ptr : Nat} {st st' : Plugin} (h : Extends ptr st st') (q : Nat)
    (k : QString) : st'.define q k = st.define q k := by
  unfold Plugin.define
  rw [h.defines]

theorem addFile_mem (fuel ptr : Nat) (dir : KUrl) (archDir : QString) (st st' : Plugin)
    (file0 : QString) (h : addFile fuel ptr dir archDir st file0 = some st') :
    stripArch dir archDir (normalizeFile file0) ∈ (st'.entry ptr dir).validFiles := by
  unfold addFile at h
  simp only at h
  split at h
  · split at h
    · cases h
    · cases h
      exact (mem_entry_addValid _ _ _ _ _ _ _).2 (Or.inr ⟨rfl, rfl, rfl⟩)
  · cases h
    exact (mem_entry_addValid _ _ _ _ _ _ _).2 (Or.inr ⟨rfl, rfl, rfl⟩)

/-- Every collected token ends up, normalised, in the valid files of the directory that
was parsed (line 259). -/
theorem addFiles_mem (fuel ptr : Nat) (dir : KUrl) (archDir : QString) :
    ∀ (files : List QString) (st st' : Plugin),
      addFiles fuel ptr dir archDir st files = some st' →
      ∀ f ∈ files, stripArch dir archDir (normalizeFile f) ∈ (st'.entry ptr dir).validFiles := by
  intro files
  induction files with
  | nil => intro st st' _ f hf; cases hf
  | cons g gs ih =>
    intro st st' h f hf
    unfold addFiles at h
    split at h
    · cases h
    · rename_i st1 h1
      rcases List.mem_cons.1 hf with rfl | hf
      · exact (extends_addFiles _ _ _ _ _ _ _ h).monoValid _ _ (addFile_mem _ _ _ _ _ _ _ h1)
      · exact ih _ _ h f hf

theorem endsWith_foo (x : QString) :
    endsWith (x ++ " += foo.o\n".toList) ['\\', '\n'] = false := by
  simp [endsWith, List.isSuffixOf, List.isPrefixOf]

theorem stripArch_foo (dir : KUrl) (P : IProject) :
    stripArch dir (archDirOf P) (normalizeFile "foo.o".toList) = "foo.c".toList := by
  have hn : normalizeFile "foo.o".toList = "foo.c".toList := by decide
  rw [hn]
  unfold stripArch
  have hs : startsWith "foo.c".toList (archDirOf P) = false := by
    simp [startsWith, archDirOf, List.isPrefixOf]
  rw [hs]
  simp

/-- The scan of a rule line `obj-$(S) += foo.o` (or `obj-${S} += foo.o`) that the outer
loop reads: the token `foo.o` is collected when `S` is defined to `1`, and the scan is
left as it was otherwise. -/
theorem scanLine_conditional (ptr : Nat) (s : Scan) (S line : QString)
    (hS : ∀ c ∈ S, isWord c = true)
    (hline : line = "obj-$(".toList ++ S ++ ") += foo.o\n".toList
      ∨ line = "obj-$\x7b".toList ++ S ++ "\x7d += foo.o\n".toList)
    (hc : s.cont = none) :
    scanLine ptr s line =
      if s.st.define ptr S = ['1'] then ⟨none, s.files ++ ["foo.o".toList], s.st⟩ else s := by
  have hsuf : ∀ c ∈ S, isSuffixChar c = true := fun c hc => isSuffixChar_of_isWord c (hS c hc)
  obtain ⟨cap2, hcap, hm⟩ : ∃ cap2, (cap2 = "$(".toList ++ S ++ ")".toList
      ∨ cap2 = "$\x7b".toList ++ S ++ "\x7d".toList)
      ∧ objyExactMatch line = some ("obj".toList, cap2, " foo.o".toList) := by
    rcases hline with rfl | rfl
    · refine ⟨_, Or.inl rfl, ?_⟩
      have h := objyExactMatch_obj ('(' :: (S ++ [')'])) (by
        intro c hc
        rcases List.mem_cons.1 hc with rfl | hc
        · decide
        · rcases List.mem_append.1 hc with hc | hc
          · exact hsuf c hc
          · rw [List.mem_singleton.1 hc]; decide)
      simpa using h
    · refine ⟨_, Or.inr rfl, ?_⟩
      have h := objyExactMatch_obj ('{' :: (S ++ ['}'])) (by
        intro c hc
        rcases List.mem_cons.1 hc with rfl | hc
        · decide
        · rcases List.mem_append.1 hc with hc | hc
          · exact hsuf c hc
          · rw [List.mem_singleton.1 hc]; decide)
      simpa using h
  have hend : endsWith line ['\\', '\n'] = false := by
    rcases hline with rfl | rfl
    · have := endsWith_foo ("obj-$(".toList ++ S ++ ")".toList)
      simpa using this
    · have := endsWith_foo ("obj-$\x7b".toList ++ S ++ "\x7d".toList)
      simpa using this
  rw [scanLine_rule ptr s line _ _ _ hc hm (by decide) (by decide),
    resolveSuffix_ref s.st ptr S cap2 hS hcap, hend]
  have hsp : splitSkipEmpty " foo.o".toList = ["foo.o".toList] := by decide
  by_cases hd : s.st.define ptr S = ['1']
  · simp only [hd, if_true, hsp]
    have : isActive ['y'] = true := by decide
    simp [this]
  · simp only [hd, if_false, isActive_ref]
    cases s
    simp_all

/-! ## Files directly inside a directory -/

theorem dropSlashesRev_cons (c : Char) (l : List Char) (hc : c ≠ '/') :
    dropSlashesRev (c :: l) = c :: l := by
  unfold dropSlashesRev
  split
  · rename_i h; cases h; exact absurd rfl hc
  · rfl

theorem canonicalDir_split (d : KUrl) (hd : CanonicalDir d) :
    ∃ d0, d = d0 ++ ['/'] ∧ d0.getLast? ≠ some '/' := by
  obtain ⟨h1, h2, -⟩ := hd
  obtain ⟨d0, rfl⟩ := (endsWith_slash_iff d).1 h1
  refine ⟨d0, rfl, ?_⟩
  intro h
  obtain ⟨e, rfl⟩ := List.getLast?_eq_some_iff.1 h
  have : endsWith (e ++ ['/'] ++ ['/']) ['/', '/'] = true := (endsWith_iff _ _).2 ⟨e, by simp⟩
  rw [this] at h2
  cases h2

theorem reverse_name (name : QString) (hne : name ≠ []) (hs : '/' ∉ name) :
    ∃ c l, name.reverse = c :: l ∧ c ≠ '/' ∧ ∀ a ∈ c :: l, (a != '/') = true := by
  cases hr : name.reverse with
  | nil => exact absurd (List.reverse_eq_nil_iff.1 hr) hne
  | cons c l =>
    have hall : ∀ a ∈ c :: l, a ≠ '/' := by
      intro a ha
      rw [← hr] at ha
      rintro rfl
      exact hs (List.mem_reverse.1 ha)
    exact ⟨c, l, rfl, hall c (List.mem_cons_self _ _), fun a ha => by simpa using hall a ha⟩

/-- The base name of a file directly inside a directory. -/
theorem fileName_append (d0 name : QString) (hne : name ≠ []) (hs : '/' ∉ name) :
    KUrl.fileName (d0 ++ '/' :: name) = name := by
  obtain ⟨c, l, hr, hc, hall⟩ := reverse_name name hne hs
  unfold KUrl.fileName
  have hrev : (d0 ++ '/' :: name).reverse = (c :: l) ++ '/' :: d0.reverse := by
    simp [List.reverse_append, hr]
  rw [hrev]
  have h1 : ((c :: l) ++ '/' :: d0.reverse).dropWhile (fun x => x == '/')
      = (c :: l) ++ '/' :: d0.reverse := by
    simp [List.dropWhile_cons, hc]
  rw [h1, (takeWhile_stop (fun x => x != '/') (c :: l) d0.reverse '/' hall (by decide)).1, ← hr]
  simp

/-- The containing directory of a file directly inside a canonical directory. -/
theorem directory_append (d0 name : QString) (hd0 : d0.getLast? ≠ some '/') (hne : name ≠ [])
    (hs : '/' ∉ name) : KUrl.adjustPath (KUrl.directory (d0 ++ '/' :: name)) = d0 ++ ['/'] := by
  obtain ⟨c, l, hr, hc, hall⟩ := reverse_name name hne hs
  have hrev : (d0 ++ '/' :: name).reverse = (c :: l) ++ '/' :: d0.reverse := by
    simp [List.reverse_append, hr]
  have hrts : removeTrailingSlash (d0 ++ '/' :: name) = d0 ++ '/' :: name := by
    unfold removeTrailingSlash
    rw [hrev, List.cons_append, dropSlashesRev_cons _ _ hc, ← List.cons_append, ← hrev]
    simp
  have hdir : KUrl.directory (d0 ++ '/' :: name) = if d0 = [] then ['/'] else d0 := by
    unfold KUrl.directory
    simp only [hrts]
    have hn1 : ¬ (d0 ++ '/' :: name = [] ∨ d0 ++ '/' :: name = ['/']) := by
      rintro (h | h)
      · simp at h
      · have := congrArg List.length h
        cases name with
        | nil => exact hne rfl
        | cons a t => simp at this; omega
    rw [if_neg hn1, hrev, (takeWhile_stop (fun x => x != '/') (c :: l) d0.reverse '/' hall
      (by decide)).2]
    simp
  rw [hdir]
  unfold KUrl.adjustPath
  by_cases h0 : d0 = []
  · subst h0; simp
  · simp [h0, hd0]

theorem answer_of_mem (st : Plugin) (url : KUrl) (P : IProject)
    (h : KUrl.fileName url ∈ (st.entry P.ptr (KUrl.adjustPath (KUrl.directory url))).validFiles) :
    answer st url P = true := by
  unfold answer
  simp only
  split_ifs <;> simp_all

theorem addFile_plain (fuel ptr : Nat) (dir : KUrl) (archDir : QString) (st : Plugin)
    (file0 : QString) (h : '/' ∉ stripArch dir archDir (normalizeFile file0)) :
    addFile fuel ptr dir archDir st file0
      = some (st.addValid ptr dir (stripArch dir archDir (normalizeFile file0))) := by
  unfold addFile
  simp only
  rw [if_neg h]

theorem stripArch_not_arch (dir : KUrl) (P : IProject) (c : Char) (file : QString)
    (hc : c ≠ 'a') : stripArch dir (archDirOf P) (c :: file) = c :: file := by
  unfold stripArch
  have hs : startsWith (c :: file) (archDirOf P) = false := by
    simp [startsWith, archDirOf, List.isPrefixOf, hc.symm]
  rw [hs]
  simp

theorem lastUpdate_setLastUpdate (st : Plugin) (p q : Nat) (d d' : KUrl) (t : Nat) :
    ((st.setLastUpdate p d t).entry q d').lastUpdate
      = if q = p ∧ d' = d then t else (st.entry q d').lastUpdate := by
  unfold Plugin.setLastUpdate
  rw [entry_setEntry]
  by_cases h : q = p ∧ d' = d
  · simp [h]
  · simp [h]

theorem quiet_foldl_addValid (ptr : Nat) (dir : KUrl) :
    ∀ (names : List QString) (st : Plugin),
      Quiet st (names.foldl (fun s name => s.addValid ptr dir name) st) := by
  intro names
  induction names with
  | nil => intro st; exact quiet_refl _
  | cons n ns ih =>
    intro st
    simp only [List.foldl_cons]
    exact quiet_trans _ _ _ (quiet_addValid ptr st dir n) (ih _)

theorem mem_foldl_addValid (ptr : Nat) (dir : KUrl) :
    ∀ (names : List QString) (st : Plugin) (n : QString), n ∈ names →
      n ∈ ((names.foldl (fun s name => s.addValid ptr dir name) st).entry ptr dir).validFiles := by
  intro names
  induction names with
  | nil => intro st n h; cases h
  | cons m ms ih =>
    intro st n h
    simp only [List.foldl_cons]
    rcases List.mem_cons.1 h with rfl | h
    · exact (extends_foldl_addValid ptr dir ms _).monoValid _ _
        ((mem_entry_addValid _ _ _ _ _ _ _).2 (Or.inr ⟨rfl, rfl, rfl⟩))
    · exact ih _ n h

/-- After `import` the entry of the project root carries the time of the import and
holds the names of lines 321 to 333. -/
theorem importProject_root (w : World) (afterMake : QString → Option FileEntry) (st : Plugin)
    (P : IProject) (hP : WellFormed P) :
    ((importProject w afterMake st P).entry P.ptr P.folder).lastUpdate = w.now
      ∧ ∀ n ∈ rootDirs, n ∈ ((importProject w afterMake st P).entry P.ptr P.folder).validFiles := by
  unfold importProject
  simp only
  rw [adjustPath_of_endsWith _ hP.1]
  refine ⟨?_, fun n hn => mem_foldl_addValid _ _ _ _ n hn⟩
  rw [(quiet_foldl_addValid P.ptr P.folder rootDirs _).2]
  cases P.KERN_ARCH with
  | none =>
    simp only
    rw [lastUpdate_setLastUpdate]
    simp
  | some arch =>
    simp only
    unfold seedArch
    simp only
    rw [lastUpdate_addValid, lastUpdate_addValid, lastUpdate_setLastUpdate, lastUpdate_addValid,
      lastUpdate_setLastUpdate]
    simp

/-! ## The end-to-end example -/

/-- Function `parseMakefile` on the Makefile of the example returns, whatever the fuel and the
state, and `init.c` is then a valid file of the directory. -/
theorem parseMakefile_example (fuel : Nat) (w : World) (st : Plugin) (dir : KUrl) (P : IProject)
    (mk : FileEntry) (hmk : w.files (KUrl.relative dir "Makefile".toList) = some mk)
    (htext : mk.content = some exampleMakefile.toList) :
    ∃ st', parseMakefile fuel w st dir P = some st'
      ∧ "init.c".toList ∈ (st'.entry P.ptr dir).validFiles := by
  have hl : readLines exampleMakefile.toList
      = ["obj-y += init.o\n".toList, "obj-$(CONFIG_NET) += net/\n".toList] := by decide
  have hm1 : objyExactMatch "obj-y += init.o\n".toList
      = some ("obj".toList, ['y'], " init.o".toList) := by decide
  have hm2 : objyExactMatch "obj-$(CONFIG_NET) += net/\n".toList
      = some ("obj".toList, "$(CONFIG_NET)".toList, " net/".toList) := by decide
  have he1 : endsWith "obj-y += init.o\n".toList ['\\', '\n'] = false := by decide
  have he2 : endsWith "obj-$(CONFIG_NET) += net/\n".toList ['\\', '\n'] = false := by decide
  have hs1 : splitSkipEmpty " init.o".toList = ["init.o".toList] := by decide
  have hs2 : splitSkipEmpty " net/".toList = ["net/".toList] := by decide
  have hact : isActive ['y'] = true := by decide
  have hn1 : stripArch dir (archDirOf P) (normalizeFile "init.o".toList) = "init.c".toList := by
    have : normalizeFile "init.o".toList = "init.c".toList := by decide
    rw [this]
    exact stripArch_not_arch dir P 'i' _ (by decide)
  have hn2 : stripArch dir (archDirOf P) (normalizeFile "net/".toList) = "net".toList := by
    have : normalizeFile "net/".toList = "net".toList := by decide
    rw [this]
    exact stripArch_not_arch dir P 'n' _ (by decide)
  have ha1 := fun s => addFile_plain fuel P.ptr dir (archDirOf P) s "init.o".toList
    (by rw [hn1]; decide)
  have ha2 := fun s => addFile_plain fuel P.ptr dir (archDirOf P) s "net/".toList
    (by rw [hn2]; decide)
  unfold parseMakefile
  simp only [hmk, htext, hl, List.foldl_cons, List.foldl_nil]
  rw [scanLine_rule _ _ _ _ _ _ rfl hm1 (by decide) (by decide), resolveSuffix_y]
  simp only [hact, he1, hs1, if_true, List.nil_append, Bool.false_eq_true, if_false]
  rw [scanLine_rule _ _ _ _ _ _ rfl hm2 (by decide) (by decide),
    resolveSuffix_ref _ _ "CONFIG_NET".toList _ (by decide) (Or.inl (by decide))]
  simp only [he2, hs2, Bool.false_eq_true, if_false]
  split
  · simp only [hact, if_true, List.cons_append, List.nil_append, addFiles, ha1, ha2, hn1, hn2]
    refine ⟨_, rfl, ?_⟩
    rw [mem_entry_addValid, mem_entry_addValid]
    exact Or.inl (Or.inr ⟨rfl, rfl, rfl⟩)
  · have hna : isActive "$(CONFIG_NET)".toList = false := by decide
    have hna' : isActive ("$(".toList ++ "CONFIG_NET".toList ++ ")".toList) = false := hna
    simp only [hna', Bool.false_eq_true, if_false, addFiles, ha1, hn1]
    refine ⟨_, rfl, ?_⟩
    rw [mem_entry_addValid]
    exact Or.inr ⟨rfl, rfl, rfl⟩

/-- C5, as amended: with the root Makefile of the example and any `.config`, after
`import` the directory `<root>/net` is valid, whether or not `CONFIG_NET` is set, because
`import` puts `net` among the valid files of the root; and `<root>/init.c` is valid
provided the Makefile is not older than the import, so that the first query parses
it. -/
theorem end_to_end (P : IProject) (hP : WellFormed P) (w0 w1 : World)
    (afterMake : QString → Option FileEntry) (st : Plugin) (fuel : Nat) (mk : FileEntry)
    (hmk : w1.files (P.folder ++ "Makefile".toList) = some mk)
    (htext : mk.content = some exampleMakefile.toList) :
    (∃ st', isValid fuel w1 (importProject w0 afterMake st P) (P.folder ++ "net".toList) true P
        = some (true, st'))
      ∧ (w0.now ≤ mk.lastModified →
          ∃ st', isValid fuel w1 (importProject w0 afterMake st P) (P.folder ++ "init.c".toList)
            false P = some (true, st')) := by
  obtain ⟨d0, hd0, hlast⟩ := canonicalDir_split P.folder hP
  have hrel : KUrl.relative P.folder "Makefile".toList = P.folder ++ "Makefile".toList :=
    relative_eq_append _ _ hP.1 hP.2.2 (by decide) (by decide)
  obtain ⟨hlu, hseed⟩ := importProject_root w0 afterMake st P hP
  have hdir : ∀ name : QString, name ≠ [] → '/' ∉ name →
      KUrl.adjustPath (KUrl.directory (P.folder ++ name)) = P.folder
        ∧ KUrl.fileName (P.folder ++ name) = name := by
    intro name h1 h2
    rw [hd0]
    simp only [List.append_assoc, List.singleton_append]
    exact ⟨directory_append d0 name hlast h1 h2, fileName_append d0 name h1 h2⟩
  constructor
  · obtain ⟨hd, hf⟩ := hdir "net".toList (by decide) (by decide)
    rw [isValid_eq, hd]
    have hnet0 : "net".toList ∈ (((importProject w0 afterMake st P).touchEntry P.ptr
        P.folder).entry P.ptr P.folder).validFiles := by
      rw [entry_touchEntry]; exact hseed _ (by decide)
    have key : ∀ st1, refresh fuel w1 (importProject w0 afterMake st P) P.folder P = some st1 →
        answer st1 (P.folder ++ "net".toList) P = true := by
      intro st1 h1
      apply answer_of_mem
      rw [hd, hf]
      exact (extends_refresh _ _ _ _ _ _ h1).monoValid _ _ (hseed _ (by decide))
    have hsome : ∃ st1, refresh fuel w1 (importProject w0 afterMake st P) P.folder P = some st1 := by
      unfold refresh
      simp only [hrel, hmk]
      split
      · obtain ⟨st', h', -⟩ := parseMakefile_example fuel w1
          ((importProject w0 afterMake st P).touchEntry P.ptr P.folder) P.folder P mk
          (by rw [hrel]; exact hmk) htext
        exact ⟨st', h'⟩
      · exact ⟨_, rfl⟩
    obtain ⟨st1, h1⟩ := hsome
    refine ⟨st1, ?_⟩
    rw [h1]
    show some (answer st1 (P.folder ++ "net".toList) P, st1) = some (true, st1)
    rw [key st1 h1]
  · intro hle
    obtain ⟨hd, hf⟩ := hdir "init.c".toList (by decide) (by decide)
    rw [isValid_eq, hd]
    obtain ⟨st', h', hmem⟩ := parseMakefile_example fuel w1
      ((importProject w0 afterMake st P).touchEntry P.ptr P.folder) P.folder P mk
      (by rw [hrel]; exact hmk) htext
    have hr : refresh fuel w1 (importProject w0 afterMake st P) P.folder P = some st' := by
      unfold refresh
      simp only [hrel, hmk]
      rw [entry_touchEntry, hlu, if_pos hle]
      exact h'
    refine ⟨st', ?_⟩
    rw [hr]
    have : answer st' (P.folder ++ "init.c".toList) P = true := by
      apply answer_of_mem
      rw [hd, hf]
      exact hmem
    show some (answer st' (P.folder ++ "init.c".toList) P, st') = some (true, st')
    rw [this]

theorem end_to_end_witness :
    (∃ st', isValid 0 (exampleWorld 11 20 "") (importProject (exampleWorld 10 20 "")
        (fun _ => none) Plugin.init plainProject) "/k/net".toList true plainProject = some (true, st'))
      ∧ ∃ st', isValid 0 (exampleWorld 11 20 "") (importProject (exampleWorld 10 20 "")
        (fun _ => none) Plugin.init plainProject) "/k/init.c".toList false plainProject
          = some (true, st') :=
  ⟨(end_to_end plainProject (by decide) (exampleWorld 10 20 "") (exampleWorld 11 20 "")
      (fun _ => none) Plugin.init 0 ⟨20, some exampleMakefile.toList⟩ (by rfl) rfl).1,
   (end_to_end plainProject (by decide) (exampleWorld 10 20 "") (exampleWorld 11 20 "")
      (fun _ => none) Plugin.init 0 ⟨20, some exampleMakefile.toList⟩ (by rfl) rfl).2 (by decide)⟩

/-- C5, the claim as stated fails: after `CONFIG_NET` is removed from `.config` and the
project is imported again, `isValid` still accepts `/k/net` (the Makefile, of time `20`,
is parsed by the query and its `net/` rule is inactive); and right after an import at
time `10`, with `CONFIG_NET=y` and a Makefile of time `5`, `isValid` rejects
`/k/init.c`. -/
theorem end_to_end_counterexample :
    (isValid 0 (exampleWorld 11 20 "")
        (importProject (exampleWorld 10 20 "") (fun _ => none) (importedPlugin 20 "CONFIG_NET=y\n")
          plainProject) "/k/net".toList true plainProject).map Prod.fst = some true
      ∧ (isValid 0 (exampleWorld 11 5 "CONFIG_NET=y\n") (importedPlugin 5 "CONFIG_NET=y\n")
          "/k/init.c".toList false plainProject).map Prod.fst = some false := by
  constructor <;> decide

/-! ## Two runs of `parseMakefile` on states with the same symbols -/

theorem covers_addValid {M : Nat → KUrl → QString → Prop} {V : Nat → QString → Prop}
    {b a : Plugin} (h : Covers M V b a) (ptr : Nat) (d : KUrl) (f : QString) :
    Covers M V (b.addValid ptr d f) (a.addValid ptr d f) := by
  refine ⟨?_, h.2.1, h.2.2⟩
  intro p d' g
  rw [mem_entry_addValid, mem_entry_addValid, h.1]
  tauto

theorem covers_addMachDir {M : Nat → KUrl → QString → Prop} {V : Nat → QString → Prop}
    {b a : Plugin} (h : Covers M V b a) (ptr : Nat) (m : QString) :
    Covers M V (b.addMachDir ptr m) (a.addMachDir ptr m) := by
  refine ⟨h.1, ?_, h.2.2⟩
  intro p x
  rw [mem_machDirs_addMachDir, mem_machDirs_addMachDir, h.2.1]
  tauto

theorem covers_setLastUpdate {M : Nat → KUrl → QString → Prop} {V : Nat → QString → Prop}
    {b a : Plugin} (h : Covers M V b a) (ptr : Nat) (d : KUrl) (t t' : Nat) :
    Covers M V (b.setLastUpdate ptr d t) (a.setLastUpdate ptr d t') := by
  refine ⟨?_, h.2.1, h.2.2⟩
  intro p d' g
  rw [validFiles_setLastUpdate, validFiles_setLastUpdate]
  exact h.1 p d' g

theorem covers_climb {M : Nat → KUrl → QString → Prop} {V : Nat → QString → Prop}
    (ptr : Nat) (dir : KUrl) :
    ∀ (fuel : Nat) (nDir2 : KUrl) (b a a' : Plugin), Covers M V b a →
      climb ptr dir fuel nDir2 a = some a' →
      ∃ b', climb ptr dir fuel nDir2 b = some b' ∧ Covers M V b' a' := by
  intro fuel
  induction fuel with
  | zero =>
    intro nDir2 b a a' h hc
    unfold climb at hc ⊢
    split at hc
    · rename_i heq
      cases hc
      exact ⟨b, by rw [if_pos heq], h⟩
    · cases hc
  | succ n ih =>
    intro nDir2 b a a' h hc
    unfold climb at hc ⊢
    split at hc
    · rename_i heq
      cases hc
      exact ⟨b, by rw [if_pos heq], h⟩
    · rename_i hne
      rw [if_neg hne]
      exact ih _ _ _ _ (covers_addValid h _ _ _) hc

theorem covers_addFiles {M : Nat → KUrl → QString → Prop} {V : Nat → QString → Prop}
    (fuel ptr : Nat) (dir : KUrl) (archDir : QString) :
    ∀ (files : List QString) (b a a' : Plugin), Covers M V b a →
      addFiles fuel ptr dir archDir a files = some a' →
      ∃ b', addFiles fuel ptr dir archDir b files = some b' ∧ Covers M V b' a' := by
  intro files
  induction files with
  | nil =>
    intro b a a' h ha
    cases ha
    exact ⟨b, rfl, h⟩
  | cons f fs ih =>
    intro b a a' h ha
    unfold addFiles at ha ⊢
    split at ha
    · cases ha
    · rename_i a1 h1
      have hstep : ∃ b1, addFile fuel ptr dir archDir b f = some b1 ∧ Covers M V b1 a1 := by
        unfold addFile at h1 ⊢
        simp only at h1 ⊢
        split at h1
        · rename_i hs
          rw [if_pos hs]
          split at h1
          · cases h1
          · rename_i a2 hc
            cases h1
            obtain ⟨b2, hb2, hcov⟩ := covers_climb ptr dir fuel _ b a a2 h hc
            rw [hb2]
            exact ⟨_, rfl, covers_addValid (covers_addValid hcov _ _ _) _ _ _⟩
        · rename_i hs
          rw [if_neg hs]
          cases h1
          exact ⟨_, rfl, covers_addValid h _ _ _⟩
      obtain ⟨b1, hb1, hcov⟩ := hstep
      rw [hb1]
      exact ih _ _ _ hcov ha

theorem resolveSuffix_congr (b a : Plugin) (ptr : Nat) (cap2 : QString)
    (h : ∀ k, b.define ptr k = a.define ptr k) :
    resolveSuffix b ptr cap2 = resolveSuffix a ptr cap2 := by
  unfold resolveSuffix
  simp only [h]

theorem covers_scan {M : Nat → KUrl → QString → Prop} {V : Nat → QString → Prop} (ptr : Nat) :
    ∀ (lines : List QString) (sb sa : Scan), sb.cont = sa.cont → sb.files = sa.files →
      Covers M V sb.st sa.st →
      (lines.foldl (scanLine ptr) sb).cont = (lines.foldl (scanLine ptr) sa).cont
        ∧ (lines.foldl (scanLine ptr) sb).files = (lines.foldl (scanLine ptr) sa).files
        ∧ Covers M V (lines.foldl (scanLine ptr) sb).st (lines.foldl (scanLine ptr) sa).st := by
  have hmach : ∀ (cap1 : QString) (toks : List QString) (sb sa : Scan), sb.cont = sa.cont →
      sb.files = sa.files → Covers M V sb.st sa.st →
      (toks.foldl (scanMach ptr cap1) sb).cont = (toks.foldl (scanMach ptr cap1) sa).cont
        ∧ (toks.foldl (scanMach ptr cap1) sb).files = (toks.foldl (scanMach ptr cap1) sa).files
        ∧ Covers M V (toks.foldl (scanMach ptr cap1) sb).st
            (toks.foldl (scanMach ptr cap1) sa).st := by
    intro cap1 toks
    induction toks with
    | nil => intro sb sa h1 h2 h3; exact ⟨h1, h2, h3⟩
    | cons t ts ih =>
      intro sb sa h1 h2 h3
      simp only [List.foldl_cons]
      apply ih
      · exact h1
      · simp only [scanMach, h2]
      · exact covers_addMachDir h3 _ _
  have hline : ∀ (line : QString) (sb sa : Scan), sb.cont = sa.cont → sb.files = sa.files →
      Covers M V sb.st sa.st →
      (scanLine ptr sb line).cont = (scanLine ptr sa line).cont
        ∧ (scanLine ptr sb line).files = (scanLine ptr sa line).files
        ∧ Covers M V (scanLine ptr sb line).st (scanLine ptr sa line).st := by
    intro line sb sa h1 h2 h3
    have hres : ∀ cap2, resolveSuffix sb.st ptr cap2 = resolveSuffix sa.st ptr cap2 :=
      fun cap2 => resolveSuffix_congr _ _ _ _ (fun k => h3.2.2 ptr k)
    unfold scanLine
    rw [h1]
    cases sa.cont with
    | some addFiles => simp only [h2]; exact ⟨trivial, trivial, h3⟩
    | none =>
      simp only
      cases objyExactMatch line with
      | none => exact ⟨h1, h2, h3⟩
      | some caps =>
        obtain ⟨cap1, cap2, cap3⟩ := caps
        simp only [hres]
        split
        · exact hmach _ _ _ _ h1 h2 h3
        · simp only [h2]; exact ⟨trivial, trivial, h3⟩
  intro lines
  induction lines with
  | nil => intro sb sa h1 h2 h3; exact ⟨h1, h2, h3⟩
  | cons l ls ih =>
    intro sb sa h1 h2 h3
    simp only [List.foldl_cons]
    obtain ⟨k1, k2, k3⟩ := hline l sb sa h1 h2 h3
    exact ih _ _ k1 k2 k3

/-- Function `parseMakefile` on two states with the same symbols, in two worlds with the same
files: when the run on `a` returns, so does the run on `b`, and `b` keeps covering `a`. -/
theorem covers_parseMakefile {M : Nat → KUrl → QString → Prop} {V : Nat → QString → Prop}
    (fuel : Nat) (w1 w2 : World) (hw : w2.files = w1.files) (b a a' : Plugin) (dir : KUrl)
    (P : IProject) (h : Covers M V b a) (ha : parseMakefile fuel w1 a dir P = some a') :
    ∃ b', parseMakefile fuel w2 b dir P = some b' ∧ Covers M V b' a' := by
  have h0 : Covers M V (parseEnter w2 b dir P) (parseEnter w1 a dir P) :=
    covers_setLastUpdate h P.ptr dir w2.now w1.now
  unfold parseMakefile at ha ⊢
  simp only [hw] at ha ⊢
  cases hf : w1.files (KUrl.relative dir "Makefile".toList) with
  | none =>
    simp only [hf] at ha ⊢
    cases ha
    exact ⟨_, rfl, h0⟩
  | some entry =>
    simp only [hf] at ha ⊢
    cases hc : entry.content with
    | none =>
      simp only [hc] at ha ⊢
      cases ha
      exact ⟨_, rfl, h0⟩
    | some text =>
      simp only [hc] at ha ⊢
      obtain ⟨-, k2, k3⟩ := covers_scan P.ptr (readLines text)
        ⟨none, [], parseEnter w2 b dir P⟩ ⟨none, [], parseEnter w1 a dir P⟩ rfl rfl h0
      rw [k2]
      exact covers_addFiles fuel P.ptr dir (archDirOf P) _ _ _ _ k3 ha

/-! ## Two successive calls of `isValid` -/

theorem any_congr_mem {α : Type} (l1 l2 : List α) (g : α → Bool) (h : ∀ x, x ∈ l1 ↔ x ∈ l2) :
    l1.any g = l2.any g := by
  rw [Bool.eq_iff_iff, List.any_eq_true, List.any_eq_true]
  constructor
  · rintro ⟨x, hx, hg⟩; exact ⟨x, (h x).1 hx, hg⟩
  · rintro ⟨x, hx, hg⟩; exact ⟨x, (h x).2 hx, hg⟩

/-- The answer of `isValid` depends on the plugin only through the members of the valid
files and of the machine directories of the project. -/
theorem answer_congr (b a : Plugin) (url : KUrl) (P : IProject)
    (hv : ∀ d f, f ∈ (b.entry P.ptr d).validFiles ↔ f ∈ (a.entry P.ptr d).validFiles)
    (hm : ∀ m, m ∈ b.machDirs P.ptr ↔ m ∈ a.machDirs P.ptr) :
    answer b url P = answer a url P := by
  have hinc : ∀ g : KUrl → Bool,
      (includeDirectories b P).any g = (includeDirectories a P).any g := by
    intro g
    unfold includeDirectories
    simp only
    cases P.KERN_ARCH with
    | none => rfl
    | some arch =>
      simp only [List.any_append, List.any_map]
      rw [any_congr_mem (b.machDirs P.ptr) (a.machDirs P.ptr) _ hm]
  unfold answer
  simp only [hinc, hv]

theorem answer_touchEntry (st : Plugin) (ptr : Nat) (dir url : KUrl) (P : IProject) :
    answer (st.touchEntry ptr dir) url P = answer st url P :=
  answer_congr _ _ _ _ (fun d f => by rw [entry_touchEntry]) (fun _ => Iff.rfl)

/-- C6, as amended: two successive calls of `isValid` on the same path, the files being
the same at both calls, return the same answer; and when the Makefile of the containing
directory is older than the clock of the first call (or does not exist), the second call
does not parse it, so that it is parsed at most once over the two calls. -/
theorem isValid_twice (fuel : Nat) (w1 w2 : World) (st st1 : Plugin) (url : KUrl)
    (isFolder : Bool) (P : IProject) (b1 : Bool) (hw : w2.files = w1.files)
    (h1 : isValid fuel w1 st url isFolder P = some (b1, st1)) :
    ∃ st2, isValid fuel w2 st1 url isFolder P = some (b1, st2)
      ∧ ((∀ mk, w1.files (KUrl.relative (KUrl.adjustPath (KUrl.directory url)) "Makefile".toList)
              = some mk → mk.lastModified < w1.now) →
          st2.parseLog = st1.parseLog ∧ st2.parseLog.length ≤ st.parseLog.length + 1) := by
  rw [isValid_eq] at h1 ⊢
  generalize KUrl.adjustPath (KUrl.directory url) = dir at h1 ⊢
  cases hr : refresh fuel w1 st dir P with
  | none => rw [hr] at h1; cases h1
  | some s1 =>
    rw [hr] at h1
    simp only [Option.map_some', Option.some.injEq, Prod.mk.injEq] at h1
    obtain ⟨hb, rfl⟩ := h1
    subst hb
    have noParse : ∀ s : Plugin, refresh fuel w2 s dir P = some (s.touchEntry P.ptr dir) →
        ∃ st2, Option.map (fun x => (answer x url P, x)) (refresh fuel w2 s dir P)
            = some (answer s url P, st2) ∧ st2.parseLog = s.parseLog := by
      intro s hs
      refine ⟨s.touchEntry P.ptr dir, ?_, rfl⟩
      rw [hs]
      simp only [Option.map_some', answer_touchEntry]
    unfold refresh at hr
    simp only at hr
    cases hf : w1.files (KUrl.relative dir "Makefile".toList) with
    | none =>
      simp only [hf] at hr
      cases hr
      obtain ⟨st2, e, hl⟩ := noParse (st.touchEntry P.ptr dir) (by
        unfold refresh; simp only [hw, hf])
      exact ⟨st2, e, fun _ => ⟨hl, by rw [hl]; exact Nat.le_succ _⟩⟩
    | some mk =>
      simp only [hf] at hr
      by_cases hle : ((st.touchEntry P.ptr dir).entry P.ptr dir).lastUpdate ≤ mk.lastModified
      · rw [if_pos hle] at hr
        obtain ⟨hlog, hlu, -⟩ := parseMakefile_meta _ _ _ _ _ _ hr
        have hlog' : s1.parseLog.length = st.parseLog.length + 1 := by
          rw [hlog]; simp [Plugin.touchEntry, Plugin.setEntry]
        by_cases hle2 : w1.now ≤ mk.lastModified
        · have hext := extends_parseMakefile _ _ _ _ _ _ hr
          have hcov : Covers (fun p d f => f ∈ (s1.entry p d).validFiles)
              (fun p m => m ∈ s1.machDirs p) (s1.touchEntry P.ptr dir)
              (st.touchEntry P.ptr dir) := by
            refine ⟨?_, ?_, ?_⟩
            · intro p d f
              rw [entry_touchEntry]
              constructor
              · exact Or.inl
              · rintro (h | h)
                · exact h
                · by_cases hp : p = P.ptr
                  · subst hp; exact hext.monoValid d f h
                  · have e1 : s1.entry p d = (st.touchEntry P.ptr dir).entry p d := by
                      unfold Plugin.entry; rw [hext.othersValid p hp]
                    rw [e1]; exact h
            · intro p m
              show m ∈ s1.machDirs p ↔ _ ∨ m ∈ st.machDirs p
              constructor
              · exact Or.inl
              · rintro (h | h)
                · exact h
                · by_cases hp : p = P.ptr
                  · subst hp; exact hext.monoMach m h
                  · have e1 : s1.machDirs p = (st.touchEntry P.ptr dir).machDirs p := by
                      unfold Plugin.machDirs; rw [hext.othersMach p hp]
                    rw [e1]; exact h
            · intro p k
              show s1.define p k = (st.touchEntry P.ptr dir).define p k
              exact define_of_extends hext p k
          obtain ⟨s2, hs2, hcov2⟩ := covers_parseMakefile fuel w1 w2 hw _ _ _ dir P hcov hr
          have hr2 : refresh fuel w2 s1 dir P = some s2 := by
            unfold refresh
            simp only [hw, hf]
            rw [entry_touchEntry, hlu, if_pos hle2]
            exact hs2
          refine ⟨s2, ?_, ?_⟩
          · rw [hr2]
            simp only [Option.map_some', Option.some.injEq, Prod.mk.injEq, and_true]
            apply answer_congr
            · intro d f; rw [hcov2.1]; exact or_self_iff
            · intro m; rw [hcov2.2.1]; exact or_self_iff
          · intro hold
            exact absurd (hold mk rfl) (Nat.not_lt_of_le hle2)
        · obtain ⟨st2, e, hl⟩ := noParse s1 (by
            unfold refresh
            simp only [hw, hf]
            rw [entry_touchEntry, hlu, if_neg hle2])
          exact ⟨st2, e, fun _ => ⟨hl, by rw [hl, hlog']⟩⟩
      · rw [if_neg hle] at hr
        cases hr
        obtain ⟨st2, e, hl⟩ := noParse (st.touchEntry P.ptr dir) (by
          unfold refresh
          simp only [hw, hf]
          rw [entry_touchEntry]
          rw [if_neg hle])
        exact ⟨st2, e, fun _ => ⟨hl, by rw [hl]; exact Nat.le_succ _⟩⟩

theorem isValid_twice_witness :
    ∃ st2, isValid 0 (exampleWorld 11 5 "")
        ((parseMakefile 0 (exampleWorld 10 5 "") (Plugin.init.touchEntry 1 "/k/".toList)
          "/k/".toList plainProject).getD Plugin.init) "/k/init.c".toList false plainProject
          = some (true, st2)
      ∧ ((∀ mk, (exampleWorld 10 5 "").files
              (KUrl.relative (KUrl.adjustPath (KUrl.directory "/k/init.c".toList)) "Makefile".toList)
              = some mk → mk.lastModified < (exampleWorld 10 5 "").now) →
          st2.parseLog = ((parseMakefile 0 (exampleWorld 10 5 "")
              (Plugin.init.touchEntry 1 "/k/".toList) "/k/".toList plainProject).getD
                Plugin.init).parseLog
            ∧ st2.parseLog.length ≤ Plugin.init.parseLog.length + 1) :=
  isValid_twice 0 (exampleWorld 10 5 "") (exampleWorld 11 5 "") Plugin.init _ "/k/init.c".toList
    false plainProject true rfl (by rfl)

/-- C6, the claim as stated fails: the Makefile of `/k/` carries the time `20`, later
than the clock of both calls (`10`, then `11`); each of the two successive calls of
`isValid` on `/k/init.c` parses it, as the log of the second call shows. -/
theorem isValid_twice_counterexample :
    ((isValid 0 (exampleWorld 10 20 "") Plugin.init "/k/init.c".toList false plainProject).bind
        (fun r => isValid 0 (exampleWorld 11 20 "") r.2 "/k/init.c".toList false plainProject)).map
      (fun r => r.2.parseLog) = some [(1, "/k/".toList), (1, "/k/".toList)] := by
  decide

/-! ## The fan-out loop below a directory other than the root -/

theorem fileName_slash (u : KUrl) : KUrl.fileName (u ++ ['/']) = KUrl.fileName u := by
  unfold KUrl.fileName
  simp [List.reverse_append, List.dropWhile_cons]

theorem removeTrailingSlash_slash (u : KUrl) (hu : u ≠ []) :
    removeTrailingSlash (u ++ ['/']) = removeTrailingSlash u := by
  unfold removeTrailingSlash
  congr 1
  cases hr : u.reverse with
  | nil => exact absurd (List.reverse_eq_nil_iff.1 hr) hu
  | cons c cs =>
    simp only [List.reverse_append, List.reverse_cons, List.reverse_nil, List.nil_append,
      List.singleton_append, hr]
    rw [dropSlashesRev]

theorem directory_slash (u : KUrl) (hu : u ≠ []) :
    KUrl.directory (u ++ ['/']) = KUrl.directory u := by
  unfold KUrl.directory
  rw [removeTrailingSlash_slash u hu]

/-- Function `KUrl::directory()` of a file directly inside a directory. -/
theorem directory_file (d0 name : QString) (hne : name ≠ []) (hs : '/' ∉ name) :
    KUrl.directory (d0 ++ '/' :: name) = if d0 = [] then ['/'] else d0 := by
  obtain ⟨c, l, hr, hc, hall⟩ := reverse_name name hne hs
  have hrev : (d0 ++ '/' :: name).reverse = (c :: l) ++ '/' :: d0.reverse := by
    simp [List.reverse_append, hr]
  have hrts : removeTrailingSlash (d0 ++ '/' :: name) = d0 ++ '/' :: name := by
    unfold removeTrailingSlash
    rw [hrev, List.cons_append, dropSlashesRev_cons _ _ hc, ← List.cons_append, ← hrev]
    simp
  unfold KUrl.directory
  simp only [hrts]
  have hn1 : ¬ (d0 ++ '/' :: name = [] ∨ d0 ++ '/' :: name = ['/']) := by
    rintro (h | h)
    · simp at h
    · have := congrArg List.length h
      cases name with
      | nil => exact hne rfl
      | cons a t => simp at this; omega
  rw [if_neg hn1, hrev, (takeWhile_stop (fun x => x != '/') (c :: l) d0.reverse '/' hall
    (by decide)).2]
  simp

/-- One iteration of the loop of lines 250 to 255 at `Q/x` or `Q/x/`, for a non-empty
`Q`: the name is `x`, and the next directory is `Q/`. -/
theorem climb_step (Q x nDir2 : QString) (hQ : Q ≠ []) (hne : x ≠ []) (hs : '/' ∉ x)
    (hn : nDir2 = Q ++ '/' :: x ∨ nDir2 = Q ++ '/' :: x ++ ['/']) :
    KUrl.fileName nDir2 = x ∧ KUrl.directory nDir2 ++ ['/'] = Q ++ ['/'] := by
  have h1 : KUrl.fileName (Q ++ '/' :: x) = x := fileName_append Q x hne hs
  have h2 : KUrl.directory (Q ++ '/' :: x) = Q := by
    rw [directory_file Q x hne hs, if_neg hQ]
  rcases hn with rfl | rfl
  · exact ⟨h1, by rw [h2]⟩
  · rw [fileName_slash, directory_slash _ (by simp)]
    exact ⟨h1, by rw [h2]⟩

theorem dirsPath_snoc (D : KUrl) (ys : List QString) (x : QString) :
    dirsPath D (ys ++ [x]) = dirsPath D ys ++ x ++ ['/'] := by
  simp [dirsPath, List.append_assoc]

theorem dirsPath_length (D : KUrl) (xs : List QString) : D.length ≤ (dirsPath D xs).length := by
  simp [dirsPath]

theorem dirsPath_split (Q : QString) (hQ : Q ≠ []) (ys : List QString) :
    ∃ R, R ≠ [] ∧ dirsPath (Q ++ ['/']) ys = R ++ ['/'] := by
  induction ys using List.reverseRecOn with
  | nil => exact ⟨Q, hQ, by simp [dirsPath]⟩
  | append_singleton ys x ih =>
    exact ⟨dirsPath (Q ++ ['/']) ys ++ x, by simp [dirsPath], by rw [dirsPath_snoc]⟩

theorem climb_mono (ptr : Nat) (dir : KUrl) :
    ∀ (fuel extra : Nat) (nDir2 : KUrl) (st st' : Plugin),
      climb ptr dir fuel nDir2 st = some st' → climb ptr dir (fuel + extra) nDir2 st = some st' := by
  intro fuel
  induction fuel with
  | zero =>
    intro extra nDir2 st st' h
    unfold climb at h
    split at h
    · rename_i heq
      cases h
      cases extra with
      | zero => unfold climb; rw [if_pos heq]
      | succ e => rw [Nat.zero_add]; unfold climb; rw [if_pos heq]
    · cases h
  | succ n ih =>
    intro extra nDir2 st st' h
    rw [Nat.add_right_comm]
    unfold climb at h ⊢
    split at h
    · rename_i heq
      cases h
      rw [if_pos heq]
    · rename_i hne
      rw [if_neg hne]
      exact ih _ _ _ _ h

/-- The loop of lines 250 to 255 from `D/y1/.../yk` (with or without a trailing slash) up
to `D`, for a directory `D` other than `/`: it ends after exactly `k` iterations, and
every `yi` has become a valid file of `D/y1/.../y(i-1)/`. -/
theorem climb_dirs (ptr : Nat) (Q : QString) (hQ : Q ≠ []) :
    ∀ (ys : List QString), (∀ y ∈ ys, y ≠ [] ∧ '/' ∉ y) →
      ∀ (nDir2 : KUrl) (st : Plugin),
        (nDir2 = dirsPath (Q ++ ['/']) ys ∨ (nDir2 ++ ['/'] = dirsPath (Q ++ ['/']) ys ∧ ys ≠ [])) →
        (∃ st', climb ptr (Q ++ ['/']) ys.length nDir2 st = some st' ∧ Extends ptr st st'
          ∧ ∀ pre x post, ys = pre ++ x :: post →
              x ∈ (st'.entry ptr (dirsPath (Q ++ ['/']) pre)).validFiles)
        ∧ ∀ fuel, fuel < ys.length → climb ptr (Q ++ ['/']) fuel nDir2 st = none := by
  intro ys
  induction ys using List.reverseRecOn with
  | nil =>
    intro _ nDir2 st hn
    rcases hn with rfl | ⟨-, h⟩
    · refine ⟨⟨st, ?_, extends_refl _ _, ?_⟩, ?_⟩
      · simp [climb, dirsPath]
      · intro pre x post h; simp at h
      · intro fuel h; cases h
    · exact absurd rfl h
  | append_singleton ys x ih =>
    intro hys nDir2 st hn
    have hx := hys x (by simp)
    have hys' : ∀ y ∈ ys, y ≠ [] ∧ '/' ∉ y := fun y hy => hys y (by simp [hy])
    obtain ⟨R, hR, hsplit⟩ := dirsPath_split Q hQ ys
    have hform : nDir2 = R ++ '/' :: x ∨ nDir2 = R ++ '/' :: x ++ ['/'] := by
      rw [dirsPath_snoc, hsplit] at hn
      rcases hn with h | ⟨h, -⟩
      · right; rw [h]; simp
      · left
        have h' : nDir2 ++ ['/'] = (R ++ '/' :: x) ++ ['/'] := by rw [h]; simp
        exact List.append_cancel_right h'
    obtain ⟨hf, hd⟩ := climb_step R x nDir2 hR hx.1 hx.2 hform
    rw [← hsplit] at hd
    have hne : nDir2 ≠ Q ++ ['/'] := by
      intro h
      have hl := dirsPath_length (Q ++ ['/']) ys
      rw [hsplit] at hl
      have hxl : 0 < x.length := List.length_pos.2 hx.1
      have := congrArg List.length h
      rcases hform with rfl | rfl <;> simp at this hl <;> omega
    obtain ⟨⟨st', hc, hext, hmem⟩, hnone⟩ :=
      ih hys' (dirsPath (Q ++ ['/']) ys)
        (st.addValid ptr (dirsPath (Q ++ ['/']) ys) x) (Or.inl rfl)
    have hunf : ∀ n, climb ptr (Q ++ ['/']) (n + 1) nDir2 st
        = climb ptr (Q ++ ['/']) n (dirsPath (Q ++ ['/']) ys)
            (st.addValid ptr (dirsPath (Q ++ ['/']) ys) x) := by
      intro n
      rw [climb, if_neg hne]
      simp only [hf, hd]
    refine ⟨⟨st', ?_, extends_trans (extends_addValid _ _ _ _) hext, ?_⟩, ?_⟩
    · rw [List.length_append, List.length_singleton, hunf]
      exact hc
    · intro pre y post hdec
      rcases List.eq_nil_or_concat post with rfl | ⟨post', z, rfl⟩
      · have h1 : ys ++ [x] = pre ++ [y] := by simpa using hdec
        obtain ⟨h2, h3⟩ := List.append_inj' h1 rfl
        subst h2
        have h4 : x = y := by simpa using h3
        subst h4
        exact hext.monoValid _ _ ((mem_entry_addValid _ _ _ _ _ _ _).2 (Or.inr ⟨rfl, rfl, rfl⟩))
      · have h1 : ys ++ [x] = (pre ++ y :: post') ++ [z] := by simpa using hdec
        obtain ⟨h2, -⟩ := List.append_inj' h1 rfl
        exact hmem pre y post' h2
    · intro fuel hlt
      cases fuel with
      | zero => rw [climb, if_neg hne]
      | succ n =>
        rw [hunf]
        apply hnone
        simpa using hlt

theorem splitOn_plain (x : QString) (hs : '/' ∉ x) : x.splitOn '/' = [x] := by
  have h := List.splitOn_intercalate [x] '/' (by simpa using hs) (by simp)
  simpa [List.intercalate] using h

theorem cleanPath_plain (x : QString) (hx : PlainName x) : CleanPath x := by
  unfold CleanPath
  rw [splitOn_plain x hx.2.1]
  intro seg hseg
  rw [List.mem_singleton.1 hseg]
  exact ⟨hx.2.2.1, hx.2.2.2⟩

theorem relPath_cons (x : QString) (xs : List QString) (f : QString) :
    relPath (x :: xs) f = x ++ '/' :: relPath xs f := by
  simp [relPath]

theorem cleanPath_relPath (xs : List QString) (f : QString) (hxs : ∀ x ∈ xs, PlainName x)
    (hf : PlainName f) : CleanPath (relPath xs f) := by
  induction xs with
  | nil => simpa [relPath] using cleanPath_plain f hf
  | cons x xs ih =>
    rw [relPath_cons]
    exact cleanPath_append x _ (cleanPath_slash x (cleanPath_plain x (hxs x (by simp))))
      (ih (fun y hy => hxs y (by simp [hy])))

theorem dirsPath_relPath (D : KUrl) (xs : List QString) (f : QString) :
    D ++ relPath xs f = dirsPath D xs ++ f := by
  simp [dirsPath, relPath]

/-- The fan-out of one token below a directory `D` other than `/`: when the token
normalises to `x1/.../xk/f`, `k ≥ 1`, all components plain, and the fuel covers the `k`
iterations of the loop, the body of the `foreach` returns, `f` is a valid file of
`D/x1/.../xk/`, every `xi` is one of `D/x1/.../x(i-1)/` (so `x1` is one of `D`), and the
whole token is one of `D`. -/
theorem fanOut_addFile (fuel ptr : Nat) (Q archDir file0 f : QString) (xs : List QString)
    (st : Plugin) (hQ : Q ≠ []) (hD : CleanPath (Q ++ ['/'])) (hxs : ∀ x ∈ xs, PlainName x)
    (hf : PlainName f) (hk : xs ≠ []) (hfuel : xs.length ≤ fuel)
    (hnorm : stripArch (Q ++ ['/']) archDir (normalizeFile file0) = relPath xs f) :
    ∃ st', addFile fuel ptr (Q ++ ['/']) archDir st file0 = some st'
      ∧ f ∈ (st'.entry ptr (dirsPath (Q ++ ['/']) xs)).validFiles
      ∧ (∀ pre x post, xs = pre ++ x :: post →
          x ∈ (st'.entry ptr (dirsPath (Q ++ ['/']) pre)).validFiles)
      ∧ relPath xs f ∈ (st'.entry ptr (Q ++ ['/'])).validFiles := by
  obtain ⟨ys, y, rfl⟩ : ∃ ys y, xs = ys ++ [y] := by
    rcases List.eq_nil_or_concat xs with h | ⟨ys, y, h⟩
    · exact absurd h hk
    · exact ⟨ys, y, by simpa using h⟩
  have hy := hxs y (by simp)
  have hslash : '/' ∈ relPath (ys ++ [y]) f := by simp [relPath]
  have hhead : (relPath (ys ++ [y]) f).head? ≠ some '/' := by
    cases ys with
    | nil =>
      obtain ⟨hy1, hy2, -⟩ := hy
      cases y with
      | nil => exact absurd rfl hy1
      | cons c cs =>
        simp only [relPath, List.nil_append, List.map_cons, List.map_nil, List.flatten_cons,
          List.flatten_nil, List.append_nil, List.cons_append, List.head?_cons, ne_eq,
          Option.some.injEq]
        rintro rfl
        exact hy2 (List.mem_cons_self _ _)
    | cons z zs =>
      obtain ⟨hz1, hz2, -⟩ := hxs z (by simp)
      cases z with
      | nil => exact absurd rfl hz1
      | cons c cs =>
        simp only [relPath, List.cons_append, List.map_cons, List.flatten_cons,
          List.head?_cons, ne_eq, Option.some.injEq]
        rintro rfl
        exact hz2 (List.mem_cons_self _ _)
  have hrel : KUrl.relative (Q ++ ['/']) (relPath (ys ++ [y]) f)
      = dirsPath (Q ++ ['/']) (ys ++ [y]) ++ f := by
    rw [relative_eq_append _ _ ((endsWith_slash_iff _).2 ⟨Q, rfl⟩) hD
      (cleanPath_relPath _ f hxs hf) hhead, dirsPath_relPath]
  have hR : dirsPath (Q ++ ['/']) (ys ++ [y]) = (dirsPath (Q ++ ['/']) ys ++ y) ++ ['/'] := by
    rw [dirsPath_snoc]
  have hRlast : (dirsPath (Q ++ ['/']) ys ++ y).getLast? ≠ some '/' := by
    obtain ⟨c, l, hr, hc, -⟩ := reverse_name y hy.1 hy.2.1
    have : y = l.reverse ++ [c] := by
      have := congrArg List.reverse hr
      simpa using this
    rw [this, ← List.append_assoc, List.getLast?_concat]
    simpa using hc
  have hRne : dirsPath (Q ++ ['/']) ys ++ y ≠ [] := by
    intro h
    exact hy.1 (List.append_eq_nil.1 h).2
  have hfile : dirsPath (Q ++ ['/']) (ys ++ [y]) ++ f
      = (dirsPath (Q ++ ['/']) ys ++ y) ++ '/' :: f := by
    rw [hR]; simp
  have hdir : KUrl.directory (dirsPath (Q ++ ['/']) (ys ++ [y]) ++ f)
      = dirsPath (Q ++ ['/']) ys ++ y := by
    rw [hfile, directory_file _ f hf.1 hf.2.1, if_neg hRne]
  have hadj : KUrl.adjustPath (dirsPath (Q ++ ['/']) ys ++ y)
      = dirsPath (Q ++ ['/']) (ys ++ [y]) := by
    rw [hR]
    unfold KUrl.adjustPath
    rw [if_pos ⟨hRne, hRlast⟩]
  have hname : KUrl.fileName (dirsPath (Q ++ ['/']) (ys ++ [y]) ++ f) = f := by
    rw [hfile]
    exact fileName_append _ f hf.1 hf.2.1
  obtain ⟨⟨st1, hc, hext, hmem⟩, -⟩ := climb_dirs ptr Q hQ (ys ++ [y])
    (fun x hx => ⟨(hxs x hx).1, (hxs x hx).2.1⟩) (dirsPath (Q ++ ['/']) ys ++ y) st
    (Or.inr ⟨hR.symm, by simp⟩)
  have hc' : climb ptr (Q ++ ['/']) fuel (dirsPath (Q ++ ['/']) ys ++ y) st = some st1 := by
    have := climb_mono ptr (Q ++ ['/']) (ys ++ [y]).length (fuel - (ys ++ [y]).length) _ _ _ hc
    rwa [Nat.add_sub_cancel' hfuel] at this
  refine ⟨(st1.addValid ptr (dirsPath (Q ++ ['/']) (ys ++ [y])) f).addValid ptr (Q ++ ['/'])
    (relPath (ys ++ [y]) f), ?_, ?_, ?_, ?_⟩
  · unfold addFile
    simp only [hnorm]
    rw [if_pos hslash, hrel, hdir, hc', hadj, hname]
  · rw [mem_entry_addValid, mem_entry_addValid]
    exact Or.inl (Or.inr ⟨rfl, rfl, rfl⟩)
  · intro pre x post hdec
    rw [mem_entry_addValid, mem_entry_addValid]
    exact Or.inl (Or.inl (hmem pre x post hdec))
  · rw [mem_entry_addValid]
    exact Or.inr ⟨rfl, rfl, rfl⟩

/-- An instance of the fan-out below `/k/`: the token `a/b/c.o` puts `c.c` into
`/k/a/b/`, `b` into `/k/a/`, `a` and `a/b/c.c` into `/k/`. -/
theorem fanOut_addFile_example :
    ∃ st', addFile 2 1 "/k/".toList (archDirOf plainProject) Plugin.init "a/b/c.o".toList = some st'
      ∧ "c.c".toList ∈ (st'.entry 1 "/k/a/b/".toList).validFiles
      ∧ "b".toList ∈ (st'.entry 1 "/k/a/".toList).validFiles
      ∧ "a".toList ∈ (st'.entry 1 "/k/".toList).validFiles
      ∧ "a/b/c.c".toList ∈ (st'.entry 1 "/k/".toList).validFiles := by
  obtain ⟨st', h1, h2, h3, h4⟩ := fanOut_addFile 2 1 "/k".toList (archDirOf plainProject)
    "a/b/c.o".toList "c.c".toList ["a".toList, "b".toList] Plugin.init (by decide) (by decide)
    (by decide) (by decide) (by decide) (by decide) (by decide)
  exact ⟨st', h1, h2, h3 ["a".toList] "b".toList [] rfl, h3 [] "a".toList ["b".toList] rfl, h4⟩

/-! ## A Makefile that is missing or cannot be read -/

/-- C14: `parseMakefile` stamps the entry of the directory with the current time whether
or not the Makefile exists or can be opened; and when the Makefile is absent or cannot be
opened, the call returns and changes nothing else: the valid files of every entry, the
machine directories and the symbol tables are what they were, and so is every other time
stamp. -/
theorem parseMakefile_negative_cached (fuel : Nat) (w : World) (st : Plugin) (dir : KUrl)
    (P : IProject) :
    (∀ st', parseMakefile fuel w st dir P = some st' → (st'.entry P.ptr dir).lastUpdate = w.now)
      ∧ ((w.files (KUrl.relative dir "Makefile".toList) = none
            ∨ ∃ e, w.files (KUrl.relative dir "Makefile".toList) = some e ∧ e.content = none) →
          ∃ st', parseMakefile fuel w st dir P = some st'
            ∧ (st'.entry P.ptr dir).lastUpdate = w.now
            ∧ (∀ p d, (st'.entry p d).validFiles = (st.entry p d).validFiles)
            ∧ st'._machDirs = st._machDirs
            ∧ st'._defines = st._defines
            ∧ ∀ p d, ¬ (p = P.ptr ∧ d = dir) →
                (st'.entry p d).lastUpdate = (st.entry p d).lastUpdate) := by
  constructor
  · intro st' h
    exact (parseMakefile_meta _ _ _ _ _ _ h).2.1
  · intro habs
    have hp : parseMakefile fuel w st dir P = some (parseEnter w st dir P) := by
      unfold parseMakefile
      rcases habs with h | ⟨e, he, hc⟩
      · simp only [h]
      · simp only [he, hc]
    obtain ⟨-, h2, h3⟩ := parseMakefile_meta _ _ _ _ _ _ hp
    refine ⟨_, hp, h2, ?_, rfl, rfl, h3⟩
    intro p d
    exact validFiles_setLastUpdate st P.ptr p dir d w.now

/-! ## Growth -/

/-- C17: `parseMakefile` and `isValid` remove nothing: after the call every entry of the
project holds the valid files it held before, and the project has the machine directories
it had before.  So a name that is a valid file of a directory is still accepted by
`isValid` after any change of the Makefile. -/
theorem monotonic_growth (fuel : Nat) (w : World) (st : Plugin) (dir url : KUrl)
    (isFolder : Bool) (P : IProject) :
    (∀ st', parseMakefile fuel w st dir P = some st' →
        (∀ d f, f ∈ (st.entry P.ptr d).validFiles → f ∈ (st'.entry P.ptr d).validFiles)
          ∧ ∀ m, m ∈ st.machDirs P.ptr → m ∈ st'.machDirs P.ptr)
      ∧ (∀ b st', isValid fuel w st url isFolder P = some (b, st') →
        (∀ d f, f ∈ (st.entry P.ptr d).validFiles → f ∈ (st'.entry P.ptr d).validFiles)
          ∧ ∀ m, m ∈ st.machDirs P.ptr → m ∈ st'.machDirs P.ptr)
      ∧ (KUrl.fileName url ∈ (st.entry P.ptr (KUrl.adjustPath (KUrl.directory url))).validFiles →
          isValid fuel w st url isFolder P =
            (refresh fuel w st (KUrl.adjustPath (KUrl.directory url)) P).map
              (fun st1 => (true, st1))) := by
  refine ⟨?_, ?_, ?_⟩
  · intro st' h
    have he := extends_parseMakefile _ _ _ _ _ _ h
    exact ⟨he.monoValid, he.monoMach⟩
  · intro b st' h
    rw [isValid_eq] at h
    cases hr : refresh fuel w st (KUrl.adjustPath (KUrl.directory url)) P with
    | none => rw [hr] at h; cases h
    | some st1 =>
      rw [hr] at h
      simp only [Option.map_some', Option.some.injEq, Prod.mk.injEq] at h
      obtain ⟨-, rfl⟩ := h
      have he := extends_refresh _ _ _ _ _ _ hr
      exact ⟨he.monoValid, he.monoMach⟩
  · intro hmem
    rw [isValid_eq]
    cases hr : refresh fuel w st (KUrl.adjustPath (KUrl.directory url)) P with
    | none => rfl
    | some st1 =>
      have he := extends_refresh _ _ _ _ _ _ hr
      simp only [Option.map_some']
      rw [answer_of_mem st1 url P (he.monoValid _ _ hmem)]

/-! ## The Kconfig rule and the include rule -/

theorem answer_of_kconf (st : Plugin) (url : KUrl) (P : IProject)
    (h : containsKconf url = true) : answer st url P = true := by
  unfold answer
  simp only
  split_ifs <;> simp_all

theorem answer_of_include (st : Plugin) (url : KUrl) (P : IProject)
    (h : ∃ i ∈ includeDirectories st P, startsWith url i = true) : answer st url P = true := by
  have hA : ((includeDirectories st P).any fun iUrl => startsWith url iUrl) = true :=
    List.any_eq_true.2 h
  unfold answer
  simp only
  rw [if_pos hA]

theorem parseMakefile_negative_cached_witness :
    ∃ st', parseMakefile 0 (exampleWorld 11 5 "") (importedPlugin 5 "") "/k/fs/".toList plainProject
        = some st'
      ∧ (st'.entry plainProject.ptr "/k/fs/".toList).lastUpdate = (exampleWorld 11 5 "").now
      ∧ (∀ p d, (st'.entry p d).validFiles = ((importedPlugin 5 "").entry p d).validFiles)
      ∧ st'._machDirs = (importedPlugin 5 "")._machDirs
      ∧ st'._defines = (importedPlugin 5 "")._defines
      ∧ ∀ p d, ¬ (p = plainProject.ptr ∧ d = "/k/fs/".toList) →
          (st'.entry p d).lastUpdate = ((importedPlugin 5 "").entry p d).lastUpdate :=
  (parseMakefile_negative_cached 0 (exampleWorld 11 5 "") (importedPlugin 5 "") "/k/fs/".toList
    plainProject).2 (Or.inl (by rfl))

theorem monotonic_growth_witness :
    (isValid 0 (exampleWorld 11 20 "") (importedPlugin 20 "") "/k/net".toList true
        plainProject).map Prod.fst = some true := by
  rw [(monotonic_growth 0 (exampleWorld 11 20 "") (importedPlugin 20 "") [] "/k/net".toList true
    plainProject).2.2 (by decide)]
  rfl

/-! ## What `import` leaves behind -/

theorem importProject_defines (w : World) (afterMake : QString → Option FileEntry) (st : Plugin)
    (P : IProject) :
    (importProject w afterMake st P)._defines P.ptr =
      some (parseDotConfig w afterMake P
        (KUrl.relative (KUrl.adjustPath (P.KERN_BDIR.getD (KUrl.adjustPath P.folder)))
          ".config".toList)
        (Defines.set (fun _ => none) "__KERNEL__".toList [])) := by
  unfold importProject
  simp only
  rw [(extends_foldl_addValid P.ptr _ rootDirs _).defines]
  cases P.KERN_ARCH with
  | none =>
    simp only
    rw [(extends_setLastUpdate _ _ _ _).defines]
    simp
  | some arch =>
    simp only
    rw [(extends_seedArch _ _ _ _ _).defines, (extends_setLastUpdate _ _ _ _).defines]
    simp

/-- C15, as amended: when the `.config` of the build directory is absent, and still absent
once `make` has been run for a default configuration, `parseDotConfig` adds nothing to the
table it is given; after `import` the symbol table of the project holds the one entry
that `import` itself puts there, `__KERNEL__` with the empty value, and no other. -/
theorem import_without_dotconfig (w : World) (afterMake : QString → Option FileEntry)
    (st : Plugin) (P : IProject)
    (h1 : w.files (KUrl.relative (KUrl.adjustPath (P.KERN_BDIR.getD (KUrl.adjustPath P.folder)))
      ".config".toList) = none)
    (h2 : afterMake (KUrl.relative (KUrl.adjustPath (P.KERN_BDIR.getD (KUrl.adjustPath P.folder)))
      ".config".toList) = none) :
    (∀ defs, parseDotConfig w afterMake P
        (KUrl.relative (KUrl.adjustPath (P.KERN_BDIR.getD (KUrl.adjustPath P.folder)))
          ".config".toList) defs = defs)
      ∧ ∃ table, (importProject w afterMake st P)._defines P.ptr = some table
          ∧ ∀ key, table key = if key = "__KERNEL__".toList then some [] else none := by
  have hpd : ∀ defs, parseDotConfig w afterMake P
      (KUrl.relative (KUrl.adjustPath (P.KERN_BDIR.getD (KUrl.adjustPath P.folder)))
        ".config".toList) defs = defs := by
    intro defs
    unfold parseDotConfig
    simp only
    split_ifs <;> simp only [h1, h2]
  refine ⟨hpd, _, by rw [importProject_defines, hpd], ?_⟩
  intro key
  rfl

theorem import_without_dotconfig_witness :
    ∃ table, (importProject bareWorld (fun _ => none) Plugin.init plainProject)._defines
        plainProject.ptr = some table
      ∧ ∀ key, table key = if key = "__KERNEL__".toList then some [] else none :=
  (import_without_dotconfig bareWorld (fun _ => none) Plugin.init plainProject (by rfl) rfl).2

/-- C15, the claim as stated fails: the tree has no `.config`, and after `import` the
symbol table of the project is not empty, it maps `__KERNEL__` to the empty string. -/
theorem import_without_dotconfig_counterexample :
    ((importProject bareWorld (fun _ => none) Plugin.init plainProject)._defines 1).map
      (fun table => table "__KERNEL__".toList) = some (some []) := by
  decide

theorem plainName_last (x : QString) (hx : PlainName x) : x.getLast? ≠ some '/' := by
  intro h
  obtain ⟨t, rfl⟩ := List.getLast?_eq_some_iff.1 h
  exact hx.2.1 (by simp)

theorem plainName_head (x : QString) (hx : PlainName x) : x.head? ≠ some '/' := by
  obtain ⟨h1, h2, -⟩ := hx
  cases x with
  | nil => exact absurd rfl h1
  | cons c cs =>
    simp only [List.head?_cons, ne_eq, Option.some.injEq]
    rintro rfl
    exact h2 (List.mem_cons_self _ _)

/-- The two directories that `import` seeds for an architecture. -/
theorem archUrls (root A : QString) (hroot : CanonicalDir root) (hA : PlainName A) :
    KUrl.relative root "arch/".toList = root ++ "arch/".toList
      ∧ KUrl.adjustPath (KUrl.relative (root ++ "arch/".toList) A)
          = root ++ "arch/".toList ++ A ++ ['/'] := by
  obtain ⟨r0, hr0⟩ := (endsWith_slash_iff root).1 hroot.1
  have h1 : KUrl.relative root "arch/".toList = root ++ "arch/".toList :=
    relative_eq_append _ _ hroot.1 hroot.2.2 (by decide) (by decide)
  have hc : CleanPath (root ++ "arch/".toList) := by
    rw [hr0]
    have := cleanPath_append r0 "arch/".toList (by rw [← hr0]; exact hroot.2.2) (by decide)
    simpa using this
  have he : endsWith (root ++ "arch/".toList) ['/'] = true :=
    (endsWith_slash_iff _).2 ⟨root ++ "arch".toList, by simp⟩
  have h2 : KUrl.relative (root ++ "arch/".toList) A = root ++ "arch/".toList ++ A :=
    relative_eq_append _ _ he hc (cleanPath_plain A hA) (plainName_head A hA)
  refine ⟨h1, ?_⟩
  rw [h2]
  unfold KUrl.adjustPath
  have hlast : (root ++ "arch/".toList ++ A).getLast? ≠ some '/' := by
    obtain ⟨c, l, hr, hcc, -⟩ := reverse_name A hA.1 hA.2.1
    have hA' : A = l.reverse ++ [c] := by
      have := congrArg List.reverse hr
      simpa using this
    rw [hA', ← List.append_assoc, List.getLast?_concat]
    simpa using hcc
  have hne : root ++ "arch/".toList ++ A ≠ [] := by
    intro h
    exact hA.1 (List.append_eq_nil.1 h).2
  rw [if_pos ⟨hne, hlast⟩]

/-- C11, as amended: right after `import` the entry of the project root has the thirteen
names `init`, `sound`, `net`, `lib`, `usr`, `kernel`, `mm`, `fs`, `ipc`, `security`,
`crypto`, `block` and `drivers` as valid files; and when an architecture `A` is configured,
the root's entry has `arch`, the entry of `<root>/arch/` has `A`, and the entry of
`<root>/arch/A/` has `boot`. -/
theorem import_seeding (w : World) (afterMake : QString → Option FileEntry) (st : Plugin)
    (P : IProject) (hP : WellFormed P) :
    (∀ n ∈ ["init", "sound", "net", "lib", "usr", "kernel", "mm", "fs", "ipc", "security",
          "crypto", "block", "drivers"].map String.toList,
        n ∈ ((importProject w afterMake st P).entry P.ptr P.folder).validFiles)
      ∧ ∀ A, P.KERN_ARCH = some A → PlainName A →
          "arch".toList ∈ ((importProject w afterMake st P).entry P.ptr P.folder).validFiles
            ∧ A ∈ ((importProject w afterMake st P).entry P.ptr
                (P.folder ++ "arch/".toList)).validFiles
            ∧ "boot".toList ∈ ((importProject w afterMake st P).entry P.ptr
                (P.folder ++ "arch/".toList ++ A ++ ['/'])).validFiles := by
  refine ⟨(importProject_root w afterMake st P hP).2, ?_⟩
  intro A hA hplain
  obtain ⟨u1, u2⟩ := archUrls P.folder A hP hplain
  unfold importProject
  simp only [hA]
  rw [adjustPath_of_endsWith _ hP.1]
  have hfold := fun s => extends_foldl_addValid P.ptr P.folder rootDirs s
  unfold seedArch
  simp only [u1, u2]
  refine ⟨(hfold _).monoValid _ _ ?_, (hfold _).monoValid _ _ ?_, (hfold _).monoValid _ _ ?_⟩
  · apply (extends_addValid _ _ _ _).monoValid
    apply (extends_addValid _ _ _ _).monoValid
    apply (extends_setLastUpdate _ _ _ _).monoValid
    exact (mem_entry_addValid _ _ _ _ _ _ _).2 (Or.inr ⟨rfl, rfl, rfl⟩)
  · apply (extends_addValid _ _ _ _).monoValid
    exact (mem_entry_addValid _ _ _ _ _ _ _).2 (Or.inr ⟨rfl, rfl, rfl⟩)
  · exact (mem_entry_addValid _ _ _ _ _ _ _).2 (Or.inr ⟨rfl, rfl, rfl⟩)

theorem import_seeding_witness :
    "arch".toList ∈ ((importProject bareWorld (fun _ => none) Plugin.init armProject).entry 2
        "/k/".toList).validFiles
      ∧ "arm".toList ∈ ((importProject bareWorld (fun _ => none) Plugin.init armProject).entry 2
        "/k/arch/".toList).validFiles
      ∧ "boot".toList ∈ ((importProject bareWorld (fun _ => none) Plugin.init armProject).entry 2
        "/k/arch/arm/".toList).validFiles :=
  (import_seeding bareWorld (fun _ => none) Plugin.init armProject (by decide)).2 "arm".toList rfl
    (by decide)

/-- C11, the claim as stated fails: after `import` of a project for the architecture
`arm`, neither `arch/arm` nor `arch/arm/boot` is among the valid files of the root; the
root's entry holds `arch` and the thirteen names. -/
theorem import_seeding_counterexample :
    ((importProject bareWorld (fun _ => none) Plugin.init armProject).entry 2
        "/k/".toList).validFiles
      = ["arch", "init", "sound", "net", "lib", "usr", "kernel", "mm", "fs", "ipc", "security",
          "crypto", "block", "drivers"].map String.toList
      ∧ "arch/arm".toList ∉ ((importProject bareWorld (fun _ => none) Plugin.init armProject).entry 2
        "/k/".toList).validFiles
      ∧ "arch/arm/boot".toList ∉ ((importProject bareWorld (fun _ => none) Plugin.init
        armProject).entry 2 "/k/".toList).validFiles := by
  decide

/-! ## Machine and platform rules -/

theorem normalizeFile_slash (x : QString) : normalizeFile (x ++ ['/']) = x := by
  have h1 : endsWith (x ++ ['/']) ['.', 'o'] = false := by
    simp [endsWith, List.isSuffixOf, List.isPrefixOf]
  have h2 : endsWith (x ++ ['/']) ['.', 'd', 't', 'b'] = false := by
    simp [endsWith, List.isSuffixOf, List.isPrefixOf]
  have h3 : endsWith (x ++ ['/']) ['/'] = true := (endsWith_iff _ _).2 ⟨x, rfl⟩
  unfold normalizeFile
  rw [h1, h2, h3]
  simp only [Bool.false_eq_true, if_false, if_true, left, size, List.length_append,
    List.length_singleton]
  rw [if_neg (by omega)]
  have : ((x.length + 1 : Nat) : Int) - 1 = (x.length : Int) := by omega
  rw [this]
  simp

theorem scanLine_mach (ptr : Nat) (s : Scan) (line cap1 cap2 cap3 : QString)
    (hc : s.cont = none) (hm : objyExactMatch line = some (cap1, cap2, cap3))
    (hcap : cap1 = "machine".toList ∨ cap1 = "plat".toList) :
    scanLine ptr s line =
      if isActive (resolveSuffix s.st ptr cap2) = true then
        (splitSkipEmpty cap3).foldl (scanMach ptr cap1) s
      else
        { cont := if endsWith line ['\\', '\n'] then some false else none
          files := s.files
          st := s.st } := by
  have hor : (decide (cap1 = "machine".toList) || decide (cap1 = "plat".toList)) = true := by
    rcases hcap with h | h <;> simp [h]
  unfold scanLine
  simp only [hc, hm, hor, Bool.and_true]
  by_cases ha : isActive (resolveSuffix s.st ptr cap2) = true
  · simp [ha]
  · have ha' : isActive (resolveSuffix s.st ptr cap2) = false := by simpa using ha
    simp [ha']

theorem scanMach_mem (ptr : Nat) (cap1 : QString) :
    ∀ (toks : List QString) (s : Scan) (t : QString), t ∈ toks →
      ((if cap1 = "machine".toList then "mach-".toList else "plat-".toList) ++ t)
          ∈ (toks.foldl (scanMach ptr cap1) s).st.machDirs ptr
        ∧ ((if cap1 = "machine".toList then "mach-".toList else "plat-".toList) ++ t ++ ['/'])
          ∈ (toks.foldl (scanMach ptr cap1) s).files := by
  intro toks
  induction toks with
  | nil => intro s t h; cases h
  | cons u us ih =>
    intro s t h
    simp only [List.foldl_cons]
    rcases List.mem_cons.1 h with rfl | h
    · constructor
      · apply (extends_scanMach ptr cap1 us _).monoMach
        exact (mem_machDirs_addMachDir _ _ _ _ _).2 (Or.inr ⟨rfl, rfl⟩)
      · apply scanMach_files_mono
        simp [scanMach]
    · exact ih _ t h

/-- A line read by the continuation loop of a rule: its tokens are collected when the
rule is active, and the loop goes on when the line ends in backslash-newline. -/
theorem scanLine_cont (ptr : Nat) (s : Scan) (line : QString) (addFiles : Bool)
    (hc : s.cont = some addFiles) :
    scanLine ptr s line =
      { cont := if endsWith line ['\\', '\n'] then some addFiles else none
        files :=
          if addFiles then s.files ++ splitSkipEmpty (remove (remove line ['\\', '\n']) ['\n'])
          else s.files
        st := s.st } := by
  unfold scanLine
  simp only [hc]

/-- C16, at the failing input: the Makefile of `/k/` holds `machine-y += omap1 \` continued
by the line `omap2`, and `obj-y += a.o \` continued by the line `b.o`.  The continuation
of the `obj` rule is collected (`b.c` is a valid file), the continuation of the `machine`
rule is not: `mach-omap2` is neither a machine directory nor a valid file. -/
theorem continuation_machine_dropped :
    (parseMakefile 0 contWorld Plugin.init "/k/".toList plainProject).map
        (fun st' => ((st'.entry 1 "/k/".toList).validFiles, st'.machDirs 1))
      = some (["mach-omap1", "a.c", "b.c"].map String.toList, ["mach-omap1".toList]) := by
  decide

/-! ## Termination of the fan-out loop -/

/-- C20, at the failing input: the directory is `/` and the token `a/c.c` has two plain
components.  The loop of lines 250 to 255 starts at `/a`, its first iteration writes to
the entry of `//`, which is neither `/` nor below it, and the loop does not end, whatever
the fuel. -/
theorem climb_root_diverges (ptr : Nat) :
    KUrl.directory (KUrl.relative "/".toList "a/c.c".toList) = "/a".toList
      ∧ KUrl.directory "/a".toList ++ ['/'] = "//".toList
      ∧ ∀ (fuel : Nat) (st : Plugin), climb ptr "/".toList fuel "/a".toList st = none := by
  refine ⟨by decide, by decide, ?_⟩
  intro fuel st
  cases fuel with
  | zero => rfl
  | succ n =>
    unfold climb
    rw [if_neg (by decide)]
    exact climb_root_stuck ptr n _

/-! ## Normalisation of a token -/

theorem mid_chop (b s : QString) (hs : s ≠ []) :
    mid (b ++ s) 0 (size (b ++ s) - (s.length : Int)) = b := by
  have hsz : size (b ++ s) - (s.length : Int) = (b.length : Int) := by
    simp only [size, List.length_append]
    push_cast
    omega
  have hlen : ¬ (b ++ s).length ≤ 0 := by
    have : 0 < s.length := List.length_pos.2 hs
    simp only [List.length_append]
    omega
  rw [hsz]
  unfold mid
  rw [if_neg hlen, if_neg (by omega)]
  simp

theorem left_chop (b : QString) : left (b ++ ['/']) (size (b ++ ['/']) - 1) = b := by
  have hsz : size (b ++ ['/']) - 1 = (b.length : Int) := by
    simp only [size, List.length_append, List.length_singleton]
    push_cast
    omega
  rw [hsz]
  unfold left
  rw [if_neg (by omega)]
  simp

/-! ## Parses that return -/

theorem intercalate_snoc (ys : List QString) (f : QString) :
    List.intercalate ['/'] (ys ++ [f]) = relPath ys f := by
  induction ys with
  | nil => simp [List.intercalate, relPath]
  | cons y ys ih =>
    rw [relPath_cons, ← ih]
    cases ys with
    | nil => simp [List.intercalate]
    | cons z zs => simp [List.intercalate, List.intersperse]

theorem relPath_of_splitOn (file : QString) (hs : '/' ∈ file)
    (hp : ∀ x ∈ file.splitOn '/', PlainName x) :
    ∃ xs f, xs ≠ [] ∧ (∀ x ∈ xs, PlainName x) ∧ PlainName f ∧ file = relPath xs f
      ∧ (file.splitOn '/').length = xs.length + 1 := by
  have hint : List.intercalate ['/'] (file.splitOn '/') = file := List.intercalate_splitOn file '/'
  rcases List.eq_nil_or_concat (file.splitOn '/') with h | ⟨ys, f, h⟩
  · rw [h] at hint
    rw [← hint] at hs
    simp [List.intercalate] at hs
  · have h' : file.splitOn '/' = ys ++ [f] := by simpa using h
    have hf : PlainName f := hp f (by rw [h']; simp)
    have hys : ∀ x ∈ ys, PlainName x := fun x hx => hp x (by rw [h']; simp [hx])
    rw [h', intercalate_snoc] at hint
    refine ⟨ys, f, ?_, hys, hf, hint.symm, by rw [h']; simp⟩
    rintro rfl
    rw [← hint] at hs
    exact hf.2.1 (by simpa [relPath] using hs)

theorem canonicalDir_below (dir : KUrl) (hd : CanonicalDir dir) (hne : dir ≠ ['/']) :
    ∃ Q, Q ≠ [] ∧ dir = Q ++ ['/'] ∧ CleanPath (Q ++ ['/']) := by
  obtain ⟨d0, rfl, -⟩ := canonicalDir_split dir hd
  refine ⟨d0, ?_, rfl, hd.2.2⟩
  rintro rfl
  exact hne rfl

/-- One tame token: the body of the `foreach` returns. -/
theorem addFile_returns (fuel ptr : Nat) (dir : KUrl) (archDir file0 : QString) (st : Plugin)
    (hd : CanonicalDir dir) (hne : dir ≠ ['/']) (ht : TameToken fuel dir archDir file0) :
    ∃ st', addFile fuel ptr dir archDir st file0 = some st' := by
  by_cases hs : '/' ∈ stripArch dir archDir (normalizeFile file0)
  · rcases ht with ht | ⟨hp, hlen⟩
    · exact absurd hs ht
    · obtain ⟨Q, hQ, rfl, hclean⟩ := canonicalDir_below dir hd hne
      obtain ⟨xs, f, hxs, hpl, hf, heq, hl⟩ := relPath_of_splitOn _ hs hp
      obtain ⟨st', h, -⟩ := fanOut_addFile fuel ptr Q archDir file0 f xs st hQ hclean hpl hf hxs
        (by omega) heq
      exact ⟨st', h⟩
  · exact ⟨_, addFile_plain fuel ptr dir archDir st file0 hs⟩

theorem addFiles_returns (fuel ptr : Nat) (dir : KUrl) (archDir : QString)
    (hd : CanonicalDir dir) (hne : dir ≠ ['/']) :
    ∀ (files : List QString) (st : Plugin), (∀ f ∈ files, TameToken fuel dir archDir f) →
      ∃ st', addFiles fuel ptr dir archDir st files = some st' := by
  intro files
  induction files with
  | nil => intro st _; exact ⟨st, rfl⟩
  | cons f fs ih =>
    intro st h
    obtain ⟨st1, h1⟩ := addFile_returns fuel ptr dir archDir f st hd hne (h f (by simp))
    obtain ⟨st2, h2⟩ := ih st1 (fun g hg => h g (by simp [hg]))
    refine ⟨st2, ?_⟩
    unfold addFiles
    rw [h1]
    exact h2

/-- A tame call of `parseMakefile` returns. -/
theorem parseMakefile_returns (fuel : Nat) (w : World) (st : Plugin) (dir : KUrl) (P : IProject)
    (h : TameParse fuel w st dir P) : ∃ st', parseMakefile fuel w st dir P = some st' := by
  obtain ⟨hd, hne, ht⟩ := h
  unfold collected at ht
  unfold parseMakefile
  simp only
  cases hf : w.files (KUrl.relative dir "Makefile".toList) with
  | none => exact ⟨_, rfl⟩
  | some entry =>
    cases hc : entry.content with
    | none => simp only [hc]; exact ⟨_, rfl⟩
    | some text =>
      simp only [hf, hc] at ht ⊢
      exact addFiles_returns fuel P.ptr dir (archDirOf P) hd hne _ _ ht

theorem collected_touchEntry (w : World) (st : Plugin) (p : Nat) (d dir : KUrl) (P : IProject) :
    collected w (st.touchEntry p d) dir P = collected w st dir P := by
  have hc : Covers (fun _ _ _ => False) (fun _ _ => False) (st.touchEntry p d) st := by
    refine ⟨fun q d' f => ?_, fun q m => ?_, fun q k => ?_⟩
    · rw [entry_touchEntry]; simp
    · unfold Plugin.touchEntry Plugin.setEntry Plugin.machDirs; simp
    · unfold Plugin.touchEntry Plugin.setEntry Plugin.define; simp
  have h0 : Covers (fun _ _ _ => False) (fun _ _ => False)
      (parseEnter w (st.touchEntry p d) dir P) (parseEnter w st dir P) :=
    covers_setLastUpdate hc P.ptr dir w.now w.now
  unfold collected
  cases w.files (KUrl.relative dir "Makefile".toList) with
  | none => rfl
  | some entry =>
    simp only
    cases entry.content with
    | none => rfl
    | some text =>
      simp only
      exact (covers_scan P.ptr (readLines text)
        ⟨none, [], parseEnter w (st.touchEntry p d) dir P⟩ ⟨none, [], parseEnter w st dir P⟩
        rfl rfl h0).2.1

/-- The refresh step of `isValid` returns when the parse it may have to make is tame. -/
theorem refresh_returns (fuel : Nat) (w : World) (st : Plugin) (dir : KUrl) (P : IProject)
    (h : TameParse fuel w st dir P) : ∃ st1, refresh fuel w st dir P = some st1 := by
  have h' : TameParse fuel w (st.touchEntry P.ptr dir) dir P := by
    obtain ⟨hd, hne, ht⟩ := h
    exact ⟨hd, hne, by rw [collected_touchEntry]; exact ht⟩
  unfold refresh
  simp only
  split
  · exact ⟨_, rfl⟩
  · split
    · exact parseMakefile_returns fuel w _ dir P h'
    · exact ⟨_, rfl⟩

/-! ## A parse that does not return -/

theorem climb_slashes_stuck (ptr : Nat) (dir : KUrl) (hdir : dir ≠ ['/', '/']) :
    ∀ (fuel : Nat) (st : Plugin), climb ptr dir fuel ['/', '/'] st = none := by
  intro fuel
  induction fuel with
  | zero =>
    intro st
    unfold climb
    rw [if_neg (Ne.symm hdir)]
  | succ n ih =>
    intro st
    unfold climb
    rw [if_neg (Ne.symm hdir)]
    exact ih _

/-- A walk whose first step leads to `//` does not reach the directory. -/
theorem climb_to_slashes (ptr : Nat) (dir nDir : KUrl) (hne : nDir ≠ dir)
    (hstep : KUrl.directory nDir ++ ['/'] = ['/', '/']) (hdir : dir ≠ ['/', '/']) (fuel : Nat)
    (st : Plugin) : climb ptr dir fuel nDir st = none := by
  cases fuel with
  | zero =>
    unfold climb
    rw [if_neg hne]
  | succ n =>
    unfold climb
    rw [if_neg hne]
    simp only [hstep]
    exact climb_slashes_stuck ptr dir hdir n _

/-- A Makefile with the one rule `obj-y += ../x.o`, in a directory from which `..` leads
to a directory directly below `/`: the loop of lines 250 to 255 passes above the
directory, reaches `//` and stays there, so `parseMakefile` does not return. -/
theorem parseMakefile_dotdot (fuel : Nat) (w : World) (st : Plugin) (dir : KUrl) (P : IProject)
    (mk : FileEntry) (nDir : KUrl)
    (hmk : w.files (KUrl.relative dir "Makefile".toList) = some mk)
    (htext : mk.content = some "obj-y += ../x.o\n".toList)
    (hd : KUrl.directory (KUrl.relative dir "../x.c".toList) = nDir) (hne : nDir ≠ dir)
    (hstep : KUrl.directory nDir ++ ['/'] = ['/', '/']) (hdir : dir ≠ ['/', '/']) :
    parseMakefile fuel w st dir P = none := by
  have hline : objyExactMatch "obj-y += ../x.o\n".toList
      = some ("obj".toList, ['y'], " ../x.o".toList) := by decide
  have hr : readLines "obj-y += ../x.o\n".toList = ["obj-y += ../x.o\n".toList] := by decide
  have hact : isActive ['y'] = true := by decide
  have hsp : splitSkipEmpty " ../x.o".toList = ["../x.o".toList] := by decide
  have hnorm : normalizeFile "../x.o".toList = "../x.c".toList := by decide
  have hn : stripArch dir (archDirOf P) (normalizeFile "../x.o".toList) = "../x.c".toList := by
    rw [hnorm]
    exact stripArch_not_arch dir P '.' "./x.c".toList (by decide)
  unfold parseMakefile
  simp only [hmk, htext, hr, List.foldl_cons, List.foldl_nil]
  rw [scanLine_rule _ _ _ _ _ _ rfl hline (by decide) (by decide), resolveSuffix_y]
  simp only [hact, hsp, if_true, List.nil_append]
  unfold addFiles addFile
  simp only [hn]
  rw [if_pos (by decide), hd, climb_to_slashes P.ptr dir nDir hne hstep hdir]

/-- Function `isValid` on a path whose directory holds such a Makefile, due for a parse: the call
does not return. -/
theorem isValid_dotdot (fuel : Nat) (w : World) (st : Plugin) (url : KUrl) (isFolder : Bool)
    (P : IProject) (mk : FileEntry) (nDir : KUrl)
    (hmk : w.files (KUrl.relative (KUrl.adjustPath (KUrl.directory url)) "Makefile".toList)
      = some mk)
    (htext : mk.content = some "obj-y += ../x.o\n".toList)
    (hdue : (st.entry P.ptr (KUrl.adjustPath (KUrl.directory url))).lastUpdate ≤ mk.lastModified)
    (hd : KUrl.directory (KUrl.relative (KUrl.adjustPath (KUrl.directory url)) "../x.c".toList)
      = nDir)
    (hne : nDir ≠ KUrl.adjustPath (KUrl.directory url))
    (hstep : KUrl.directory nDir ++ ['/'] = ['/', '/'])
    (hdir : KUrl.adjustPath (KUrl.directory url) ≠ ['/', '/']) :
    isValid fuel w st url isFolder P = none := by
  rw [isValid_eq]
  unfold refresh
  simp only [hmk]
  rw [if_pos (by rw [entry_touchEntry]; exact hdue),
    parseMakefile_dotdot fuel w _ _ P mk nDir hmk htext hd hne hstep hdir]
  rfl

/-- A path that the rules before the look-up accept in every state: `isValid` is its
refresh step followed by the answer `true`; it returns `true` when no parse is due, and
when the parse that is due is tame. -/
theorem isValid_true (fuel : Nat) (w : World) (st : Plugin) (url : KUrl) (isFolder : Bool)
    (P : IProject) (hans : ∀ s, answer s url P = true) :
    isValid fuel w st url isFolder P =
        (refresh fuel w st (KUrl.adjustPath (KUrl.directory url)) P).map
          (fun st1 => (true, st1))
      ∧ ((w.files (KUrl.relative (KUrl.adjustPath (KUrl.directory url)) "Makefile".toList) = none
            ∨ ∃ m, w.files (KUrl.relative (KUrl.adjustPath (KUrl.directory url)) "Makefile".toList)
                  = some m
                ∧ m.lastModified < (st.entry P.ptr (KUrl.adjustPath (KUrl.directory url))).lastUpdate) →
          isValid fuel w st url isFolder P =
            some (true, st.touchEntry P.ptr (KUrl.adjustPath (KUrl.directory url))))
      ∧ (TameParse fuel w st (KUrl.adjustPath (KUrl.directory url)) P →
          ∃ st1, isValid fuel w st url isFolder P = some (true, st1)) := by
  rw [isValid_eq]
  refine ⟨by simp [hans], fun hno => ?_, fun ht => ?_⟩
  · rw [refresh_noParse fuel w st _ P hno]
    simp [hans]
  · obtain ⟨st1, h1⟩ := refresh_returns fuel w st _ P ht
    exact ⟨st1, by rw [h1]; simp [hans]⟩

/-! ## The rules of `isValid` that do not look at the cache -/

/-- C10, at the failing input: the architecture is `%1` and the project has the machine
directory `mach-omap2`, from the rule `machine-y += omap2`.  The entry for the machine
directory is `<root>/arch/mach-omap2/%2/include`, not `<root>/arch/%1/mach-omap2/include`:
the second `arg` of line 98 replaces the `%1` that the first one has just inserted. -/
theorem includeDirectories_marker :
    includeDirectories
        ((parseMakefile 0 machWorld Plugin.init "/k/".toList markerProject).getD Plugin.init)
        markerProject
      = ["/k/include", "/k/arch/%1/include", "/k/arch/mach-omap2/%2/include",
          "/k/arch/%1/include/generated"].map String.toList
      ∧ "/k/arch/%1/mach-omap2/include".toList ∉ includeDirectories
          ((parseMakefile 0 machWorld Plugin.init "/k/".toList markerProject).getD Plugin.init)
          markerProject := by
  decide

/-! ## Conditional rules, with the parse returning -/

/-- The continuation loop of a rule goes on over lines that end in backslash-newline. -/
theorem scan_conts (ptr : Nat) (b : Bool) :
    ∀ (conts : List QString) (s : Scan), s.cont = some b →
      (∀ c ∈ conts, endsWith c ['\\', '\n'] = true) →
      (conts.foldl (scanLine ptr) s).cont = some b := by
  intro conts
  induction conts with
  | nil => intro s h _; exact h
  | cons c cs ih =>
    intro s h hall
    simp only [List.foldl_cons]
    apply ih
    · rw [scanLine_cont ptr s c b h]
      simp only
      rw [hall c (by simp)]
      simp
    · intro d hd
      exact hall d (by simp [hd])

theorem normalizeFile_o (b : QString) : normalizeFile (b ++ ".o".toList) = b ++ ".c".toList := by
  have h1 : endsWith (b ++ ".o".toList) ['.', 'o'] = true := (endsWith_iff _ _).2 ⟨b, rfl⟩
  unfold normalizeFile
  rw [h1, if_pos rfl]
  have := mid_chop b ".o".toList (by decide)
  rw [show ((".o".toList.length : Nat) : Int) = 2 from rfl] at this
  rw [this]
  rfl

theorem normalizeFile_dtb (b : QString) :
    normalizeFile (b ++ ".dtb".toList) = b ++ ".dts".toList := by
  have h2 : endsWith (b ++ ".dtb".toList) ['.', 'd', 't', 'b'] = true :=
    (endsWith_iff _ _).2 ⟨b, rfl⟩
  have hno' : endsWith (b ++ ".dtb".toList) ['.', 'o'] = false := by
    have : b ++ ".dtb".toList = (b ++ ".dt".toList) ++ ['b'] := by simp
    rw [this]
    simp [endsWith, List.isSuffixOf, List.isPrefixOf]
  unfold normalizeFile
  rw [hno', if_neg (by simp), h2, if_pos rfl]
  have := mid_chop b ".dtb".toList (by decide)
  rw [show ((".dtb".toList.length : Nat) : Int) = 4 from rfl] at this
  rw [this]
  rfl

theorem normalizeFile_other (t : QString) (hno : endsWith t ".o".toList = false)
    (hnd : endsWith t ".dtb".toList = false) (hns : endsWith t ['/'] = false) :
    normalizeFile t = t := by
  have hno' : endsWith t ['.', 'o'] = false := hno
  have hnd' : endsWith t ['.', 'd', 't', 'b'] = false := hnd
  unfold normalizeFile
  rw [hno', if_neg (by simp), hnd', if_neg (by simp), hns, if_neg (by simp)]

theorem stripArch_cases (dir : KUrl) (archDir file : QString) :
    (endsWith dir archDir = true → ∀ r, file = archDir ++ r → stripArch dir archDir file = r)
      ∧ ((endsWith dir archDir = false ∨ startsWith file archDir = false) →
          stripArch dir archDir file = file) := by
  constructor
  · intro hd r hr
    unfold stripArch
    have hs : startsWith file archDir = true := (startsWith_iff _ _).2 ⟨r, hr⟩
    rw [hd, hs]
    simp only [Bool.and_self, if_true]
    rw [mid_neg_one, hr]
    simp
  · intro h
    unfold stripArch
    rcases h with h | h
    · rw [h]; simp
    · rw [h]; simp

/-- The token `../x.o` in a directory from which `..` leads to a directory directly below
`/`: the body of the `foreach` does not return. -/
theorem addFile_dotdot (fuel : Nat) (dir : KUrl) (P : IProject) (st : Plugin) (nDir : KUrl)
    (hd : KUrl.directory (KUrl.relative dir "../x.c".toList) = nDir) (hne : nDir ≠ dir)
    (hstep : KUrl.directory nDir ++ ['/'] = ['/', '/']) (hdir : dir ≠ ['/', '/']) :
    addFile fuel P.ptr dir (archDirOf P) st "../x.o".toList = none := by
  have hnorm : normalizeFile "../x.o".toList = "../x.c".toList := by decide
  have hn : stripArch dir (archDirOf P) (normalizeFile "../x.o".toList) = "../x.c".toList := by
    rw [hnorm]
    exact stripArch_not_arch dir P '.' "./x.c".toList (by decide)
  unfold addFile
  simp only [hn]
  rw [if_pos (by decide), hd, climb_to_slashes P.ptr dir nDir hne hstep hdir]

theorem addFiles_none (fuel ptr : Nat) (dir : KUrl) (archDir f : QString)
    (hf : ∀ st, addFile fuel ptr dir archDir st f = none) :
    ∀ (files : List QString) (st : Plugin), f ∈ files →
      addFiles fuel ptr dir archDir st files = none := by
  intro files
  induction files with
  | nil => intro st h; cases h
  | cons g gs ih =>
    intro st h
    unfold addFiles
    rcases List.mem_cons.1 h with rfl | h
    · rw [hf]
    · cases addFile fuel ptr dir archDir st g with
      | none => rfl
      | some st1 => exact ih st1 h

/-- A parse that collects a token on which the fan-out loop does not end does not
return, and so adds none of the other tokens. -/
theorem parseMakefile_none (fuel : Nat) (w : World) (st : Plugin) (dir : KUrl) (P : IProject)
    (f : QString) (hf : ∀ s, addFile fuel P.ptr dir (archDirOf P) s f = none)
    (hc : f ∈ collected w st dir P) : parseMakefile fuel w st dir P = none := by
  unfold collected at hc
  unfold parseMakefile
  simp only
  cases hfile : w.files (KUrl.relative dir "Makefile".toList) with
  | none => rw [hfile] at hc; cases hc
  | some entry =>
    rw [hfile] at hc
    simp only at hc ⊢
    cases htext : entry.content with
    | none => rw [htext] at hc; cases hc
    | some text =>
      rw [htext] at hc
      simp only at hc ⊢
      exact addFiles_none fuel P.ptr dir (archDirOf P) f hf _ _ hc

end KDevKernel
